import Mathlib

/-!
# Bloom filter with OpenMP: a shallow embedding

Embedding of `bloom_filter_parallelize.c` and `bloom_filter_serialise.c`.

Conventions of the embedding.

* A token is the content of a C string: the bytes before the terminating NUL,
  each byte a value in `0..255`.
* Plain `char` is signed (the x86-64 ABI the OpenMP program is built for), so
  the conversion `(unsigned long)word[i]` sign-extends bytes of 128 and above.
* `unsigned long` is 64 bits wide and wraps modulo `2^64`.
* An operation whose behaviour is undefined in C (division by zero, an access
  outside the allocated array) yields `none`.
* A `double` is the real number it stands for, and every `double` operation
  rounds the exact result to the nearest `double` (IEEE 754 binary64, ties to
  even, subnormals included). No operation of `calc_optimum_bitArraySize`
  reaches the overflow range, so infinities are not modelled. `log` and `pow`
  of `<math.h>` are read as correctly rounded.
* `int` is 32 bits wide: an `int` product or a conversion from `double` that
  leaves the range is undefined. The counters of the loader are taken in
  their non-negative range as `Nat`.
* Allocation (`realloc`, `strdup`, `calloc`) is assumed to succeed.
* The iterations of the parallel loop are listed in the order in which they
  take effect; the reductions combine them in that order. The variable `m`
  of the parallel `main` is shared by the threads: what an iteration reads
  back from it is an input of the iteration.
* Clock readings (`clock()`, `omp_get_wtime()`) are inputs of a run; a duration
  is the difference of two readings.
-/

namespace BloomFilter

/-- The bytes of a C string, terminator excluded. -/
abbrev Token := List (Fin 256)

/-- The configured read-buffer size, `#define MAX_STRING_LEN 100`. -/
def MAX_STRING_LEN : Nat := 100

/-- The number of hash calls per operation, `#define NUM_HASH_FUNCTIONS 4`. -/
def NUM_HASH_FUNCTIONS : Nat := 4

/-- The modulus of `unsigned long` arithmetic. -/
def ULONG_MOD : Nat := 2 ^ 64

/-- The conversion `(unsigned long)word[i]` of a signed `char`: bytes below 128
keep their value, bytes of 128 and above are negative and sign-extend. -/
def char_to_ulong (c : Fin 256) : Nat :=
  if c.val < 128 then c.val else ULONG_MOD - 256 + c.val

/-- The loop `for (i = 0; i < len; i++) hash += (unsigned long)word[i];`. -/
def hash_loop : Token → Nat → Nat
  | [], hash => hash
  | c :: rest, hash => hash_loop rest ((hash + char_to_ulong c) % ULONG_MOD)

/-- The function `division_method_hash(word, m)`: `hash % m`, undefined for
`m = 0`. -/
def division_method_hash (word : Token) (m : Nat) : Option Nat :=
  if m = 0 then none else some (hash_loop word 0 % m)

/-- The inner insertion loop `for (j = 0; j < k; j++) bit_array[hash] = 1;`
for one word, with `j` iterations left. -/
def insert_word (word : Token) (m : Nat) : Nat → List Nat → Option (List Nat)
  | 0, bit_array => some bit_array
  | j + 1, bit_array =>
    match division_method_hash word m with
    | none => none
    | some hash =>
      if hash < bit_array.length then insert_word word m j (bit_array.set hash 1)
      else none

/-- The outer insertion loop over `strings_arr`. -/
def build_loop (k m : Nat) : List Token → List Nat → Option (List Nat)
  | [], bit_array => some bit_array
  | word :: rest, bit_array =>
    match insert_word word m k bit_array with
    | none => none
    | some bit_array1 => build_loop k m rest bit_array1

/-- The bit array after `calloc(m, sizeof(int))` and the insertion loops. -/
def build (k : Nat) (strings_arr : List Token) (m : Nat) : Option (List Nat) :=
  build_loop k m strings_arr (List.replicate m 0)

/-- The query loop: `is_present` starts at 1 and the loop breaks with 0 at the
first hash position that holds 0; `j` iterations left. -/
def query_loop (query : Token) (m : Nat) (bit_array : List Nat) : Nat → Option Bool
  | 0 => some true
  | j + 1 =>
    match division_method_hash query m with
    | none => none
    | some hash =>
      match bit_array[hash]? with
      | none => none
      | some b => if b = 0 then some false else query_loop query m bit_array j

/-- The membership query with `k` hash calls. -/
def query (k : Nat) (word : Token) (bit_array : List Nat) (m : Nat) : Option Bool :=
  query_loop word m bit_array k

/-- The function `duplicated_strings`: a linear scan of the first `num_strings`
entries of `strings_arr` for one that `strcmp` finds equal to `string`. -/
def duplicated_strings (string : Token) : List Token → Nat → Bool
  | _, 0 => false
  | [], _ + 1 => false
  | s :: rest, num_strings + 1 =>
    if s = string then true else duplicated_strings string rest num_strings

/-- The variables that `read_strings_from_file` receives by address. -/
structure LoadVars where
  strings_arr : List Token
  num_strings : Nat
  total_strings : Nat
  deriving DecidableEq, Repr

/-- The C string that a buffer holds: the bytes before its first NUL byte.
`strcmp` and `strdup` see nothing else of the buffer. -/
def c_str (buffer : Token) : Token :=
  buffer.takeWhile (fun c => c ≠ 0)

/-- One call `fscanf(file, "%s", buffer)` on the next whitespace-delimited run
of the file. The conversion has no field width: a run that does not fit
`char buffer[MAX_STRING_LEN]` together with its terminator is written past
the end of the buffer, which is undefined. -/
def fscanf_s (run : Token) : Option Token :=
  if run.length < MAX_STRING_LEN then some run else none

/-- The loop `while (fscanf(file, "%s", buffer) != EOF)` over the runs that are
left in the file. A run is a maximal sequence of non-whitespace bytes and may
hold NUL bytes; `duplicated_strings(buffer, ...)` compares and `strdup(buffer)`
stores the C string of the buffer. -/
def read_loop : List Token → LoadVars → Option LoadVars
  | [], v => some v
  | run :: rest, v =>
    match fscanf_s run with
    | none => none
    | some buffer =>
      if duplicated_strings (c_str buffer) v.strings_arr v.num_strings then
        read_loop rest { v with total_strings := v.total_strings + 1 }
      else
        read_loop rest
          { strings_arr := v.strings_arr ++ [c_str buffer],
            num_strings := v.num_strings + 1,
            total_strings := v.total_strings + 1 }

/-- The function `read_strings_from_file`. The file is `none` when `fopen`
fails: the function then returns 0 and leaves the caller's variables alone.
Otherwise it resets `*strings_arr` and `*num_strings` (not `*total_strings`),
runs the read loop and returns 1. -/
def read_strings_from_file (file : Option (List Token)) (v : LoadVars) :
    Option (Bool × LoadVars) :=
  match file with
  | none => some (false, v)
  | some runs =>
    match read_loop runs { v with strings_arr := [], num_strings := 0 } with
    | none => none
    | some v1 => some (true, v1)

/-- Rounding of a real to the nearest integer, ties to the even one. -/
noncomputable def round_ties_even (x : ℝ) : ℤ :=
  if Int.fract x < 1 / 2 then ⌊x⌋
  else if 1 / 2 < Int.fract x then ⌊x⌋ + 1
  else if Even ⌊x⌋ then ⌊x⌋ else ⌊x⌋ + 1

/-- The exponent of the binade of `x` in binary64: `⌊log₂ |x|⌋`, and `-1022`,
the exponent of the subnormals, below the normal range. -/
noncomputable def double_exponent (x : ℝ) : ℤ := max (Int.log 2 |x|) (-1022)

/-- The spacing of the `double`s around `x`: 52 fraction bits below the
exponent. -/
noncomputable def double_ulp (x : ℝ) : ℝ := 2 ^ (double_exponent x - 52)

/-- The `double` nearest to a real number, ties to even: the result of every
`double` operation on the exact result. -/
noncomputable def round_double (x : ℝ) : ℝ :=
  round_ties_even (x / double_ulp x) * double_ulp x

/-- Half the spacing of the `double`s just below 1, `2 ^ -53`: the largest
relative error of one rounding. -/
noncomputable def unit_roundoff : ℝ := 2 ^ (-53 : ℤ)

/-- The function `log` of `<math.h>`, read as correctly rounded. -/
noncomputable def libm_log (x : ℝ) : ℝ := round_double (Real.log x)

/-- The function `pow` of `<math.h>` at an exponent that is a non-negative
integer (the `int` arguments `k * n` and `k`, converted to `double`), read as
correctly rounded. -/
noncomputable def libm_pow (x : ℝ) (y : ℕ) : ℝ := round_double (x ^ y)

/-- The largest `int`. -/
def INT_MAX : ℕ := 2147483647

/-- The smallest `int`. -/
def INT_MIN : ℤ := -2147483648

/-- The false-positive rate `(1 - (1 - 1 / m) ^ (k * n)) ^ k` in exact
arithmetic: the number that the expression
`pow(1 - pow(1 - (1.0 / m), k * n), k)` approximates. -/
noncomputable def false_positive_rate (k n : ℕ) (m : ℝ) : ℝ :=
  (1 - (1 - 1 / m) ^ (k * n)) ^ k

/-- The value of `pow(1 - pow(1 - (1.0 / m), k * n), k)` in `double`
arithmetic: the division, the two subtractions and the two calls of `pow`
round in turn. -/
noncomputable def false_positive_rate_double (k n : ℕ) (m : ℝ) : ℝ :=
  libm_pow (round_double (1 - libm_pow (round_double (1 - round_double (1 / m))) (k * n))) k

/-- The assignment
`current_false_positive_rate = pow(1 - pow(1 - (1.0 / m), k * n), k)`: the
product `k * n` is an `int` product and is undefined when it leaves the range
of `int`. -/
noncomputable def current_false_positive_rate (k n : ℕ) (m : ℝ) : Option ℝ :=
  if k * n ≤ INT_MAX then some (false_positive_rate_double k n m) else none

/-- The loop `while (current_false_positive_rate > max_fp_rate)` of
`calc_optimum_bitArraySize`, with the values of `m` and of
`current_false_positive_rate` at the loop head: `m++` on the `double m`, then
the rate at the new `m`. The result is the final `m`, or `none` when a step is
undefined or the fuel runs out first. -/
noncomputable def refine_loop (n : ℕ) (max_fp_rate : ℝ) : ℕ → ℝ → ℝ → Option ℝ
  | 0, _, _ => none
  | fuel + 1, m, current =>
    if current > max_fp_rate then
      match current_false_positive_rate NUM_HASH_FUNCTIONS n (round_double (m + 1)) with
      | none => none
      | some rate => refine_loop n max_fp_rate fuel (round_double (m + 1)) rate
    else some m

/-- The value of `-n * log(max_fp_rate) / ((log(2) * log(2)))` in `double`
arithmetic: `-n` converts to `double`, and the two products and the division
round in turn. -/
noncomputable def closed_form_double (n : ℕ) (max_fp_rate : ℝ) : ℝ :=
  round_double (round_double (round_double (-(n : ℝ)) * libm_log max_fp_rate) /
    round_double (libm_log 2 * libm_log 2))

/-- The conversion `(int)x` of a `double`: truncation toward zero, undefined
when the truncated value is not an `int`. -/
noncomputable def double_to_int (x : ℝ) : Option ℤ :=
  if INT_MIN ≤ (if 0 ≤ x then ⌊x⌋ else ⌈x⌉) ∧
      (if 0 ≤ x then ⌊x⌋ else ⌈x⌉) ≤ (INT_MAX : ℤ) then
    some (if 0 ≤ x then ⌊x⌋ else ⌈x⌉)
  else none

/-- The function `calc_optimum_bitArraySize(n, max_fp_rate)` for `n ≥ 0`: the
refinement loop runs from `m = 1.0` and rate `1.0`, its result is dropped, and
the value returned is `(int)(-n * log(max_fp_rate) / (log(2) * log(2)))`. -/
noncomputable def calc_optimum_bitArraySize (fuel n : ℕ) (max_fp_rate : ℝ) : Option ℤ :=
  if n ≤ INT_MAX then
    match refine_loop n max_fp_rate fuel 1 1 with
    | none => none
    | some _ => double_to_int (closed_form_double n max_fp_rate)
  else none

/-- The target rate, `#define MAX_FP_RATE 0.05`: the `double` nearest to
0.05. -/
noncomputable def MAX_FP_RATE : ℝ := round_double 0.05

/-- The demo query string `"geohash"`. -/
def geohash : Token := [103, 101, 111, 104, 97, 115, 104]

/-- What one corpus's pipeline computes after a successful load; `m` is the
size that the sizing call returned and the pipeline wrote to the variable
`m`. -/
structure CorpusResult where
  num_strings : ℕ
  total_strings : ℕ
  m : ℕ
  bit_array : List ℕ
  is_present : Bool
  deriving DecidableEq, Repr

/-- The body of the `if (read_strings_from_file(...))` branch of `main` when
nothing else writes `m`, as in the serial program: size the array, allocate
it, insert every unique string, run the demo query. -/
noncomputable def filter_pipeline (fuel : ℕ) (v : LoadVars) : Option CorpusResult :=
  match calc_optimum_bitArraySize fuel v.num_strings MAX_FP_RATE with
  | none => none
  | some mz =>
    if mz < 0 then none
    else
      match build NUM_HASH_FUNCTIONS (v.strings_arr.take v.num_strings) mz.toNat with
      | none => none
      | some bit_array =>
        match query NUM_HASH_FUNCTIONS geohash bit_array mz.toNat with
        | none => none
        | some is_present =>
          some { num_strings := v.num_strings, total_strings := v.total_strings,
                 m := mz.toNat, bit_array := bit_array, is_present := is_present }

/-- The variables of the serial `main` that live across loop iterations. -/
structure SerialState where
  vars : LoadVars
  m : ℕ
  total_unique_words : ℕ

/-- One iteration of the `for` loop of the serial `main`: the variables
`strings_arr`, `num_strings` and `total_strings` are declared before the loop
and handed to the loader again at every iteration. The second component is
the iteration's result, `none` for a file that could not be opened. -/
noncomputable def serial_iteration (fuel : ℕ) (s : SerialState)
    (file : Option (List Token)) : Option (SerialState × Option CorpusResult) :=
  match read_strings_from_file file s.vars with
  | none => none
  | some (false, _) => some (s, none)
  | some (true, v) =>
    match filter_pipeline fuel v with
    | none => none
    | some r =>
      some ({ vars := v, m := r.m,
              total_unique_words := s.total_unique_words + v.num_strings }, some r)

/-- The `for` loop of the serial `main` over the files that are left. -/
noncomputable def serial_loop (fuel : ℕ) :
    List (Option (List Token)) → SerialState → Option (SerialState × List (Option CorpusResult))
  | [], s => some (s, [])
  | file :: rest, s =>
    match serial_iteration fuel s file with
    | none => none
    | some (s1, r) =>
      match serial_loop fuel rest s1 with
      | none => none
      | some (s2, rs) => some (s2, r :: rs)

/-- The serial `main`: all variables start at zero. -/
noncomputable def serial_main (fuel : ℕ) (files : List (Option (List Token))) :
    Option (SerialState × List (Option CorpusResult)) :=
  serial_loop fuel files
    { vars := { strings_arr := [], num_strings := 0, total_strings := 0 },
      m := 0, total_unique_words := 0 }

/-- What one iteration of the parallel loop finds in the variable `m` when it
reads it back. `int m` is declared before the `#pragma omp parallel for` and
is in no `private` clause, so the threads share it: after an iteration's own
write `m = calc_optimum_bitArraySize(n, MAX_FP_RATE)` another thread may
write the size of its corpus before this iteration reads `m` at
`calloc(m, ...)`, in the hash calls of the insertion loops and in the hash
calls of the query loop. Each field is `none` when no write of another thread
falls between the previous access and this read, and the value that is then
in `m` otherwise. All hash calls of the insertion loops read one value and
all hash calls of the query loop read one value: a write that lands inside
one of these loops is outside the embedding. -/
structure SharedReads where
  at_calloc : Option ℕ
  at_insert : Option ℕ
  at_query : Option ℕ
  deriving DecidableEq, Repr

/-- The reads of an iteration that no write of another thread reaches: it
reads back its own `m`, as every iteration does when one thread runs the
loop. -/
def undisturbed : SharedReads :=
  { at_calloc := none, at_insert := none, at_query := none }

/-- One iteration of the parallel `for` loop: `strings_arr`, `num_strings` and
`total_strings` are declared inside the loop body and start at zero in every
iteration; `m` is the shared variable, written once and read back at
`calloc`, in the insertion loops and in the query loop. -/
noncomputable def parallel_iteration (fuel : ℕ) (file : Option (List Token))
    (shared : SharedReads) : Option (Option CorpusResult) :=
  match read_strings_from_file file
      { strings_arr := [], num_strings := 0, total_strings := 0 } with
  | none => none
  | some (false, _) => some none
  | some (true, v) =>
    match calc_optimum_bitArraySize fuel v.num_strings MAX_FP_RATE with
    | none => none
    | some mz =>
      if mz < 0 then none
      else
        match build_loop NUM_HASH_FUNCTIONS
            (shared.at_insert.getD (shared.at_calloc.getD mz.toNat))
            (v.strings_arr.take v.num_strings)
            (List.replicate (shared.at_calloc.getD mz.toNat) 0) with
        | none => none
        | some bit_array =>
          match query NUM_HASH_FUNCTIONS geohash bit_array
              (shared.at_query.getD
                (shared.at_insert.getD (shared.at_calloc.getD mz.toNat))) with
          | none => none
          | some is_present =>
            some (some { num_strings := v.num_strings, total_strings := v.total_strings,
                         m := mz.toNat, bit_array := bit_array, is_present := is_present })

/-- The run-wide values that the iterations of the parallel loop feed: the
shared `m` and the reduction variable `total_unique_words`. -/
structure ParallelTotals where
  m : ℕ
  total_unique_words : ℕ
  deriving DecidableEq, Repr

/-- The effect of one iteration of the parallel loop on the run-wide values:
an iteration whose load succeeded has written the shared `m` and adds its
`num_strings` to the reduction variable; one whose file did not open changes
neither. -/
def reduce_iteration (t : ParallelTotals) (r : Option CorpusResult) : ParallelTotals :=
  match r with
  | none => t
  | some r => { m := r.m, total_unique_words := t.total_unique_words + r.num_strings }

/-- The clause `reduction(+:total_unique_words)` and the writes of the shared
`m`, over the iterations in the order in which they take effect. -/
def parallel_reduce (results : List (Option CorpusResult)) : ParallelTotals :=
  results.foldl reduce_iteration { m := 0, total_unique_words := 0 }

/-- The ticks per second of `clock()`, `CLOCKS_PER_SEC` of `<time.h>`, at the
value POSIX fixes. -/
def CLOCKS_PER_SEC : ℕ := 1000000

/-- What one loop iteration reads from outside its own variables when its
file opens: the clock, around the read loop of the loader and around sizing
and insertion in `main`, and, in the parallel program, the shared `m`. They
are inputs of the run; an iteration whose file does not open takes none of
them, and the serial program has no use for `shared_m`. -/
structure Readings where
  read_start : ℝ
  read_end : ℝ
  optimization_start : ℝ
  optimization_end : ℝ
  shared_m : SharedReads

/-- The time accumulators of the serial `main`. -/
structure SerialTimes where
  total_read_time : ℝ
  total_optimization_time : ℝ

/-- The figures that `main` prints after the loop. -/
structure Aggregate where
  m : ℕ
  total_unique_words : ℕ
  total_read_time : ℝ
  total_optimization_time : ℝ
  total_process_time : ℝ

/-- One iteration of the serial loop with its time accumulators: the loader
adds `(end_time - start_time) / CLOCKS_PER_SEC` to `*total_read_time` after a
successful read loop, `main` then adds the optimization time; when `fopen`
fails the loader returns before its first reading and `main` only prints. -/
noncomputable def serial_iteration_timed (fuel : ℕ) (s : SerialState) (t : SerialTimes)
    (file : Option (List Token)) (c : Readings) :
    Option (SerialState × SerialTimes × Option CorpusResult) :=
  match serial_iteration fuel s file with
  | none => none
  | some (s1, none) => some (s1, t, none)
  | some (s1, some r) =>
    some (s1,
      { total_read_time :=
          t.total_read_time + (c.read_end - c.read_start) / CLOCKS_PER_SEC,
        total_optimization_time :=
          t.total_optimization_time +
            (c.optimization_end - c.optimization_start) / CLOCKS_PER_SEC },
      some r)

/-- The serial `for` loop with its time accumulators, over the files that are
left, each with the readings its iteration takes. -/
noncomputable def serial_loop_timed (fuel : ℕ) :
    List (Option (List Token) × Readings) → SerialState → SerialTimes →
      Option (SerialState × SerialTimes × List (Option CorpusResult))
  | [], s, t => some (s, t, [])
  | job :: rest, s, t =>
    match serial_iteration_timed fuel s t job.1 job.2 with
    | none => none
    | some (s1, t1, r) =>
      match serial_loop_timed fuel rest s1 t1 with
      | none => none
      | some (s2, t2, rs) => some (s2, t2, r :: rs)

/-- The serial `main` with the figures it prints; `total_start_time` and
`total_end_time` are the readings before and after the loop. -/
noncomputable def serial_main_timed (fuel : ℕ) (total_start_time total_end_time : ℝ)
    (jobs : List (Option (List Token) × Readings)) :
    Option (Aggregate × List (Option CorpusResult)) :=
  match serial_loop_timed fuel jobs
      { vars := { strings_arr := [], num_strings := 0, total_strings := 0 },
        m := 0, total_unique_words := 0 }
      { total_read_time := 0, total_optimization_time := 0 } with
  | none => none
  | some (s, t, rs) =>
    some ({ m := s.m, total_unique_words := s.total_unique_words,
            total_read_time := t.total_read_time,
            total_optimization_time := t.total_optimization_time,
            total_process_time := (total_end_time - total_start_time) / CLOCKS_PER_SEC }, rs)

/-- One iteration of the parallel loop with its `local_optimization_time`:
the difference of the two readings around sizing and insertion when the load
succeeded, and the initial `0.0` when the file did not open. -/
noncomputable def parallel_iteration_timed (fuel : ℕ) (file : Option (List Token))
    (c : Readings) : Option (Option CorpusResult × ℝ) :=
  match parallel_iteration fuel file c.shared_m with
  | none => none
  | some none => some (none, 0)
  | some (some r) => some (some r, c.optimization_end - c.optimization_start)

/-- All iterations of the parallel loop, listed in the order in which they
take effect. -/
noncomputable def parallel_iterations (fuel : ℕ) :
    List (Option (List Token) × Readings) → Option (List (Option CorpusResult × ℝ))
  | [] => some []
  | job :: rest =>
    match parallel_iteration_timed fuel job.1 job.2 with
    | none => none
    | some out =>
      match parallel_iterations fuel rest with
      | none => none
      | some outs => some (out :: outs)

/-- The parallel `main` with the figures it prints: the reductions of
`total_unique_words` and `total_optimization_time`, the shared `m`, and
`total_read_time = total_process_time - total_optimization_time`. -/
noncomputable def parallel_main (fuel : ℕ) (total_start_time total_end_time : ℝ)
    (jobs : List (Option (List Token) × Readings)) :
    Option (Aggregate × List (Option CorpusResult)) :=
  match parallel_iterations fuel jobs with
  | none => none
  | some outs =>
    some ({ m := (parallel_reduce (outs.map Prod.fst)).m,
            total_unique_words := (parallel_reduce (outs.map Prod.fst)).total_unique_words,
            total_read_time :=
              (total_end_time - total_start_time) - (outs.map Prod.snd).sum,
            total_optimization_time := (outs.map Prod.snd).sum,
            total_process_time := total_end_time - total_start_time },
          outs.map Prod.fst)

/-- The sum of the `num_strings` of the corpora that loaded, as the
specification words the expected total. -/
def sum_unique_counts (results : List (Option CorpusResult)) : ℕ :=
  ((results.filterMap id).map (fun r => r.num_strings)).sum

/-- Two results for one corpus agree in the unique count, in `m`, in the bit
array and in the demo-query result; a corpus that did not open has no result
in either. -/
def same_filter (a b : Option CorpusResult) : Prop :=
  match a, b with
  | none, none => True
  | some x, some y =>
    x.num_strings = y.num_strings ∧ x.m = y.m ∧ x.bit_array = y.bit_array ∧
      x.is_present = y.is_present
  | _, _ => False

/-- The sum of the character codes of a token, as the specification reads
"character code": the byte value in `0..255`. -/
def char_code_sum (word : Token) : Nat :=
  (word.map (fun c => c.val)).sum

/-- The positions set by the insertion loops, as a fold over the strings. -/
def set_positions (m : ℕ) (strings_arr : List Token) (bit_array : List ℕ) : List ℕ :=
  strings_arr.foldl (fun a word => a.set (hash_loop word 0 % m) 1) bit_array

/-- The input with every occurrence of a token after its first removed: the
unique set as the specification words it. -/
def first_occurrences : List Token → List Token
  | [] => []
  | t :: rest => t :: (first_occurrences rest).filter (fun s => s ≠ t)

/-! ## Hashing, insertion and query -/

theorem division_method_hash_pos (word : Token) {m : ℕ} (hm : 0 < m) :
    division_method_hash word m = some (hash_loop word 0 % m) := by
  unfold division_method_hash
  rw [if_neg (Nat.pos_iff_ne_zero.mp hm)]

theorem insert_word_length (word : Token) (m : ℕ) :
    ∀ (j : ℕ) (bit_array bit_array1 : List ℕ),
      insert_word word m j bit_array = some bit_array1 →
      bit_array1.length = bit_array.length := by
  intro j
  induction j with
  | zero =>
    intro a b h
    simp only [insert_word, Option.some.injEq] at h
    rw [← h]
  | succ j ih =>
    intro a b h
    unfold insert_word at h
    cases hh : division_method_hash word m with
    | none => rw [hh] at h; cases h
    | some hash =>
      rw [hh] at h
      simp only at h
      by_cases hlt : hash < a.length
      · rw [if_pos hlt] at h
        rw [ih _ _ h, List.length_set]
      · rw [if_neg hlt] at h; cases h

/-- With a hash position inside the array, `j` repeated insertions of one word
set that one position (none for `j = 0`). -/
theorem insert_word_eq (word : Token) (m hash : ℕ)
    (hh : division_method_hash word m = some hash) :
    ∀ (j : ℕ) (bit_array : List ℕ), hash < bit_array.length →
      insert_word word m j bit_array =
        some (if j = 0 then bit_array else bit_array.set hash 1) := by
  intro j
  induction j with
  | zero => intro a _; simp [insert_word]
  | succ j ih =>
    intro a hlt
    unfold insert_word
    rw [hh]
    simp only
    rw [if_pos hlt, ih (a.set hash 1) (by rw [List.length_set]; exact hlt)]
    by_cases hj : j = 0
    · simp [hj]
    · simp [hj, List.set_set]

theorem set_positions_length (m : ℕ) (strings_arr : List Token) :
    ∀ bit_array : List ℕ, (set_positions m strings_arr bit_array).length = bit_array.length := by
  induction strings_arr with
  | nil => intro a; rfl
  | cons w rest ih =>
    intro a
    simp only [set_positions, List.foldl_cons] at ih ⊢
    rw [ih, List.length_set]

theorem build_loop_eq (k m : ℕ) (hk : 0 < k) (hm : 0 < m) (strings_arr : List Token) :
    ∀ bit_array : List ℕ, bit_array.length = m →
      build_loop k m strings_arr bit_array = some (set_positions m strings_arr bit_array) := by
  induction strings_arr with
  | nil => intro a _; rfl
  | cons w rest ih =>
    intro a ha
    have hlt : hash_loop w 0 % m < a.length := by rw [ha]; exact Nat.mod_lt _ hm
    unfold build_loop
    rw [insert_word_eq w m _ (division_method_hash_pos w hm) k a hlt,
      if_neg (Nat.pos_iff_ne_zero.mp hk)]
    simp only
    rw [ih _ (by rw [List.length_set]; exact ha)]
    rfl

theorem build_eq (k m : ℕ) (hk : 0 < k) (hm : 0 < m) (strings_arr : List Token) :
    build k strings_arr m = some (set_positions m strings_arr (List.replicate m 0)) :=
  build_loop_eq k m hk hm strings_arr _ (List.length_replicate m 0)

/-- What a position of the array holds after the insertion fold. -/
theorem set_positions_getElem? (m : ℕ) (strings_arr : List Token) :
    ∀ (bit_array : List ℕ) (i : ℕ), i < bit_array.length →
      (set_positions m strings_arr bit_array)[i]? =
        if ∃ t ∈ strings_arr, hash_loop t 0 % m = i then some 1 else bit_array[i]? := by
  induction strings_arr with
  | nil => intro a i _; simp [set_positions]
  | cons w rest ih =>
    intro a i hi
    have hstep : set_positions m (w :: rest) a
        = set_positions m rest (a.set (hash_loop w 0 % m) 1) := rfl
    rw [hstep, ih _ i (by rw [List.length_set]; exact hi)]
    by_cases hrest : ∃ t ∈ rest, hash_loop t 0 % m = i
    · have hall : ∃ t ∈ w :: rest, hash_loop t 0 % m = i := by
        obtain ⟨t, ht, hti⟩ := hrest
        exact ⟨t, List.mem_cons_of_mem _ ht, hti⟩
      rw [if_pos hrest, if_pos hall]
    · rw [if_neg hrest]
      by_cases hw : hash_loop w 0 % m = i
      · have hall : ∃ t ∈ w :: rest, hash_loop t 0 % m = i :=
          ⟨w, List.mem_cons_self _ _, hw⟩
        rw [if_pos hall, hw, List.getElem?_set_self hi]
      · have hall : ¬ ∃ t ∈ w :: rest, hash_loop t 0 % m = i := by
          rintro ⟨t, ht, hti⟩
          rcases List.mem_cons.mp ht with rfl | ht
          · exact hw hti
          · exact hrest ⟨t, ht, hti⟩
        rw [if_neg hall, List.getElem?_set_ne hw]

/-- The query loop on an array that holds only zeros and ones at the hash
position. -/
theorem query_loop_eq (w : Token) (m hash b : ℕ) (bit_array : List ℕ)
    (hh : division_method_hash w m = some hash) (hb : bit_array[hash]? = some b) :
    ∀ j : ℕ, query_loop w m bit_array j = some (decide (j = 0 ∨ b ≠ 0)) := by
  intro j
  induction j with
  | zero => simp [query_loop]
  | succ j ih =>
    unfold query_loop
    rw [hh]
    simp only
    rw [hb]
    simp only
    by_cases hb0 : b = 0
    · simp [hb0]
    · rw [if_neg hb0, ih]
      simp [hb0]

theorem build_getElem? (m : ℕ) (strings_arr : List Token) (i : ℕ) (hi : i < m) :
    (set_positions m strings_arr (List.replicate m 0))[i]? =
      some (if ∃ t ∈ strings_arr, hash_loop t 0 % m = i then 1 else 0) := by
  rw [set_positions_getElem? m strings_arr _ i (by rw [List.length_replicate]; exact hi),
    List.getElem?_replicate, if_pos hi]
  split_ifs <;> rfl

theorem build_eq_map_range (m : ℕ) (strings_arr : List Token) :
    set_positions m strings_arr (List.replicate m 0) =
      (List.range m).map
        (fun i => if i ∈ strings_arr.map (fun t => hash_loop t 0 % m) then 1 else 0) := by
  apply List.ext_getElem?
  intro i
  by_cases hi : i < m
  · rw [build_getElem? m strings_arr i hi, List.getElem?_map, List.getElem?_range hi]
    simp only [Option.map_some', List.mem_map]
  · have h1 : (set_positions m strings_arr (List.replicate m 0)).length ≤ i := by
      rw [set_positions_length, List.length_replicate]; omega
    have h2 : ((List.range m).map
        (fun i => if i ∈ strings_arr.map (fun t => hash_loop t 0 % m) then 1 else 0)).length
          ≤ i := by
      rw [List.length_map, List.length_range]; omega
    rw [List.getElem?_eq_none h1, List.getElem?_eq_none h2]

theorem count_indicator_range (m : ℕ) (L : List ℕ) (hL : ∀ x ∈ L, x < m) :
    ((List.range m).map (fun i => if i ∈ L then 1 else 0)).count 1 = L.dedup.length := by
  rw [List.count, List.countP_map, List.countP_eq_length_filter]
  apply List.Perm.length_eq
  apply (List.perm_ext_iff_of_nodup ?_ (List.nodup_dedup L)).mpr
  · intro a
    simp only [List.mem_filter, List.mem_range, Function.comp, List.mem_dedup]
    constructor
    · rintro ⟨_, h⟩
      by_contra hc
      simp [hc] at h
    · intro h
      exact ⟨hL a h, by simp [h]⟩
  · exact (List.nodup_range m).filter _

theorem hash_map_dedup_length (m : ℕ) (hm : 0 < m) (tokens : List Token) :
    ((tokens.map (fun t => division_method_hash t m)).dedup).length =
      ((tokens.map (fun t => hash_loop t 0 % m)).dedup).length := by
  have h : tokens.map (fun t => division_method_hash t m)
      = (tokens.map (fun t => hash_loop t 0 % m)).map some := by
    rw [List.map_map]
    apply List.map_congr_left
    intro t _
    exact division_method_hash_pos t hm
  rw [h, List.dedup_map_of_injective (Option.some_injective ℕ), List.length_map]

/-- C1: no false negatives. For every bit-array length m > 0, every list of
tokens and every token t of that list, the build with k = 4 hash calls per
token succeeds from the all-zero array of length m, and the query for t on
the built array returns true. -/
theorem no_false_negatives (m : ℕ) (hm : 0 < m) (tokens : List Token) (t : Token)
    (ht : t ∈ tokens) :
    ∃ bit_array, build NUM_HASH_FUNCTIONS tokens m = some bit_array ∧
      query NUM_HASH_FUNCTIONS t bit_array m = some true := by
  refine ⟨_, build_eq NUM_HASH_FUNCTIONS m (by decide) hm tokens, ?_⟩
  have hb := build_getElem? m tokens (hash_loop t 0 % m) (Nat.mod_lt _ hm)
  rw [if_pos ⟨t, ht, rfl⟩] at hb
  unfold query
  rw [query_loop_eq t m _ 1 _ (division_method_hash_pos t hm) hb]
  simp

/-- Witness of C1: the token "a" in the corpus a, b, a, c with m = 5. -/
theorem no_false_negatives_witness :
    ∃ bit_array, build NUM_HASH_FUNCTIONS [[97], [98], [97], [99]] 5 = some bit_array ∧
      query NUM_HASH_FUNCTIONS [97] bit_array 5 = some true :=
  no_false_negatives 5 (by decide) [[97], [98], [97], [99]] [97] (by decide)

/-- C3: for every token and every m > 0 the hash is defined and lies in
[0, m); the build from the all-zero array of length m is defined (every write
is in bounds) and keeps the length m, and every query on the built array
returns a value (every read is in bounds). -/
theorem hash_index_in_range (m : ℕ) (hm : 0 < m) (tokens : List Token) (word : Token) :
    (∃ hash, division_method_hash word m = some hash ∧ hash < m) ∧
    ∃ bit_array, build NUM_HASH_FUNCTIONS tokens m = some bit_array ∧
      bit_array.length = m ∧
      ∃ is_present, query NUM_HASH_FUNCTIONS word bit_array m = some is_present := by
  refine ⟨⟨_, division_method_hash_pos word hm, Nat.mod_lt _ hm⟩, _,
    build_eq NUM_HASH_FUNCTIONS m (by decide) hm tokens, ?_, ?_⟩
  · rw [set_positions_length, List.length_replicate]
  · have hb := build_getElem? m tokens (hash_loop word 0 % m) (Nat.mod_lt _ hm)
    exact ⟨_, query_loop_eq word m _ _ _ (division_method_hash_pos word hm) hb _⟩

/-- Witness of C3: the query "geohash" against the corpus a, b with m = 7. -/
theorem hash_index_in_range_witness :
    (∃ hash, division_method_hash geohash 7 = some hash ∧ hash < 7) ∧
    ∃ bit_array, build NUM_HASH_FUNCTIONS [[97], [98]] 7 = some bit_array ∧
      bit_array.length = 7 ∧
      ∃ is_present, query NUM_HASH_FUNCTIONS geohash bit_array 7 = some is_present :=
  hash_index_in_range 7 (by decide) [[97], [98]] geohash

/-- C7: for every m > 0 and every list of tokens, the built array has length
m, a position holds 1 exactly when it is the hash index of some token, every
other position still holds 0, and the number of ones equals the number of
distinct hash indices among the tokens. -/
theorem build_true_positions (m : ℕ) (hm : 0 < m) (tokens : List Token) :
    ∃ bit_array, build NUM_HASH_FUNCTIONS tokens m = some bit_array ∧
      bit_array.length = m ∧
      (∀ i, i < m →
        (bit_array[i]? = some 1 ↔ ∃ t ∈ tokens, division_method_hash t m = some i)) ∧
      (∀ i, i < m → (¬ ∃ t ∈ tokens, division_method_hash t m = some i) →
        bit_array[i]? = some 0) ∧
      bit_array.count 1 = ((tokens.map (fun t => division_method_hash t m)).dedup).length := by
  have hiff : ∀ i, (∃ t ∈ tokens, division_method_hash t m = some i) ↔
      ∃ t ∈ tokens, hash_loop t 0 % m = i := by
    intro i
    constructor
    · rintro ⟨t, ht, h⟩
      rw [division_method_hash_pos t hm] at h
      exact ⟨t, ht, Option.some.inj h⟩
    · rintro ⟨t, ht, h⟩
      exact ⟨t, ht, by rw [division_method_hash_pos t hm, h]⟩
  refine ⟨_, build_eq NUM_HASH_FUNCTIONS m (by decide) hm tokens, ?_, ?_, ?_, ?_⟩
  · rw [set_positions_length, List.length_replicate]
  · intro i hi
    rw [build_getElem? m tokens i hi, hiff i]
    by_cases h : ∃ t ∈ tokens, hash_loop t 0 % m = i
    · rw [if_pos h]
      exact ⟨fun _ => h, fun _ => rfl⟩
    · rw [if_neg h]
      exact ⟨fun h0 => by simp at h0, fun h1 => absurd h1 h⟩
  · intro i hi hno
    rw [build_getElem? m tokens i hi, if_neg (fun h => hno ((hiff i).mpr h))]
  · rw [build_eq_map_range, hash_map_dedup_length m hm]
    apply count_indicator_range
    intro x hx
    obtain ⟨t, _, rfl⟩ := List.mem_map.mp hx
    exact Nat.mod_lt _ hm

/-- Witness of C7: the corpus a, b, a, c with m = 18. -/
theorem build_true_positions_witness :
    ∃ bit_array, build NUM_HASH_FUNCTIONS [[97], [98], [97], [99]] 18 = some bit_array ∧
      bit_array.length = 18 ∧
      (∀ i, i < 18 →
        (bit_array[i]? = some 1 ↔
          ∃ t ∈ [[97], [98], [97], [99]], division_method_hash t 18 = some i)) ∧
      (∀ i, i < 18 →
        (¬ ∃ t ∈ [[97], [98], [97], [99]], division_method_hash t 18 = some i) →
        bit_array[i]? = some 0) ∧
      bit_array.count 1 =
        (([[97], [98], [97], [99]].map (fun t => division_method_hash t 18)).dedup).length :=
  build_true_positions 18 (by decide) [[97], [98], [97], [99]]

/-- C8: for every m > 0, every list of inserted tokens and every word w, the
query of w on the built array is defined, and it returns true if and only if
the bit at the hash index of w is set, if and only if some inserted token has
the same hash index as w. -/
theorem query_true_iff (m : ℕ) (hm : 0 < m) (tokens : List Token) (w : Token) :
    ∃ bit_array hash is_present,
      build NUM_HASH_FUNCTIONS tokens m = some bit_array ∧
      division_method_hash w m = some hash ∧
      query NUM_HASH_FUNCTIONS w bit_array m = some is_present ∧
      (is_present = true ↔ bit_array[hash]? = some 1) ∧
      (is_present = true ↔
        ∃ t ∈ tokens, division_method_hash t m = division_method_hash w m) := by
  have hb := build_getElem? m tokens (hash_loop w 0 % m) (Nat.mod_lt _ hm)
  refine ⟨_, _, _, build_eq NUM_HASH_FUNCTIONS m (by decide) hm tokens,
    division_method_hash_pos w hm,
    query_loop_eq w m _ _ _ (division_method_hash_pos w hm) hb _, ?_, ?_⟩
  · rw [hb]
    by_cases h : ∃ t ∈ tokens, hash_loop t 0 % m = hash_loop w 0 % m
    · simp [h, NUM_HASH_FUNCTIONS]
    · simp [h, NUM_HASH_FUNCTIONS]
  · have hiff : (∃ t ∈ tokens, division_method_hash t m = division_method_hash w m) ↔
        ∃ t ∈ tokens, hash_loop t 0 % m = hash_loop w 0 % m := by
      constructor
      · rintro ⟨t, ht, h⟩
        rw [division_method_hash_pos t hm, division_method_hash_pos w hm] at h
        exact ⟨t, ht, Option.some.inj h⟩
      · rintro ⟨t, ht, h⟩
        exact ⟨t, ht, by rw [division_method_hash_pos t hm, division_method_hash_pos w hm, h]⟩
    rw [hiff]
    by_cases h : ∃ t ∈ tokens, hash_loop t 0 % m = hash_loop w 0 % m
    · simp [h, NUM_HASH_FUNCTIONS]
    · simp [h, NUM_HASH_FUNCTIONS]

/-- Witness of C8: the word "zzz" against the corpus a, b, a, c with m = 18. -/
theorem query_true_iff_witness :
    ∃ bit_array hash is_present,
      build NUM_HASH_FUNCTIONS [[97], [98], [97], [99]] 18 = some bit_array ∧
      division_method_hash [122, 122, 122] 18 = some hash ∧
      query NUM_HASH_FUNCTIONS [122, 122, 122] bit_array 18 = some is_present ∧
      (is_present = true ↔ bit_array[hash]? = some 1) ∧
      (is_present = true ↔
        ∃ t ∈ [[97], [98], [97], [99]],
          division_method_hash t 18 = division_method_hash [122, 122, 122] 18) :=
  query_true_iff 18 (by decide) [[97], [98], [97], [99]] [122, 122, 122]

/-! ## The hash against the sum of character codes -/

theorem hash_loop_mod (word : Token) :
    ∀ acc : ℕ, hash_loop word acc % ULONG_MOD =
      (acc + (word.map char_to_ulong).sum) % ULONG_MOD := by
  induction word with
  | nil => intro acc; simp [hash_loop]
  | cons c rest ih =>
    intro acc
    simp only [hash_loop, List.map_cons, List.sum_cons]
    rw [ih, Nat.add_mod, Nat.mod_mod, ← Nat.add_mod, Nat.add_assoc]

theorem hash_loop_lt (word : Token) :
    ∀ acc : ℕ, acc < ULONG_MOD → hash_loop word acc < ULONG_MOD := by
  induction word with
  | nil => intro acc h; exact h
  | cons c rest ih =>
    intro acc _
    simp only [hash_loop]
    exact ih _ (Nat.mod_lt _ (by decide))

theorem char_to_ulong_sum_ascii (word : Token) (hascii : ∀ c ∈ word, c.val < 128) :
    (word.map char_to_ulong).sum = char_code_sum word := by
  induction word with
  | nil => rfl
  | cons c rest ih =>
    have hc : c.val < 128 := hascii c (List.mem_cons_self _ _)
    have hrest := ih (fun d hd => hascii d (List.mem_cons_of_mem _ hd))
    simp only [char_code_sum, List.map_cons, List.sum_cons] at hrest ⊢
    rw [hrest, char_to_ulong, if_pos hc]

/-- For a token of ASCII characters (codes below 128) whose code sum does not
reach `2^64`, the hash is the sum of the character codes modulo `m`. -/
theorem division_method_hash_ascii (word : Token) (m : ℕ) (hm : 0 < m)
    (hascii : ∀ c ∈ word, c.val < 128) (hsum : char_code_sum word < ULONG_MOD) :
    division_method_hash word m = some (char_code_sum word % m) := by
  rw [division_method_hash_pos word hm]
  have h1 := hash_loop_mod word 0
  rw [Nat.mod_eq_of_lt (hash_loop_lt word 0 (by decide)), Nat.zero_add,
    char_to_ulong_sum_ascii word hascii, Nat.mod_eq_of_lt hsum] at h1
  rw [h1]

/-- C2, at the failing input: for the one-character token of code 200 and
m = 7, `division_method_hash` returns 2, while the sum of the character codes
modulo m is 200 mod 7 = 4. The signed `char` 200 converts to
`2^64 - 56`, not to 200. -/
theorem division_method_hash_non_ascii :
    division_method_hash [200] 7 = some 2 ∧ char_code_sum [200] % 7 = 4 := by
  decide

/-! ## The loader -/

theorem duplicated_strings_eq (string : Token) :
    ∀ (strings_arr : List Token),
      duplicated_strings string strings_arr strings_arr.length = decide (string ∈ strings_arr) := by
  intro arr
  induction arr with
  | nil => simp [duplicated_strings]
  | cons s rest ih =>
    simp only [List.length_cons, duplicated_strings]
    by_cases h : s = string
    · simp [h]
    · rw [if_neg h, ih]
      have h' : ¬ string = s := fun e => h e.symm
      simp [h']

theorem mem_first_occurrences (input : List Token) (t : Token) :
    t ∈ first_occurrences input ↔ t ∈ input := by
  induction input with
  | nil => simp [first_occurrences]
  | cons a rest ih =>
    simp only [first_occurrences, List.mem_cons, List.mem_filter, ih]
    by_cases h : t = a
    · simp [h]
    · simp [h]

theorem nodup_first_occurrences (input : List Token) : (first_occurrences input).Nodup := by
  induction input with
  | nil => simp [first_occurrences]
  | cons a rest ih =>
    simp only [first_occurrences, List.nodup_cons, List.mem_filter]
    exact ⟨by simp, ih.filter _⟩

theorem first_occurrences_order (input : List Token) :
    (first_occurrences input).Pairwise
      (fun a b => ∃ pre suf, input = pre ++ suf ∧ a ∈ pre ∧ b ∉ pre) := by
  induction input with
  | nil => simp [first_occurrences]
  | cons t rest ih =>
    simp only [first_occurrences, List.pairwise_cons]
    constructor
    · intro b hb
      have hbt : b ≠ t := by simpa using (List.mem_filter.mp hb).2
      exact ⟨[t], rest, rfl, List.mem_singleton_self t, by simpa using hbt⟩
    · refine (ih.sublist (List.filter_sublist _)).imp_of_mem ?_
      intro x y _ hy hxy
      have hyt : y ≠ t := by simpa using (List.mem_filter.mp hy).2
      obtain ⟨pre, suf, hsplit, hx, hy'⟩ := hxy
      refine ⟨t :: pre, suf, by rw [hsplit]; rfl, List.mem_cons_of_mem _ hx, ?_⟩
      intro hmem
      rcases List.mem_cons.mp hmem with h | h
      · exact hyt h
      · exact hy' h

theorem c_str_of_no_nul (t : Token) (h : (0 : Fin 256) ∉ t) : c_str t = t := by
  unfold c_str
  rw [List.takeWhile_eq_self_iff]
  intro c hc
  have hne : c ≠ 0 := fun e => h (e ▸ hc)
  simpa using hne

theorem map_c_str_of_no_nul (input : List Token) (h : ∀ t ∈ input, (0 : Fin 256) ∉ t) :
    input.map c_str = input := by
  induction input with
  | nil => rfl
  | cons t rest ih =>
    rw [List.map_cons, c_str_of_no_nul t (h t (List.mem_cons_self _ _)),
      ih (fun x hx => h x (List.mem_cons_of_mem _ hx))]

theorem read_loop_eq (input : List Token) :
    ∀ v : LoadVars, (∀ t ∈ input, t.length < MAX_STRING_LEN) →
      v.num_strings = v.strings_arr.length →
      read_loop input v = some
        { strings_arr :=
            v.strings_arr ++
              (first_occurrences (input.map c_str)).filter (fun s => s ∉ v.strings_arr),
          num_strings := v.num_strings +
            ((first_occurrences (input.map c_str)).filter (fun s => s ∉ v.strings_arr)).length,
          total_strings := v.total_strings + input.length } := by
  induction input with
  | nil => intro v _ _; simp [read_loop, first_occurrences]
  | cons run rest ih =>
    intro v hlen hnum
    have hrun : run.length < MAX_STRING_LEN := hlen run (List.mem_cons_self _ _)
    have hrest : ∀ t ∈ rest, t.length < MAX_STRING_LEN :=
      fun t ht => hlen t (List.mem_cons_of_mem _ ht)
    unfold read_loop
    simp only [fscanf_s, if_pos hrun]
    rw [hnum, duplicated_strings_eq]
    by_cases hmem : c_str run ∈ v.strings_arr
    · simp only [hmem, decide_True, if_true]
      rw [ih _ hrest (by simp [hnum])]
      have hf : (first_occurrences ((run :: rest).map c_str)).filter
            (fun s => s ∉ v.strings_arr)
          = (first_occurrences (rest.map c_str)).filter (fun s => s ∉ v.strings_arr) := by
        simp only [List.map_cons, first_occurrences, List.filter_cons, hmem, not_true_eq_false,
          decide_False, List.filter_filter]
        simp only [Bool.false_eq_true, if_false]
        apply List.filter_congr
        intro x _
        by_cases hx : x ∈ v.strings_arr
        · simp [hx]
        · have : x ≠ c_str run := fun e => hx (e ▸ hmem)
          simp [hx, this]
      rw [hf]
      simp only [List.length_cons, hnum]
      congr 2
      omega
    · simp only [hmem, decide_False, Bool.false_eq_true, if_false]
      rw [ih _ hrest (by simp [hnum])]
      have hf : (first_occurrences ((run :: rest).map c_str)).filter
            (fun s => s ∉ v.strings_arr)
          = c_str run :: (first_occurrences (rest.map c_str)).filter
              (fun s => s ∉ v.strings_arr ++ [c_str run]) := by
        simp only [List.map_cons, first_occurrences, List.filter_cons, hmem, not_false_eq_true,
          decide_True, if_true, List.filter_filter]
        congr 1
        apply List.filter_congr
        intro x _
        simp only [List.mem_append, List.mem_singleton, not_or]
        by_cases hx : x ∈ v.strings_arr <;> by_cases hxr : x = c_str run <;> simp [hx, hxr]
      rw [hf]
      simp only [List.length_cons, List.append_assoc, List.singleton_append, hnum,
        List.length_append, List.length_singleton]
      congr 2 <;> omega

/-- The load of runs that fit the buffer: the unique set is the list of first
occurrences of the C strings of the runs. -/
theorem read_strings_from_file_c_str (input : List Token) (v0 : LoadVars)
    (hlen : ∀ t ∈ input, t.length < MAX_STRING_LEN) :
    read_strings_from_file (some input) v0 = some (true,
      { strings_arr := first_occurrences (input.map c_str),
        num_strings := (first_occurrences (input.map c_str)).length,
        total_strings := v0.total_strings + input.length }) := by
  unfold read_strings_from_file
  simp only
  rw [read_loop_eq input _ hlen rfl]
  simp

theorem read_strings_from_file_eq (input : List Token) (v0 : LoadVars)
    (hlen : ∀ t ∈ input, t.length < MAX_STRING_LEN)
    (hnul : ∀ t ∈ input, (0 : Fin 256) ∉ t) :
    read_strings_from_file (some input) v0 = some (true,
      { strings_arr := first_occurrences input,
        num_strings := (first_occurrences input).length,
        total_strings := v0.total_strings + input.length }) := by
  have h := read_strings_from_file_c_str input v0 hlen
  rwa [map_c_str_of_no_nul input hnul] at h

/-- C5, as stated, fails on runs that hold a NUL byte: the file with the two
runs `a NUL b` and `a NUL c` has two distinct tokens, and the loader stores
the one string "a", which is neither of them: `strcmp` and `strdup` stop at
the NUL byte. It fails as well on a run of 100 bytes, which does not fit the
read buffer with its terminator: the load has no defined result. -/
theorem loader_unique_set_fails_on_nul :
    read_strings_from_file (some [[97, 0, 98], [97, 0, 99]])
      { strings_arr := [], num_strings := 0, total_strings := 0 } =
      some (true, { strings_arr := [[97]], num_strings := 1, total_strings := 2 }) ∧
    first_occurrences [[97, 0, 98], [97, 0, 99]] = [[97, 0, 98], [97, 0, 99]] ∧
    ¬ (∀ t : Token, t ∈ ([[97]] : List Token) ↔ t ∈ ([[97, 0, 98], [97, 0, 99]] : List Token)) ∧
    read_strings_from_file (some [List.replicate 100 97])
      { strings_arr := [], num_strings := 0, total_strings := 0 } = none := by
  refine ⟨by decide, by decide, ?_, ?_⟩
  · intro h
    have := (h [97]).mp (List.mem_singleton_self _)
    revert this
    decide
  · have h100 : fscanf_s (List.replicate 100 97) = none := by
      simp [fscanf_s, MAX_STRING_LEN, List.length_replicate]
    simp only [read_strings_from_file, read_loop, h100]

/-- C5, as amended: for every list of input tokens that fit the read buffer
with their terminator (fewer than 100 bytes) and hold no NUL byte, the load
succeeds and its unique set is the input with every occurrence after the
first removed: it has no two equal elements, holds exactly the tokens of the
input, lists them in first-seen order (of two entries, the earlier one occurs
in the input before the first occurrence of the later one), and `num_strings`
is its length. -/
theorem loader_unique_set (input : List Token) (v0 : LoadVars)
    (hlen : ∀ t ∈ input, t.length < MAX_STRING_LEN)
    (hnul : ∀ t ∈ input, (0 : Fin 256) ∉ t) :
    ∃ v, read_strings_from_file (some input) v0 = some (true, v) ∧
      v.strings_arr = first_occurrences input ∧
      v.strings_arr.Nodup ∧
      (∀ t, t ∈ v.strings_arr ↔ t ∈ input) ∧
      v.strings_arr.Pairwise
        (fun a b => ∃ pre suf, input = pre ++ suf ∧ a ∈ pre ∧ b ∉ pre) ∧
      v.num_strings = v.strings_arr.length :=
  ⟨_, read_strings_from_file_eq input v0 hlen hnul, rfl, nodup_first_occurrences input,
    mem_first_occurrences input, first_occurrences_order input, rfl⟩

/-- Witness of C5 as amended: the corpus a, b, a, c loads as a, b, c with
count 3. -/
theorem loader_unique_set_witness :
    (∀ t ∈ [[97], [98], [97], [99]], List.length (t : Token) < MAX_STRING_LEN) ∧
    (∀ t ∈ [[97], [98], [97], [99]], (0 : Fin 256) ∉ (t : Token)) ∧
    ∃ v, read_strings_from_file (some [[97], [98], [97], [99]])
        { strings_arr := [], num_strings := 0, total_strings := 0 } = some (true, v) ∧
      v.strings_arr = [[97], [98], [99]] ∧ v.num_strings = 3 := by
  have hlen : ∀ t ∈ [[97], [98], [97], [99]], List.length (t : Token) < MAX_STRING_LEN := by
    decide
  have hnul : ∀ t ∈ [[97], [98], [97], [99]], (0 : Fin 256) ∉ (t : Token) := by
    decide
  obtain ⟨v, hv, harr, _, _, _, hnum⟩ :=
    loader_unique_set [[97], [98], [97], [99]]
      { strings_arr := [], num_strings := 0, total_strings := 0 } hlen hnul
  refine ⟨hlen, hnul, v, hv, ?_, ?_⟩
  · rw [harr]; decide
  · rw [hnum, harr]; decide

/-! ## Binary64: rounding to the nearest integer -/

theorem round_ties_even_bounds (x : ℝ) :
    ⌊x⌋ ≤ round_ties_even x ∧ round_ties_even x ≤ ⌊x⌋ + 1 := by
  unfold round_ties_even
  split_ifs <;> constructor <;> omega

theorem round_ties_even_sub_le (x : ℝ) : |(round_ties_even x : ℝ) - x| ≤ 1 / 2 := by
  have hx : x - ⌊x⌋ = Int.fract x := Int.self_sub_floor x
  have h0 := Int.fract_nonneg x
  have h1 := Int.fract_lt_one x
  unfold round_ties_even
  rw [abs_le]
  split_ifs <;> push_cast <;> constructor <;> linarith

theorem round_ties_even_intCast (k : ℤ) : round_ties_even (k : ℝ) = k := by
  unfold round_ties_even
  simp

theorem round_ties_even_mono {x y : ℝ} (h : x ≤ y) : round_ties_even x ≤ round_ties_even y := by
  have hf : ⌊x⌋ ≤ ⌊y⌋ := Int.floor_le_floor h
  rcases lt_or_eq_of_le hf with hlt | heq
  · have h1 := (round_ties_even_bounds x).2
    have h2 := (round_ties_even_bounds y).1
    omega
  · have hx : x - ⌊x⌋ = Int.fract x := Int.self_sub_floor x
    have hy : y - ⌊y⌋ = Int.fract y := Int.self_sub_floor y
    have hfr : Int.fract x ≤ Int.fract y := by
      rw [← hx, ← hy, heq]; linarith
    unfold round_ties_even
    rw [heq]
    split_ifs <;> first | omega | (exfalso; linarith)

theorem double_ulp_pos (x : ℝ) : 0 < double_ulp x := by
  unfold double_ulp; positivity

theorem round_double_sub_le (x : ℝ) : |round_double x - x| ≤ double_ulp x / 2 := by
  have hu := double_ulp_pos x
  have h := round_ties_even_sub_le (x / double_ulp x)
  have e : round_double x - x =
      ((round_ties_even (x / double_ulp x) : ℝ) - x / double_ulp x) * double_ulp x := by
    unfold round_double; field_simp
  rw [e, abs_mul, abs_of_pos hu]
  nlinarith

theorem round_double_zero : round_double 0 = 0 := by
  unfold round_double; simp [round_ties_even]

theorem round_double_nonneg {x : ℝ} (hx : 0 ≤ x) : 0 ≤ round_double x := by
  unfold round_double
  have hu := double_ulp_pos x
  have h : (0 : ℤ) ≤ round_ties_even (x / double_ulp x) := by
    have := round_ties_even_mono (div_nonneg hx hu.le)
    rwa [show (0 : ℝ) = ((0 : ℤ) : ℝ) by norm_num, round_ties_even_intCast] at this
  have h2 : (0 : ℝ) ≤ (round_ties_even (x / double_ulp x) : ℝ) := by exact_mod_cast h
  positivity

/-! ## Binary64: the exponent and the rounding error -/

theorem int_log_two_eq {r : ℝ} {e : ℤ} (hl : (2 : ℝ) ^ e ≤ r) (hu : r < (2 : ℝ) ^ (e + 1)) :
    Int.log 2 r = e := by
  have hr : 0 < r := lt_of_lt_of_le (by positivity) hl
  have h1 : e ≤ Int.log 2 r :=
    (Int.zpow_le_iff_le_log (by norm_num) hr).mp (by simpa using hl)
  have h2 : Int.log 2 r < e + 1 :=
    (Int.lt_zpow_iff_log_lt (by norm_num) hr).mp (by simpa using hu)
  omega

theorem double_exponent_ge (x : ℝ) : -1022 ≤ double_exponent x := le_max_right _ _

theorem double_exponent_eq {x : ℝ} {e : ℤ} (he : -1022 ≤ e) (hl : (2 : ℝ) ^ e ≤ |x|)
    (hu : |x| < (2 : ℝ) ^ (e + 1)) : double_exponent x = e := by
  unfold double_exponent
  rw [int_log_two_eq hl hu]
  exact max_eq_left he

theorem abs_lt_zpow_double_exponent (x : ℝ) : |x| < (2 : ℝ) ^ (double_exponent x + 1) := by
  have h := Int.lt_zpow_succ_log_self (b := 2) (by norm_num) |x|
  have h2 : ((2 : ℕ) : ℝ) ^ (Int.log 2 |x| + 1) ≤ (2 : ℝ) ^ (double_exponent x + 1) := by
    simp only [Nat.cast_ofNat]
    apply zpow_le_zpow_right₀ (by norm_num)
    unfold double_exponent
    have := le_max_left (Int.log 2 |x|) (-1022)
    omega
  exact lt_of_lt_of_le h h2

theorem zpow_double_exponent_le {x : ℝ} (h : (2 : ℝ) ^ (-1022 : ℤ) ≤ |x|) :
    (2 : ℝ) ^ double_exponent x ≤ |x| := by
  have hr : 0 < |x| := lt_of_lt_of_le (by positivity) h
  have h1 : (-1022 : ℤ) ≤ Int.log 2 |x| :=
    (Int.zpow_le_iff_le_log (by norm_num) hr).mp (by simpa using h)
  have h2 := Int.zpow_log_le_self (b := 2) (by norm_num) hr
  unfold double_exponent
  rw [max_eq_left h1]
  simpa using h2

/-- relative error for normal -/
theorem round_double_rel {x : ℝ} (h : (2 : ℝ) ^ (-1022 : ℤ) ≤ |x|) :
    |round_double x - x| ≤ unit_roundoff * |x| := by
  unfold unit_roundoff
  have h1 := round_double_sub_le x
  have h2 := zpow_double_exponent_le h
  have h3 : double_ulp x = 2 ^ double_exponent x * 2 ^ (-52 : ℤ) := by
    unfold double_ulp
    rw [← zpow_add₀ (by norm_num)]
    congr 1
  have h4 : (2 : ℝ) ^ (-53 : ℤ) = 2 ^ (-52 : ℤ) / 2 := by
    rw [show (-53 : ℤ) = -52 - 1 by norm_num, zpow_sub₀ (by norm_num)]
    norm_num
  have h5 : (0 : ℝ) < 2 ^ (-52 : ℤ) := by positivity
  rw [h3] at h1
  rw [h4]
  nlinarith

theorem double_exponent_le_zero {x : ℝ} (h : |x| ≤ 1) : double_exponent x ≤ 0 := by
  unfold double_exponent
  apply max_le _ (by norm_num)
  rcases le_or_lt |x| 0 with h0 | h0
  · rw [Int.log_of_right_le_zero 2 h0]
  · have := Int.log_mono_right (b := 2) h0 h
    rwa [Int.log_one_right] at this

theorem round_double_abs_le_one {x : ℝ} (h : |x| ≤ 1) :
    |round_double x - x| ≤ unit_roundoff := by
  unfold unit_roundoff
  have h1 := round_double_sub_le x
  have h2 := double_exponent_le_zero h
  have h3 : double_ulp x ≤ 2 ^ (-52 : ℤ) := by
    unfold double_ulp
    apply zpow_le_zpow_right₀ (by norm_num)
    omega
  have h4 : (2 : ℝ) ^ (-53 : ℤ) = 2 ^ (-52 : ℤ) / 2 := by
    rw [show (-53 : ℤ) = -52 - 1 by norm_num, zpow_sub₀ (by norm_num)]
    norm_num
  rw [h4]
  exact le_trans h1 (by gcongr)

/-! ## Binary64: numbers that are doubles -/

theorem round_double_of_div_eq {x : ℝ} (k : ℤ) (h : x / double_ulp x = k) :
    round_double x = x := by
  have hu := double_ulp_pos x
  unfold round_double
  rw [h, round_ties_even_intCast, ← h]
  field_simp

theorem double_exponent_le {x : ℝ} {e : ℤ} (hx : x ≠ 0) (he : -1022 ≤ e)
    (hu : |x| < (2 : ℝ) ^ (e + 1)) : double_exponent x ≤ e := by
  unfold double_exponent
  apply max_le _ he
  have hr : 0 < |x| := abs_pos.mpr hx
  have h2 : Int.log 2 |x| < e + 1 :=
    (Int.lt_zpow_iff_log_lt (by norm_num) hr).mp (by simpa using hu)
  omega

/-- A dyadic number `k * 2 ^ j` whose last place is not below the last place of
its binade is a `double`. -/
theorem round_double_dyadic (k j : ℤ) (h : double_exponent ((k : ℝ) * 2 ^ j) - 52 ≤ j) :
    round_double ((k : ℝ) * 2 ^ j) = (k : ℝ) * 2 ^ j := by
  obtain ⟨d, hd⟩ : ∃ d : ℕ, (d : ℤ) = j - (double_exponent ((k : ℝ) * 2 ^ j) - 52) :=
    ⟨(j - (double_exponent ((k : ℝ) * 2 ^ j) - 52)).toNat, Int.toNat_of_nonneg (by omega)⟩
  apply round_double_of_div_eq (k * 2 ^ d)
  unfold double_ulp
  rw [mul_div_assoc, ← zpow_sub₀ (by norm_num), ← hd]
  push_cast
  rw [zpow_natCast]

theorem round_double_zpow (j : ℤ) (hj : -1074 ≤ j) : round_double ((2 : ℝ) ^ j) = 2 ^ j := by
  have h := round_double_dyadic 1 j (by
    have hne : ((1 : ℤ) : ℝ) * (2 : ℝ) ^ j ≠ 0 := by positivity
    have := double_exponent_le (e := j + 52) hne (by omega) (by
      rw [abs_of_pos (by positivity)]
      simp only [Int.cast_one, one_mul]
      apply zpow_lt_zpow_right₀ (by norm_num)
      omega)
    omega)
  simpa using h

theorem round_double_intCast (k : ℤ) (hk : |k| ≤ 2 ^ 53) : round_double (k : ℝ) = k := by
  rcases eq_or_ne k 0 with h0 | h0
  · subst h0; simpa using round_double_zero
  rcases eq_or_lt_of_le hk with heq | hlt
  · -- |k| = 2 ^ 53
    rcases abs_eq (by norm_num : (0 : ℤ) ≤ 2 ^ 53) |>.mp heq with h | h
    · subst h
      have e : (((2 : ℤ) ^ 53 : ℤ) : ℝ) = (2 : ℝ) ^ (53 : ℤ) := by norm_num
      rw [e]
      exact round_double_zpow 53 (by norm_num)
    · subst h
      have h := round_double_dyadic (-1) 53 (by
        have hne : ((-1 : ℤ) : ℝ) * (2 : ℝ) ^ (53 : ℤ) ≠ 0 := by norm_num
        have := double_exponent_le (e := 53) hne (by norm_num) (by norm_num [abs_of_pos])
        omega)
      have e : ((-(2 : ℤ) ^ 53 : ℤ) : ℝ) = ((-1 : ℤ) : ℝ) * (2 : ℝ) ^ (53 : ℤ) := by norm_num
      rw [e]
      exact h
  · have h := round_double_dyadic k 0 (by
      have hne : (k : ℝ) * (2 : ℝ) ^ (0 : ℤ) ≠ 0 := by
        simp only [zpow_zero, mul_one]; exact_mod_cast h0
      have := double_exponent_le (e := 52) hne (by norm_num) (by
        simp only [zpow_zero, mul_one]
        have : ((|k| : ℤ) : ℝ) < 2 ^ 53 := by exact_mod_cast hlt
        rw [Int.cast_abs] at this
        calc |(k : ℝ)| < 2 ^ 53 := this
          _ = (2 : ℝ) ^ ((52 : ℤ) + 1) := by norm_num)
      omega)
    simpa using h

theorem round_double_natCast (n : ℕ) (hn : n ≤ 2 ^ 53) : round_double (n : ℝ) = n := by
  have := round_double_intCast (n : ℤ) (by rw [abs_of_nonneg (by positivity)]; exact_mod_cast hn)
  simpa using this

theorem round_double_one : round_double 1 = 1 := by
  simpa using round_double_natCast 1 (by norm_num)

/-! ## Binary64: rounding is monotone -/

theorem round_double_le_zpow {x : ℝ} (hx : 0 ≤ x) :
    round_double x ≤ 2 ^ (double_exponent x + 1) := by
  have hu := double_ulp_pos x
  have h1 := abs_lt_zpow_double_exponent x
  rw [abs_of_nonneg hx] at h1
  have h2 : (2 : ℝ) ^ (double_exponent x + 1) = ((2 ^ 53 : ℤ) : ℝ) * double_ulp x := by
    unfold double_ulp
    rw [show (((2 : ℤ) ^ 53 : ℤ) : ℝ) = (2 : ℝ) ^ (53 : ℤ) by norm_num,
      ← zpow_add₀ (by norm_num)]
    congr 1
    ring
  have h3 : x / double_ulp x ≤ ((2 ^ 53 : ℤ) : ℝ) := by
    rw [div_le_iff₀ hu, ← h2]
    exact h1.le
  have h4 := round_ties_even_mono h3
  rw [round_ties_even_intCast] at h4
  have h5 : (round_ties_even (x / double_ulp x) : ℝ) ≤ ((2 ^ 53 : ℤ) : ℝ) := by exact_mod_cast h4
  rw [h2]
  unfold round_double
  exact mul_le_mul_of_nonneg_right h5 hu.le

theorem zpow_le_round_double {x : ℝ} (hx : (2 : ℝ) ^ double_exponent x ≤ x) :
    2 ^ double_exponent x ≤ round_double x := by
  have hu := double_ulp_pos x
  have h2 : (2 : ℝ) ^ double_exponent x = ((2 ^ 52 : ℤ) : ℝ) * double_ulp x := by
    unfold double_ulp
    rw [show (((2 : ℤ) ^ 52 : ℤ) : ℝ) = (2 : ℝ) ^ (52 : ℤ) by norm_num,
      ← zpow_add₀ (by norm_num)]
    congr 1
    ring
  have h3 : ((2 ^ 52 : ℤ) : ℝ) ≤ x / double_ulp x := by
    rw [le_div_iff₀ hu, ← h2]
    exact hx
  have h4 := round_ties_even_mono h3
  rw [round_ties_even_intCast] at h4
  have h5 : ((2 ^ 52 : ℤ) : ℝ) ≤ (round_ties_even (x / double_ulp x) : ℝ) := by exact_mod_cast h4
  rw [h2]
  unfold round_double
  exact mul_le_mul_of_nonneg_right h5 hu.le

/-- Rounding to `double` is monotone on the non-negative reals. -/
theorem round_double_mono {x y : ℝ} (hx : 0 ≤ x) (hxy : x ≤ y) :
    round_double x ≤ round_double y := by
  rcases eq_or_lt_of_le hx with h0 | h0
  · rw [← h0, round_double_zero]
    exact round_double_nonneg (le_trans hx hxy)
  have hy : 0 < y := lt_of_lt_of_le h0 hxy
  have hlog : Int.log 2 |x| ≤ Int.log 2 |y| := by
    rw [abs_of_pos h0, abs_of_pos hy]
    exact Int.log_mono_right h0 hxy
  have hexp : double_exponent x ≤ double_exponent y := by
    unfold double_exponent
    exact max_le_max hlog (le_refl _)
  rcases eq_or_lt_of_le hexp with heq | hlt
  · have hu : double_ulp x = double_ulp y := by unfold double_ulp; rw [heq]
    have hpos := double_ulp_pos y
    unfold round_double
    rw [hu]
    have h1 : x / double_ulp y ≤ y / double_ulp y := by gcongr
    have h2 := round_ties_even_mono h1
    have h3 : (round_ties_even (x / double_ulp y) : ℝ) ≤ round_ties_even (y / double_ulp y) := by
      exact_mod_cast h2
    exact mul_le_mul_of_nonneg_right h3 hpos.le
  · have h1 := round_double_le_zpow hx
    have hge := double_exponent_ge x
    have hylog : double_exponent y = Int.log 2 |y| := by
      unfold double_exponent at hlt ⊢
      apply max_eq_left
      by_contra hcon
      rw [max_eq_right (by omega)] at hlt
      have := le_max_right (Int.log 2 |x|) (-1022)
      omega
    have h2 : (2 : ℝ) ^ double_exponent y ≤ y := by
      rw [hylog]
      have := Int.zpow_log_le_self (b := 2) (by norm_num) (abs_pos.mpr hy.ne')
      rw [abs_of_pos hy] at this ⊢
      simpa using this
    have h3 := zpow_le_round_double h2
    have h4 : (2 : ℝ) ^ (double_exponent x + 1) ≤ 2 ^ double_exponent y :=
      zpow_le_zpow_right₀ (by norm_num) (by omega)
    linarith

/-! ## Binary64: doubling is exact -/

theorem round_double_two_mul {x : ℝ} (h : (2 : ℝ) ^ (-1022 : ℤ) ≤ |x|) :
    round_double (2 * x) = 2 * round_double x := by
  have hl := zpow_double_exponent_le h
  have hu := abs_lt_zpow_double_exponent x
  have hge := double_exponent_ge x
  have he : double_exponent (2 * x) = double_exponent x + 1 := by
    apply double_exponent_eq (by omega)
    · rw [abs_mul, abs_of_pos (by norm_num : (0 : ℝ) < 2), zpow_add_one₀ (by norm_num)]
      linarith
    · rw [abs_mul, abs_of_pos (by norm_num : (0 : ℝ) < 2), zpow_add_one₀ (by norm_num)]
      linarith
  have hulp : double_ulp (2 * x) = 2 * double_ulp x := by
    unfold double_ulp
    rw [he, show double_exponent x + 1 - 52 = (double_exponent x - 52) + 1 by ring,
      zpow_add_one₀ (by norm_num)]
    ring
  have hpos := double_ulp_pos x
  unfold round_double
  rw [hulp, show 2 * x / (2 * double_ulp x) = x / double_ulp x by field_simp; ring]
  ring

/-! ## Binary64: the tie at `2 ^ 53 + 1` -/

theorem round_ties_even_add_half (k : ℤ) (hk : Even k) :
    round_ties_even ((k : ℝ) + 1 / 2) = k := by
  have hfl : ⌊(k : ℝ) + 1 / 2⌋ = k := by
    rw [Int.floor_eq_iff]; constructor <;> norm_num
  have hfr : Int.fract ((k : ℝ) + 1 / 2) = 1 / 2 := by
    rw [Int.fract, hfl]; ring
  unfold round_ties_even
  rw [hfr, hfl, if_neg (lt_irrefl _), if_neg (lt_irrefl _), if_pos hk]

theorem round_double_tie : round_double (2 ^ 53 + 1) = 2 ^ 53 := by
  have he : double_exponent ((2 : ℝ) ^ 53 + 1) = 53 := by
    apply double_exponent_eq (by norm_num)
    · rw [abs_of_pos (by positivity)]; norm_num
    · rw [abs_of_pos (by positivity)]; norm_num
  have hulp : double_ulp ((2 : ℝ) ^ 53 + 1) = 2 := by
    unfold double_ulp; rw [he]; norm_num
  unfold round_double
  rw [hulp]
  have e : ((2 : ℝ) ^ 53 + 1) / 2 = ((2 ^ 52 : ℤ) : ℝ) + 1 / 2 := by norm_num
  rw [e, round_ties_even_add_half _ (by decide)]
  norm_num

/-! ## The size estimate: the rate in doubles -/

theorem round_double_unit {x : ℝ} (h0 : 0 ≤ x) (h1 : x ≤ 1) :
    0 ≤ round_double x ∧ round_double x ≤ 1 ∧ |round_double x - x| ≤ unit_roundoff := by
  refine ⟨round_double_nonneg h0, ?_, round_double_abs_le_one (by rw [abs_of_nonneg h0]; exact h1)⟩
  have := round_double_mono h0 h1
  rwa [round_double_one] at this

theorem abs_pow_sub_pow_le {a b : ℝ} (ha0 : 0 ≤ a) (ha1 : a ≤ 1) (hb0 : 0 ≤ b) (hb1 : b ≤ 1)
    (N : ℕ) : |a ^ N - b ^ N| ≤ N * |a - b| := by
  induction N with
  | zero => simp
  | succ N ih =>
    have e : a ^ (N + 1) - b ^ (N + 1) = a * (a ^ N - b ^ N) + (a - b) * b ^ N := by ring
    have hbN0 : 0 ≤ b ^ N := pow_nonneg hb0 N
    have hbN1 : b ^ N ≤ 1 := pow_le_one₀ hb0 hb1
    have h1 : |a * (a ^ N - b ^ N)| ≤ |a ^ N - b ^ N| := by
      rw [abs_mul, abs_of_nonneg ha0]
      exact mul_le_of_le_one_left (abs_nonneg _) ha1
    have h2 : |(a - b) * b ^ N| ≤ |a - b| := by
      rw [abs_mul, abs_of_nonneg hbN0]
      exact mul_le_of_le_one_right (abs_nonneg _) hbN1
    rw [e]
    push_cast
    calc |a * (a ^ N - b ^ N) + (a - b) * b ^ N|
        ≤ |a * (a ^ N - b ^ N)| + |(a - b) * b ^ N| := abs_add _ _
      _ ≤ N * |a - b| + |a - b| := by linarith
      _ = (N + 1) * |a - b| := by ring

/-- The rate computed in doubles stays within `(8 * (k * n) + 9) * 2 ^ -53` of the
rate in exact arithmetic, and within `[0, 1]`. -/
theorem false_positive_rate_double_sub_le (n : ℕ) (m : ℝ) (hm : 1 ≤ m) :
    |false_positive_rate_double NUM_HASH_FUNCTIONS n m - false_positive_rate NUM_HASH_FUNCTIONS n m|
      ≤ (8 * ((NUM_HASH_FUNCTIONS * n : ℕ) : ℝ) + 9) * unit_roundoff := by
  have hm0 : 0 < m := by linarith
  have hinv0 : 0 ≤ 1 / m := by positivity
  have hinv1 : 1 / m ≤ 1 := by rw [div_le_one hm0]; exact hm
  obtain ⟨h10, h11, h1e⟩ := round_double_unit hinv0 hinv1
  have hs20 : 0 ≤ 1 - round_double (1 / m) := by linarith
  have hs21 : 1 - round_double (1 / m) ≤ 1 := by linarith
  obtain ⟨h20, h21, h2e⟩ := round_double_unit hs20 hs21
  have hb0 : 0 ≤ 1 - 1 / m := by linarith
  have hb1 : 1 - 1 / m ≤ 1 := by linarith
  set u : ℝ := unit_roundoff with hu
  set N : ℕ := NUM_HASH_FUNCTIONS * n with hN
  set r2 := round_double (1 - round_double (1 / m)) with hr2
  have hr2e : |r2 - (1 - 1 / m)| ≤ 2 * u := by
    have e : r2 - (1 - 1 / m) =
        (r2 - (1 - round_double (1 / m))) - (round_double (1 / m) - 1 / m) := by ring
    rw [e]
    calc _ ≤ |r2 - (1 - round_double (1 / m))| + |round_double (1 / m) - 1 / m| := abs_sub _ _
      _ ≤ 2 * u := by linarith
  have hs30 : 0 ≤ r2 ^ N := pow_nonneg h20 N
  have hs31 : r2 ^ N ≤ 1 := pow_le_one₀ h20 h21
  obtain ⟨h30, h31, h3e⟩ := round_double_unit hs30 hs31
  set r3 := round_double (r2 ^ N) with hr3
  have hpw := abs_pow_sub_pow_le h20 h21 hb0 hb1 N
  have hN0 : (0 : ℝ) ≤ N := Nat.cast_nonneg N
  have hr3e : |r3 - (1 - 1 / m) ^ N| ≤ (2 * N + 1) * u := by
    have e : r3 - (1 - 1 / m) ^ N = (r3 - r2 ^ N) + (r2 ^ N - (1 - 1 / m) ^ N) := by ring
    rw [e]
    calc _ ≤ |r3 - r2 ^ N| + |r2 ^ N - (1 - 1 / m) ^ N| := abs_add _ _
      _ ≤ u + N * (2 * u) := by
          have := mul_le_mul_of_nonneg_left hr2e hN0
          linarith
      _ = (2 * N + 1) * u := by ring
  have hs40 : 0 ≤ 1 - r3 := by linarith
  have hs41 : 1 - r3 ≤ 1 := by linarith
  obtain ⟨h40, h41, h4e⟩ := round_double_unit hs40 hs41
  set r4 := round_double (1 - r3) with hr4
  have hc0 : 0 ≤ 1 - (1 - 1 / m) ^ N := by
    have := pow_le_one₀ hb0 hb1 (n := N); linarith
  have hc1 : 1 - (1 - 1 / m) ^ N ≤ 1 := by
    have := pow_nonneg hb0 N; linarith
  have hr4e : |r4 - (1 - (1 - 1 / m) ^ N)| ≤ (2 * N + 2) * u := by
    have e : r4 - (1 - (1 - 1 / m) ^ N) = (r4 - (1 - r3)) - (r3 - (1 - 1 / m) ^ N) := by ring
    rw [e]
    calc _ ≤ |r4 - (1 - r3)| + |r3 - (1 - 1 / m) ^ N| := abs_sub _ _
      _ ≤ (2 * N + 2) * u := by linarith
  have hs50 : 0 ≤ r4 ^ NUM_HASH_FUNCTIONS := pow_nonneg h40 _
  have hs51 : r4 ^ NUM_HASH_FUNCTIONS ≤ 1 := pow_le_one₀ h40 h41
  obtain ⟨h50, h51, h5e⟩ := round_double_unit hs50 hs51
  have hpw4 := abs_pow_sub_pow_le h40 h41 hc0 hc1 NUM_HASH_FUNCTIONS
  have hk : ((NUM_HASH_FUNCTIONS : ℕ) : ℝ) = 4 := by norm_num [NUM_HASH_FUNCTIONS]
  rw [hk] at hpw4
  have e : false_positive_rate_double NUM_HASH_FUNCTIONS n m -
        false_positive_rate NUM_HASH_FUNCTIONS n m =
      (round_double (r4 ^ NUM_HASH_FUNCTIONS) - r4 ^ NUM_HASH_FUNCTIONS) +
        (r4 ^ NUM_HASH_FUNCTIONS - (1 - (1 - 1 / m) ^ N) ^ NUM_HASH_FUNCTIONS) := by
    unfold false_positive_rate_double false_positive_rate libm_pow
    ring
  rw [e]
  calc _ ≤ |round_double (r4 ^ NUM_HASH_FUNCTIONS) - r4 ^ NUM_HASH_FUNCTIONS| +
        |r4 ^ NUM_HASH_FUNCTIONS - (1 - (1 - 1 / m) ^ N) ^ NUM_HASH_FUNCTIONS| := abs_add _ _
    _ ≤ u + 4 * ((2 * N + 2) * u) := by linarith
    _ = (8 * (N : ℝ) + 9) * u := by ring

/-! ## The size estimate: the refinement loop -/

theorem unit_roundoff_pos : 0 < unit_roundoff := by unfold unit_roundoff; positivity

theorem unit_roundoff_eq : unit_roundoff = 1 / 2 ^ 53 := by
  unfold unit_roundoff
  rw [zpow_neg, show ((53 : ℤ)) = ((53 : ℕ) : ℤ) by norm_num, zpow_natCast]
  norm_num

theorem current_false_positive_rate_eq (n : ℕ) (m : ℝ)
    (hn : NUM_HASH_FUNCTIONS * n ≤ INT_MAX) :
    current_false_positive_rate NUM_HASH_FUNCTIONS n m =
      some (false_positive_rate_double NUM_HASH_FUNCTIONS n m) := by
  unfold current_false_positive_rate
  rw [if_pos hn]

theorem refine_loop_isSome (n : ℕ) (p : ℝ)
    (hn : NUM_HASH_FUNCTIONS * n ≤ INT_MAX) :
    ∀ (d m : ℕ), m + d ≤ 2 ^ 53 →
      false_positive_rate_double NUM_HASH_FUNCTIONS n ((m + d : ℕ) : ℝ) ≤ p →
      ∀ fuel, d + 1 ≤ fuel →
        (refine_loop n p fuel (m : ℝ)
          (false_positive_rate_double NUM_HASH_FUNCTIONS n (m : ℝ))).isSome = true := by
  intro d
  induction d with
  | zero =>
    intro m _ h fuel hf
    obtain ⟨f, rfl⟩ : ∃ f, fuel = f + 1 := ⟨fuel - 1, by omega⟩
    simp only [Nat.add_zero] at h
    unfold refine_loop
    rw [if_neg (not_lt.mpr h)]
    rfl
  | succ d ih =>
    intro m hm h fuel hf
    obtain ⟨f, rfl⟩ : ∃ f, fuel = f + 1 := ⟨fuel - 1, by omega⟩
    unfold refine_loop
    by_cases hgt : false_positive_rate_double NUM_HASH_FUNCTIONS n (m : ℝ) > p
    · rw [if_pos hgt]
      have hstep : round_double ((m : ℝ) + 1) = ((m + 1 : ℕ) : ℝ) := by
        have := round_double_natCast (m + 1) (by omega)
        push_cast at this ⊢
        exact this
      rw [hstep, current_false_positive_rate_eq n _ hn]
      simp only
      apply ih (m + 1) (by omega) _ f (by omega)
      have : m + 1 + d = m + (d + 1) := by ring
      rw [this]; exact h
    · rw [if_neg hgt]; rfl

/-- The exact rate is at most `k * n / m` once `m ≥ 1`. -/
theorem false_positive_rate_le (n : ℕ) (m : ℝ) (hm : 1 ≤ m) :
    false_positive_rate NUM_HASH_FUNCTIONS n m ≤ (NUM_HASH_FUNCTIONS * n : ℕ) / m := by
  have hm0 : 0 < m := by linarith
  have hinv : 1 / m ≤ 1 := by rw [div_le_one hm0]; exact hm
  have hinv0 : 0 ≤ 1 / m := by positivity
  have hbase0 : 0 ≤ 1 - 1 / m := by linarith
  have hbase1 : 1 - 1 / m ≤ 1 := by linarith
  have hpow1 : (1 - 1 / m) ^ (NUM_HASH_FUNCTIONS * n) ≤ 1 := pow_le_one₀ hbase0 hbase1
  have hpow0 : 0 ≤ (1 - 1 / m) ^ (NUM_HASH_FUNCTIONS * n) := pow_nonneg hbase0 _
  have hbern : 1 + ((NUM_HASH_FUNCTIONS * n : ℕ) : ℝ) * (-(1 / m))
      ≤ (1 + -(1 / m)) ^ (NUM_HASH_FUNCTIONS * n) :=
    one_add_mul_le_pow (by linarith) _
  have hx0 : 0 ≤ 1 - (1 - 1 / m) ^ (NUM_HASH_FUNCTIONS * n) := by linarith
  have hx1 : 1 - (1 - 1 / m) ^ (NUM_HASH_FUNCTIONS * n) ≤ 1 := by linarith
  have hxle : 1 - (1 - 1 / m) ^ (NUM_HASH_FUNCTIONS * n)
      ≤ ((NUM_HASH_FUNCTIONS * n : ℕ) : ℝ) / m := by
    have : (1 + -(1 / m)) = 1 - 1 / m := by ring
    rw [this] at hbern
    have h2 : ((NUM_HASH_FUNCTIONS * n : ℕ) : ℝ) / m
        = ((NUM_HASH_FUNCTIONS * n : ℕ) : ℝ) * (1 / m) := by ring
    rw [h2]
    linarith
  unfold false_positive_rate
  calc (1 - (1 - 1 / m) ^ (NUM_HASH_FUNCTIONS * n)) ^ NUM_HASH_FUNCTIONS
      ≤ 1 - (1 - 1 / m) ^ (NUM_HASH_FUNCTIONS * n) :=
        pow_le_of_le_one hx0 hx1 (by decide)
    _ ≤ _ := hxle

/-- The loop, entered with a first step to `m = 2`, ends once the fuel covers a
candidate `2 + d` at which the exact rate is below the target by the rounding
margin. -/
theorem refine_loop_of_rate_le (n : ℕ) (p : ℝ) (hp1 : p < 1)
    (hn : NUM_HASH_FUNCTIONS * n ≤ INT_MAX) (d : ℕ) (hd : 2 + d ≤ 2 ^ 53)
    (hrate : false_positive_rate NUM_HASH_FUNCTIONS n ((2 + d : ℕ) : ℝ) +
      (8 * ((NUM_HASH_FUNCTIONS * n : ℕ) : ℝ) + 9) * unit_roundoff ≤ p)
    (fuel : ℕ) (hf : d + 2 ≤ fuel) :
    (refine_loop n p fuel 1 1).isSome = true := by
  obtain ⟨f, rfl⟩ : ∃ f, fuel = f + 1 := ⟨fuel - 1, by omega⟩
  unfold refine_loop
  rw [if_pos hp1]
  have hstep : round_double ((1 : ℝ) + 1) = ((2 : ℕ) : ℝ) := by
    have := round_double_natCast 2 (by norm_num)
    norm_num at this ⊢
    exact this
  rw [hstep, current_false_positive_rate_eq n _ hn]
  simp only
  apply refine_loop_isSome n p hn d 2 hd _ f (by omega)
  have hm : (1 : ℝ) ≤ ((2 + d : ℕ) : ℝ) := by
    have : 1 ≤ 2 + d := by omega
    exact_mod_cast this
  have herr := false_positive_rate_double_sub_le n ((2 + d : ℕ) : ℝ) hm
  have := (abs_le.mp herr).2
  linarith

/-- At the candidate `2 ^ 53` the exact rate and the rounding margin together
are below `2 ^ -18`, for every `n` whose product `4 * n` is an `int`. -/
theorem rate_margin_at_last_candidate (n : ℕ)
    (hn : NUM_HASH_FUNCTIONS * n ≤ INT_MAX) :
    false_positive_rate NUM_HASH_FUNCTIONS n ((2 + (2 ^ 53 - 2) : ℕ) : ℝ) +
      (8 * ((NUM_HASH_FUNCTIONS * n : ℕ) : ℝ) + 9) * unit_roundoff ≤ 2 ^ (-18 : ℤ) := by
  have hN : ((NUM_HASH_FUNCTIONS * n : ℕ) : ℝ) ≤ 2147483647 := by
    have : NUM_HASH_FUNCTIONS * n ≤ 2147483647 := hn
    exact_mod_cast this
  have hN0 : (0 : ℝ) ≤ ((NUM_HASH_FUNCTIONS * n : ℕ) : ℝ) := Nat.cast_nonneg _
  have hle := false_positive_rate_le n ((2 + (2 ^ 53 - 2) : ℕ) : ℝ) (by norm_num)
  have hp18 : (2 : ℝ) ^ (-18 : ℤ) = 1 / 262144 := by
    rw [zpow_neg, show ((18 : ℤ)) = ((18 : ℕ) : ℤ) by norm_num, zpow_natCast]
    norm_num
  rw [hp18, unit_roundoff_eq]
  have hcast : (((2 + (2 ^ 53 - 2) : ℕ)) : ℝ) = 2 ^ 53 := by norm_num
  rw [hcast] at hle ⊢
  have h3 : ((NUM_HASH_FUNCTIONS * n : ℕ) : ℝ) / 2 ^ 53 ≤ 2147483647 / 2 ^ 53 := by gcongr
  have h4 : (8 * ((NUM_HASH_FUNCTIONS * n : ℕ) : ℝ) + 9) * (1 / 2 ^ 53) ≤
      (8 * 2147483647 + 9) * (1 / 2 ^ 53) := by gcongr
  norm_num at h3 h4 ⊢
  linarith

theorem refine_loop_terminates (n : ℕ) (p : ℝ) (hp0 : 2 ^ (-18 : ℤ) ≤ p) (hp1 : p < 1)
    (hn : NUM_HASH_FUNCTIONS * n ≤ INT_MAX) :
    ∃ fuel0, ∀ fuel, fuel0 ≤ fuel → (refine_loop n p fuel 1 1).isSome = true := by
  refine ⟨2 ^ 53, fun fuel hf => ?_⟩
  exact refine_loop_of_rate_le n p hp1 hn (2 ^ 53 - 2) (by norm_num)
    (le_trans (rate_margin_at_last_candidate n hn) hp0) fuel
    (by have : 2 ^ 53 - 2 + 2 = 2 ^ 53 := by norm_num
        omega)

/-! ## The size estimate: the closed form in doubles -/

theorem min_normal_le : (2 : ℝ) ^ (-1022 : ℤ) ≤ 1 / 2 ^ 55 := by
  have h : (2 : ℝ) ^ (-1022 : ℤ) ≤ 2 ^ (-55 : ℤ) := zpow_le_zpow_right₀ (by norm_num) (by norm_num)
  have e : (2 : ℝ) ^ (-55 : ℤ) = 1 / 2 ^ 55 := by
    rw [zpow_neg, show ((55 : ℤ)) = ((55 : ℕ) : ℤ) by norm_num, zpow_natCast]
    norm_num
  rwa [e] at h

theorem round_double_bounds_of_pos {x : ℝ} (hx : 1 / 2 ^ 55 ≤ x) :
    x * (1 - unit_roundoff) ≤ round_double x ∧ round_double x ≤ x * (1 + unit_roundoff) := by
  have hpos : 0 < x := lt_of_lt_of_le (by positivity) hx
  have h := round_double_rel (x := x) (by rw [abs_of_pos hpos]; exact le_trans min_normal_le hx)
  rw [abs_of_pos hpos, abs_le] at h
  constructor
  · linarith [h.1]
  · linarith [h.2]

theorem round_double_bounds_of_neg {x : ℝ} (hx : x ≤ -(1 / 2 ^ 55)) :
    x * (1 + unit_roundoff) ≤ round_double x ∧ round_double x ≤ x * (1 - unit_roundoff) := by
  have hneg : x < 0 := lt_of_le_of_lt hx (by norm_num)
  have h := round_double_rel (x := x) (by
    rw [abs_of_neg hneg]; exact le_trans min_normal_le (by linarith))
  rw [abs_of_neg hneg, abs_le] at h
  constructor
  · linarith [h.1]
  · linarith [h.2]

theorem unit_roundoff_cube_le :
    (1 + unit_roundoff) ^ 3 ≤ (1 + 8 * unit_roundoff) * (1 - unit_roundoff) ^ 3 ∧
    (1 - 8 * unit_roundoff) * (1 + unit_roundoff) ^ 3 ≤ (1 - unit_roundoff) ^ 3 := by
  rw [unit_roundoff_eq]
  constructor <;> norm_num

theorem log_two_bounds_rough : (0.69 : ℝ) < Real.log 2 ∧ Real.log 2 < 0.7 := by
  constructor
  · linarith [Real.log_two_gt_d9]
  · linarith [Real.log_two_lt_d9]

theorem one_sub_unit_roundoff_pos : 0 < 1 - unit_roundoff := by
  rw [unit_roundoff_eq]; norm_num

theorem round_double_between {y lo hi : ℝ} (hlo : 1 / 2 ^ 55 ≤ lo) (h1 : lo ≤ y) (h2 : y ≤ hi) :
    lo * (1 - unit_roundoff) ≤ round_double y ∧ round_double y ≤ hi * (1 + unit_roundoff) := by
  obtain ⟨ha, hb⟩ := round_double_bounds_of_pos (le_trans hlo h1)
  have hu := unit_roundoff_pos
  have hu1 := one_sub_unit_roundoff_pos
  constructor
  · exact le_trans (mul_le_mul_of_nonneg_right h1 hu1.le) ha
  · exact le_trans hb (mul_le_mul_of_nonneg_right h2 (by linarith))

theorem half_le_log_two_mul : (1 / 2 : ℝ) ≤ Real.log 2 * (1 - unit_roundoff) := by
  have h := log_two_bounds_rough.1
  rw [unit_roundoff_eq]
  nlinarith

/-- The divisor `log(2) * log(2)` in doubles. -/
theorem log_two_sq_double_bounds :
    Real.log 2 * Real.log 2 * (1 - unit_roundoff) ^ 3 ≤
      round_double (libm_log 2 * libm_log 2) ∧
    round_double (libm_log 2 * libm_log 2) ≤
      Real.log 2 * Real.log 2 * (1 + unit_roundoff) ^ 3 := by
  obtain ⟨h2l, h2u⟩ := log_two_bounds_rough
  have hu := unit_roundoff_pos
  have hu1 := one_sub_unit_roundoff_pos
  have hhalf := half_le_log_two_mul
  obtain ⟨hl_lo, hl_hi⟩ := round_double_bounds_of_pos (x := Real.log 2) (by
    have : (1 : ℝ) / 2 ^ 55 ≤ 0.69 := by norm_num
    linarith)
  have hlo0 : 0 ≤ Real.log 2 * (1 - unit_roundoff) := by linarith
  have hl0 : 0 ≤ round_double (Real.log 2) := le_trans hlo0 hl_lo
  have hB_lo : Real.log 2 * (1 - unit_roundoff) * (Real.log 2 * (1 - unit_roundoff)) ≤
      libm_log 2 * libm_log 2 := mul_le_mul hl_lo hl_lo hlo0 hl0
  have hB_hi : libm_log 2 * libm_log 2 ≤
      Real.log 2 * (1 + unit_roundoff) * (Real.log 2 * (1 + unit_roundoff)) :=
    mul_le_mul hl_hi hl_hi hl0 (le_trans hl0 hl_hi)
  have hsmall : (1 : ℝ) / 2 ^ 55 ≤
      Real.log 2 * (1 - unit_roundoff) * (Real.log 2 * (1 - unit_roundoff)) := by
    have h4 : (1 / 2 : ℝ) * (1 / 2) ≤
        Real.log 2 * (1 - unit_roundoff) * (Real.log 2 * (1 - unit_roundoff)) :=
      mul_le_mul hhalf hhalf (by norm_num) hlo0
    have : (1 : ℝ) / 2 ^ 55 ≤ 1 / 2 * (1 / 2) := by norm_num
    linarith
  obtain ⟨h1, h2⟩ := round_double_between hsmall hB_lo hB_hi
  constructor
  · calc Real.log 2 * Real.log 2 * (1 - unit_roundoff) ^ 3
        = Real.log 2 * (1 - unit_roundoff) * (Real.log 2 * (1 - unit_roundoff)) *
            (1 - unit_roundoff) := by ring
      _ ≤ _ := h1
  · calc round_double (libm_log 2 * libm_log 2)
        ≤ Real.log 2 * (1 + unit_roundoff) * (Real.log 2 * (1 + unit_roundoff)) *
            (1 + unit_roundoff) := h2
      _ = _ := by ring

theorem log_two_sq_bounds_rough :
    (0.47 : ℝ) < Real.log 2 * Real.log 2 ∧ Real.log 2 * Real.log 2 < 0.49 := by
  obtain ⟨h2l, h2u⟩ := log_two_bounds_rough
  constructor <;> nlinarith

/-- The product `-n * log(max_fp_rate)` in doubles, for `n ≥ 1`. -/
theorem neg_mul_log_double_bounds (n : ℕ) (hpos : 0 < n) (hn : n ≤ 2 ^ 53) (p : ℝ) (hp0 : 0 < p)
    (hp1 : p ≤ 1 - unit_roundoff) :
    (n : ℝ) * (-Real.log p) * (1 - unit_roundoff) ^ 2 ≤
      round_double (round_double (-(n : ℝ)) * libm_log p) ∧
    round_double (round_double (-(n : ℝ)) * libm_log p) ≤
      (n : ℝ) * (-Real.log p) * (1 + unit_roundoff) ^ 2 ∧
    1 / 2 ^ 53 ≤ (n : ℝ) * (-Real.log p) := by
  have hu := unit_roundoff_pos
  have hu1 := one_sub_unit_roundoff_pos
  have hue := unit_roundoff_eq
  have hn1 : (1 : ℝ) ≤ n := by exact_mod_cast hpos
  have hL : Real.log p ≤ -(1 / 2 ^ 53) := by
    have := Real.log_le_sub_one_of_pos hp0
    rw [hue] at hp1
    linarith
  obtain ⟨hlp_lo, hlp_hi⟩ := round_double_bounds_of_neg (x := Real.log p) (by
    have : (1 : ℝ) / 2 ^ 55 ≤ 1 / 2 ^ 53 := by norm_num
    linarith)
  have hnn : round_double (-(n : ℝ)) = -(n : ℝ) := by
    have := round_double_intCast (-(n : ℤ)) (by
      rw [abs_neg, abs_of_nonneg (by positivity)]; exact_mod_cast hn)
    push_cast at this
    exact this
  have hA : round_double (-(n : ℝ)) * libm_log p = (n : ℝ) * (-round_double (Real.log p)) := by
    rw [hnn]; unfold libm_log; ring
  have hnL0 : (0 : ℝ) ≤ -Real.log p := by
    have : (0 : ℝ) ≤ 1 / 2 ^ 53 := by positivity
    linarith
  have hc53 : 1 / 2 ^ 53 ≤ (n : ℝ) * (-Real.log p) := by
    have h1 : (1 : ℝ) * (1 / 2 ^ 53) ≤ (n : ℝ) * (-Real.log p) :=
      mul_le_mul hn1 (by linarith) (by positivity) (by linarith)
    linarith
  have hA_lo : (n : ℝ) * (-Real.log p) * (1 - unit_roundoff) ≤
      (n : ℝ) * (-round_double (Real.log p)) := by
    have h1 : -Real.log p * (1 - unit_roundoff) ≤ -round_double (Real.log p) := by linarith
    have := mul_le_mul_of_nonneg_left h1 (by linarith : (0 : ℝ) ≤ n)
    linarith
  have hA_hi : (n : ℝ) * (-round_double (Real.log p)) ≤
      (n : ℝ) * (-Real.log p) * (1 + unit_roundoff) := by
    have h1 : -round_double (Real.log p) ≤ -Real.log p * (1 + unit_roundoff) := by linarith
    have := mul_le_mul_of_nonneg_left h1 (by linarith : (0 : ℝ) ≤ n)
    linarith
  have hsmall : (1 : ℝ) / 2 ^ 55 ≤ (n : ℝ) * (-Real.log p) * (1 - unit_roundoff) := by
    have h1 : (1 : ℝ) / 2 ^ 53 * (1 - unit_roundoff) ≤
        (n : ℝ) * (-Real.log p) * (1 - unit_roundoff) :=
      mul_le_mul_of_nonneg_right hc53 hu1.le
    have h2 : (1 : ℝ) / 2 ^ 55 ≤ 1 / 2 ^ 53 * (1 - unit_roundoff) := by
      rw [hue]; norm_num
    linarith
  rw [hA]
  obtain ⟨h1, h2⟩ := round_double_between hsmall hA_lo hA_hi
  refine ⟨?_, ?_, hc53⟩
  · calc (n : ℝ) * (-Real.log p) * (1 - unit_roundoff) ^ 2
        = (n : ℝ) * (-Real.log p) * (1 - unit_roundoff) * (1 - unit_roundoff) := by ring
      _ ≤ _ := h1
  · calc round_double ((n : ℝ) * (-round_double (Real.log p)))
        ≤ (n : ℝ) * (-Real.log p) * (1 + unit_roundoff) * (1 + unit_roundoff) := h2
      _ = _ := by ring

theorem ratio_upper {c g : ℝ} (hc : 0 ≤ c) (hg : 0 < g) :
    c * (1 + unit_roundoff) ^ 2 / (g * (1 - unit_roundoff) ^ 3) * (1 + unit_roundoff) ≤
      c / g * (1 + 8 * unit_roundoff) := by
  have hu1 := one_sub_unit_roundoff_pos
  have h3 : 0 < (1 - unit_roundoff) ^ 3 := by positivity
  have hq : (1 + unit_roundoff) ^ 3 / (1 - unit_roundoff) ^ 3 ≤ 1 + 8 * unit_roundoff := by
    rw [div_le_iff₀ h3]
    exact unit_roundoff_cube_le.1
  have e : c * (1 + unit_roundoff) ^ 2 / (g * (1 - unit_roundoff) ^ 3) * (1 + unit_roundoff) =
      c / g * ((1 + unit_roundoff) ^ 3 / (1 - unit_roundoff) ^ 3) := by
    field_simp
    ring
  rw [e]
  exact mul_le_mul_of_nonneg_left hq (div_nonneg hc hg.le)

theorem ratio_lower {c g : ℝ} (hc : 0 ≤ c) (hg : 0 < g) :
    c / g * (1 - 8 * unit_roundoff) ≤
      c * (1 - unit_roundoff) ^ 2 / (g * (1 + unit_roundoff) ^ 3) * (1 - unit_roundoff) := by
  have hu := unit_roundoff_pos
  have h3 : 0 < (1 + unit_roundoff) ^ 3 := by positivity
  have hq : 1 - 8 * unit_roundoff ≤ (1 - unit_roundoff) ^ 3 / (1 + unit_roundoff) ^ 3 := by
    rw [le_div_iff₀ h3]
    exact unit_roundoff_cube_le.2
  have e : c * (1 - unit_roundoff) ^ 2 / (g * (1 + unit_roundoff) ^ 3) * (1 - unit_roundoff) =
      c / g * ((1 - unit_roundoff) ^ 3 / (1 + unit_roundoff) ^ 3) := by
    field_simp
    ring
  rw [e]
  exact mul_le_mul_of_nonneg_left hq (div_nonneg hc hg.le)

/-- The closed form computed in doubles is within relative `8 * 2 ^ -53` of the
closed form in exact arithmetic. -/
theorem closed_form_double_bounds (n : ℕ) (hn : n ≤ 2 ^ 53) (p : ℝ) (hp0 : 0 < p)
    (hp1 : p ≤ 1 - unit_roundoff) :
    -(n : ℝ) * Real.log p / (Real.log 2 * Real.log 2) * (1 - 8 * unit_roundoff) ≤
      closed_form_double n p ∧
    closed_form_double n p ≤
      -(n : ℝ) * Real.log p / (Real.log 2 * Real.log 2) * (1 + 8 * unit_roundoff) := by
  rcases Nat.eq_zero_or_pos n with h0 | hpos
  · subst h0
    simp [closed_form_double, round_double_zero]
  obtain ⟨ha_lo, ha_hi, hc53⟩ := neg_mul_log_double_bounds n hpos hn p hp0 hp1
  obtain ⟨hD_lo, hD_hi⟩ := log_two_sq_double_bounds
  obtain ⟨hg_lo, hg_hi⟩ := log_two_sq_bounds_rough
  have hu := unit_roundoff_pos
  have hu1 := one_sub_unit_roundoff_pos
  have hue := unit_roundoff_eq
  generalize hc : (n : ℝ) * (-Real.log p) = c at ha_lo ha_hi hc53
  generalize hg : Real.log 2 * Real.log 2 = g at hD_lo hD_hi hg_lo hg_hi
  have hcf : -(n : ℝ) * Real.log p / g = c / g := by
    rw [← hc]; ring
  rw [hcf]
  unfold closed_form_double
  generalize round_double (round_double (-(n : ℝ)) * libm_log p) = a at ha_lo ha_hi
  generalize round_double (libm_log 2 * libm_log 2) = D at hD_lo hD_hi
  have hg0 : 0 < g := by linarith
  have hc0 : 0 ≤ c := le_trans (by positivity) hc53
  have hglo_pos : 0 < g * (1 - unit_roundoff) ^ 3 := by positivity
  have hDpos : 0 < D := lt_of_lt_of_le hglo_pos hD_lo
  have hghi1 : g * (1 + unit_roundoff) ^ 3 ≤ 1 := by
    have h1 : (1 + unit_roundoff) ^ 3 ≤ 2 := by rw [hue]; norm_num
    have h2 : g * (1 + unit_roundoff) ^ 3 ≤ 0.49 * 2 :=
      mul_le_mul hg_hi.le h1 (by positivity) (by norm_num)
    linarith
  have hghi0 : 0 < g * (1 + unit_roundoff) ^ 3 := by positivity
  have hQ_hi : a / D ≤ c * (1 + unit_roundoff) ^ 2 / (g * (1 - unit_roundoff) ^ 3) :=
    div_le_div₀ (by positivity) ha_hi hglo_pos hD_lo
  have ha0 : 0 ≤ a := le_trans (by positivity) ha_lo
  have hQ_lo : c * (1 - unit_roundoff) ^ 2 / (g * (1 + unit_roundoff) ^ 3) ≤ a / D :=
    div_le_div₀ ha0 ha_lo hDpos hD_hi
  have hsmall : (1 : ℝ) / 2 ^ 55 ≤ c * (1 - unit_roundoff) ^ 2 / (g * (1 + unit_roundoff) ^ 3) := by
    rw [le_div_iff₀ hghi0]
    have h1 : (1 : ℝ) / 2 ^ 53 * (1 - unit_roundoff) ^ 2 ≤ c * (1 - unit_roundoff) ^ 2 :=
      mul_le_mul_of_nonneg_right hc53 (by positivity)
    have h2 : (1 : ℝ) / 2 ^ 55 ≤ 1 / 2 ^ 53 * (1 - unit_roundoff) ^ 2 := by
      rw [hue]; norm_num
    have h3 : (1 : ℝ) / 2 ^ 55 * (g * (1 + unit_roundoff) ^ 3) ≤ 1 / 2 ^ 55 * 1 :=
      mul_le_mul_of_nonneg_left hghi1 (by positivity)
    linarith
  obtain ⟨h1, h2⟩ := round_double_between hsmall hQ_lo hQ_hi
  exact ⟨le_trans (ratio_lower hc0 hg0) h1, le_trans h2 (ratio_upper hc0 hg0)⟩

/-! ## The size estimate: the factor at the target rate -/

theorem log_five_fourths_bounds :
    (0.2231435512 : ℝ) < Real.log (5 / 4) ∧ Real.log (5 / 4) < 0.2231435514 := by
  have h := Real.abs_log_sub_add_sum_range_le (x := (1 / 5 : ℝ)) (by rw [abs_of_pos] <;> norm_num) 15
  have e : Real.log (1 - 1 / 5) = -Real.log (5 / 4) := by
    rw [show (1 - 1 / 5 : ℝ) = (5 / 4)⁻¹ by norm_num, Real.log_inv]
  rw [e, abs_of_pos (by norm_num : (0 : ℝ) < 1 / 5)] at h
  simp only [Finset.sum_range_succ, Finset.sum_range_zero] at h
  rw [abs_le] at h
  norm_num at h
  constructor <;> linarith [h.1, h.2]

theorem log_two_bounds_tight :
    (0.6931471804 : ℝ) < Real.log 2 ∧ Real.log 2 < 0.6931471807 := by
  have h := Real.log_two_near_10
  rw [abs_le] at h
  constructor
  · norm_num at h ⊢; linarith [h.1]
  · norm_num at h ⊢; linarith [h.2]

theorem log_twenty_eq : Real.log 20 = 4 * Real.log 2 + Real.log (5 / 4) := by
  have : (20 : ℝ) = 2 ^ 4 * (5 / 4) := by norm_num
  rw [this, Real.log_mul (by norm_num) (by norm_num), Real.log_pow]
  norm_num

/-- The factor `ln 20 / (ln 2)^2` of the closed form at the rate 0.05. -/
theorem sizing_factor_bounds :
    (6.2352242160 : ℝ) * (Real.log 2 * Real.log 2) < Real.log 20 ∧
    Real.log 20 < 6.2352242329 * (Real.log 2 * Real.log 2) := by
  obtain ⟨h2l, h2u⟩ := log_two_bounds_tight
  obtain ⟨hql, hqu⟩ := log_five_fourths_bounds
  rw [log_twenty_eq]
  constructor <;> nlinarith

/-! ## The size estimate: the target rate -/

theorem max_fp_rate_bounds :
    0.05 * (1 - unit_roundoff) ≤ MAX_FP_RATE ∧ MAX_FP_RATE ≤ 0.05 * (1 + unit_roundoff) :=
  round_double_bounds_of_pos (by norm_num)

theorem max_fp_rate_pos : 0 < MAX_FP_RATE := by
  have h := max_fp_rate_bounds.1
  have := one_sub_unit_roundoff_pos
  nlinarith

theorem max_fp_rate_lt_one : MAX_FP_RATE < 1 := by
  have h := max_fp_rate_bounds.2
  rw [unit_roundoff_eq] at h
  norm_num at h
  linarith

theorem max_fp_rate_le : MAX_FP_RATE ≤ 1 - unit_roundoff := by
  have h := max_fp_rate_bounds.2
  rw [unit_roundoff_eq] at h ⊢
  norm_num at h ⊢
  linarith

theorem max_fp_rate_ge : (2 : ℝ) ^ (-18 : ℤ) ≤ MAX_FP_RATE := by
  have h := max_fp_rate_bounds.1
  have hp18 : (2 : ℝ) ^ (-18 : ℤ) = 1 / 262144 := by
    rw [zpow_neg, show ((18 : ℤ)) = ((18 : ℕ) : ℤ) by norm_num, zpow_natCast]
    norm_num
  rw [unit_roundoff_eq] at h
  rw [hp18]
  norm_num at h ⊢
  linarith

/-- The logarithm of the target rate, against `ln 20`. -/
theorem log_max_fp_rate_bounds :
    -Real.log 20 - 2 * unit_roundoff ≤ Real.log MAX_FP_RATE ∧
    Real.log MAX_FP_RATE ≤ -Real.log 20 + unit_roundoff := by
  obtain ⟨hlo, hhi⟩ := max_fp_rate_bounds
  have hu := unit_roundoff_pos
  have hu1 := one_sub_unit_roundoff_pos
  have hpos := max_fp_rate_pos
  have e20 : Real.log (0.05 : ℝ) = -Real.log 20 := by
    rw [show (0.05 : ℝ) = (20 : ℝ)⁻¹ by norm_num, Real.log_inv]
  constructor
  · have h1 : Real.log (0.05 * (1 - unit_roundoff)) ≤ Real.log MAX_FP_RATE :=
      Real.log_le_log (by positivity) hlo
    rw [Real.log_mul (by norm_num) hu1.ne', e20] at h1
    have h2 := Real.one_sub_inv_le_log_of_pos hu1
    have h3 : (1 - unit_roundoff)⁻¹ ≤ 1 + 2 * unit_roundoff := by
      rw [inv_eq_one_div, div_le_iff₀ hu1, unit_roundoff_eq]
      norm_num
    linarith
  · have h1 : Real.log MAX_FP_RATE ≤ Real.log (0.05 * (1 + unit_roundoff)) :=
      Real.log_le_log hpos hhi
    rw [Real.log_mul (by norm_num) (by linarith), e20] at h1
    have h2 := Real.log_le_sub_one_of_pos (by linarith : 0 < 1 + unit_roundoff)
    linarith

/-- The double value of the closed form at the target rate is `n` times a
factor between 6.235224215 and 6.235224233. -/
theorem closed_form_double_rate_bounds (n : ℕ) (hn : n ≤ 2 ^ 53) :
    6.235224215 * (n : ℝ) ≤ closed_form_double n MAX_FP_RATE ∧
    closed_form_double n MAX_FP_RATE ≤ 6.235224233 * (n : ℝ) := by
  obtain ⟨hlo, hhi⟩ := closed_form_double_bounds n hn MAX_FP_RATE max_fp_rate_pos max_fp_rate_le
  obtain ⟨hLlo, hLhi⟩ := log_max_fp_rate_bounds
  obtain ⟨hKlo, hKhi⟩ := sizing_factor_bounds
  obtain ⟨hg_lo, hg_hi⟩ := log_two_sq_bounds_rough
  have hue := unit_roundoff_eq
  have hn0 : (0 : ℝ) ≤ n := Nat.cast_nonneg n
  generalize Real.log 2 * Real.log 2 = g at hlo hhi hKlo hKhi hg_lo hg_hi
  generalize Real.log MAX_FP_RATE = L at hlo hhi hLlo hLhi
  generalize Real.log 20 = T at hLlo hLhi hKlo hKhi
  generalize closed_form_double n MAX_FP_RATE = x at hlo hhi
  have hg0 : 0 < g := by linarith
  rw [hue] at hlo hhi hLlo hLhi
  have hT : T < 3.1 := by nlinarith
  have hT0 : 0 < T := by nlinarith
  constructor
  · have h1 : 6.235224215 * g ≤ (T - 1 / 2 ^ 53) * (1 - 8 * (1 / 2 ^ 53)) := by nlinarith
    have h2 : (T - 1 / 2 ^ 53) * (1 - 8 * (1 / 2 ^ 53)) ≤ -L * (1 - 8 * (1 / 2 ^ 53)) := by
      apply mul_le_mul_of_nonneg_right _ (by norm_num)
      linarith
    have h3 : 6.235224215 * (n : ℝ) ≤ -(n : ℝ) * L / g * (1 - 8 * (1 / 2 ^ 53)) := by
      rw [div_mul_eq_mul_div, le_div_iff₀ hg0]
      have := mul_le_mul_of_nonneg_left (le_trans h1 h2) hn0
      nlinarith
    linarith
  · have h1 : (T + 2 * (1 / 2 ^ 53)) * (1 + 8 * (1 / 2 ^ 53)) ≤ 6.235224233 * g := by nlinarith
    have h2 : -L * (1 + 8 * (1 / 2 ^ 53)) ≤ (T + 2 * (1 / 2 ^ 53)) * (1 + 8 * (1 / 2 ^ 53)) := by
      apply mul_le_mul_of_nonneg_right _ (by norm_num)
      linarith
    have h3 : -(n : ℝ) * L / g * (1 + 8 * (1 / 2 ^ 53)) ≤ 6.235224233 * (n : ℝ) := by
      rw [div_mul_eq_mul_div, div_le_iff₀ hg0]
      have := mul_le_mul_of_nonneg_left (le_trans h2 h1) hn0
      nlinarith
    linarith

/-! ## The size estimate: the cast and the call -/

theorem double_to_int_of_nonneg {x : ℝ} (h0 : 0 ≤ x) (h1 : x < 2 ^ 31) :
    double_to_int x = some ⌊x⌋ := by
  unfold double_to_int
  simp only [if_pos h0]
  have hf0 : (0 : ℤ) ≤ ⌊x⌋ := Int.floor_nonneg.mpr h0
  have hf1 : ⌊x⌋ < 2 ^ 31 := by
    apply Int.floor_lt.mpr
    push_cast
    linarith
  rw [if_pos]
  unfold INT_MIN INT_MAX
  constructor <;> omega

theorem double_to_int_of_ge {x : ℝ} (h : (2 : ℝ) ^ 31 ≤ x) : double_to_int x = none := by
  unfold double_to_int
  have h0 : 0 ≤ x := le_trans (by positivity) h
  simp only [if_pos h0]
  have hf : (2 : ℤ) ^ 31 ≤ ⌊x⌋ := by
    apply Int.le_floor.mpr
    push_cast
    linarith
  rw [if_neg]
  unfold INT_MAX
  intro hcon
  omega

theorem calc_of_loop_isSome (fuel n : ℕ) (p : ℝ) (hn : n ≤ INT_MAX)
    (h : (refine_loop n p fuel 1 1).isSome = true) :
    calc_optimum_bitArraySize fuel n p = double_to_int (closed_form_double n p) := by
  unfold calc_optimum_bitArraySize
  rw [if_pos hn]
  cases hr : refine_loop n p fuel 1 1 with
  | none => rw [hr] at h; cases h
  | some r => rfl

theorem calc_of_cast_none (fuel n : ℕ) (p : ℝ)
    (h : double_to_int (closed_form_double n p) = none) :
    calc_optimum_bitArraySize fuel n p = none := by
  unfold calc_optimum_bitArraySize
  split_ifs
  · cases refine_loop n p fuel 1 1 with
    | none => rfl
    | some r => exact h
  · rfl

theorem four_mul_le_int_max (n : ℕ) (hn : n ≤ 536870911) :
    NUM_HASH_FUNCTIONS * n ≤ INT_MAX := by
  unfold NUM_HASH_FUNCTIONS INT_MAX
  omega

theorem le_int_max (n : ℕ) (hn : n ≤ 536870911) : n ≤ INT_MAX := by
  unfold INT_MAX
  omega

theorem closed_form_double_nonneg (n : ℕ) (hn : n ≤ 2 ^ 53) (p : ℝ) (hp0 : 0 < p)
    (hp1 : p ≤ 1 - unit_roundoff) : 0 ≤ closed_form_double n p := by
  obtain ⟨hlo, _⟩ := closed_form_double_bounds n hn p hp0 hp1
  have hu1 := one_sub_unit_roundoff_pos
  have hlog : Real.log p ≤ 0 := Real.log_nonpos hp0.le (by linarith [unit_roundoff_pos])
  have h2 : 0 < Real.log 2 := Real.log_pos (by norm_num)
  have hcf : 0 ≤ -(n : ℝ) * Real.log p / (Real.log 2 * Real.log 2) := by
    apply div_nonneg _ (by positivity)
    have : (0 : ℝ) ≤ n := Nat.cast_nonneg n
    nlinarith
  have h8 : 0 ≤ 1 - 8 * unit_roundoff := by rw [unit_roundoff_eq]; norm_num
  exact le_trans (mul_nonneg hcf h8) hlo

/-- The sizing call at the target rate, from a bracket of `n` times the factor
between two consecutive integers and a candidate that reaches the rate. -/
theorem calc_of_bracket (n : ℕ) (z : ℤ) (hn : n ≤ 536870911) (hz : z < 2 ^ 31)
    (hl : (z : ℝ) ≤ 6.235224215 * (n : ℝ)) (hu : 6.235224233 * (n : ℝ) < (z : ℝ) + 1)
    (d : ℕ) (hd : 2 + d ≤ 2 ^ 53)
    (hrate : false_positive_rate NUM_HASH_FUNCTIONS n ((2 + d : ℕ) : ℝ) +
      (8 * ((NUM_HASH_FUNCTIONS * n : ℕ) : ℝ) + 9) * unit_roundoff ≤ MAX_FP_RATE)
    (fuel : ℕ) (hf : d + 2 ≤ fuel) :
    calc_optimum_bitArraySize fuel n MAX_FP_RATE = some z := by
  have hn53 : n ≤ 2 ^ 53 := le_trans hn (by norm_num)
  obtain ⟨hxl, hxu⟩ := closed_form_double_rate_bounds n hn53
  have hx0 := closed_form_double_nonneg n hn53 MAX_FP_RATE max_fp_rate_pos max_fp_rate_le
  have hfl : ⌊closed_form_double n MAX_FP_RATE⌋ = z :=
    Int.floor_eq_iff.mpr ⟨le_trans hl hxl, lt_of_le_of_lt hxu hu⟩
  have hlt : closed_form_double n MAX_FP_RATE < 2 ^ 31 := by
    have : ((z + 1 : ℤ) : ℝ) ≤ ((2 ^ 31 : ℤ) : ℝ) := by exact_mod_cast hz
    push_cast at this
    linarith
  rw [calc_of_loop_isSome fuel n _ (le_int_max n hn)
    (refine_loop_of_rate_le n _ max_fp_rate_lt_one (four_mul_le_int_max n hn) d hd hrate fuel hf),
    double_to_int_of_nonneg hx0 hlt, hfl]

theorem calc_zero (fuel : ℕ) (hf : 2 ≤ fuel) :
    calc_optimum_bitArraySize fuel 0 MAX_FP_RATE = some 0 := by
  apply calc_of_bracket 0 0 (by norm_num) (by norm_num) (by norm_num) (by norm_num) 0
    (by norm_num) _ fuel (by omega)
  have h := max_fp_rate_bounds.1
  rw [unit_roundoff_eq] at h ⊢
  unfold false_positive_rate NUM_HASH_FUNCTIONS
  norm_num at h ⊢
  linarith

theorem calc_one (fuel : ℕ) (hf : 7 ≤ fuel) :
    calc_optimum_bitArraySize fuel 1 MAX_FP_RATE = some 6 := by
  apply calc_of_bracket 1 6 (by norm_num) (by norm_num) (by norm_num) (by norm_num) 5
    (by norm_num) _ fuel (by omega)
  have h := max_fp_rate_bounds.1
  rw [unit_roundoff_eq] at h ⊢
  unfold false_positive_rate NUM_HASH_FUNCTIONS
  norm_num at h ⊢
  linarith

theorem calc_three (fuel : ℕ) (hf : 20 ≤ fuel) :
    calc_optimum_bitArraySize fuel 3 MAX_FP_RATE = some 18 := by
  apply calc_of_bracket 3 18 (by norm_num) (by norm_num) (by norm_num) (by norm_num) 18
    (by norm_num) _ fuel (by omega)
  have h := max_fp_rate_bounds.1
  rw [unit_roundoff_eq] at h ⊢
  unfold false_positive_rate NUM_HASH_FUNCTIONS
  norm_num at h ⊢
  linarith

/-! ## The size estimate: monotone and linear in `n` -/

theorem round_double_neg_natCast (n : ℕ) (hn : n ≤ 2 ^ 53) :
    round_double (-(n : ℝ)) = -(n : ℝ) := by
  have := round_double_intCast (-(n : ℤ)) (by
    rw [abs_neg, abs_of_nonneg (by positivity)]; exact_mod_cast hn)
  push_cast at this
  exact this

theorem libm_log_nonpos (p : ℝ) (hp0 : 0 < p) (hp1 : p ≤ 1 - unit_roundoff) :
    libm_log p ≤ -(1 / 2 ^ 54) := by
  have hue := unit_roundoff_eq
  have hL : Real.log p ≤ -(1 / 2 ^ 53) := by
    have := Real.log_le_sub_one_of_pos hp0
    rw [hue] at hp1
    linarith
  obtain ⟨_, hhi⟩ := round_double_bounds_of_neg (x := Real.log p) (by
    have : (1 : ℝ) / 2 ^ 55 ≤ 1 / 2 ^ 53 := by norm_num
    linarith)
  unfold libm_log
  have h1 : Real.log p * (1 - unit_roundoff) ≤ -(1 / 2 ^ 53) * (1 - unit_roundoff) :=
    mul_le_mul_of_nonneg_right hL one_sub_unit_roundoff_pos.le
  have h2 : -(1 / 2 ^ 53 : ℝ) * (1 - unit_roundoff) ≤ -(1 / 2 ^ 54) := by
    rw [hue]; norm_num
  linarith

theorem divisor_pos : 0 < round_double (libm_log 2 * libm_log 2) ∧
    round_double (libm_log 2 * libm_log 2) ≤ 1 := by
  obtain ⟨hlo, hhi⟩ := log_two_sq_double_bounds
  obtain ⟨hg_lo, hg_hi⟩ := log_two_sq_bounds_rough
  have hu1 := one_sub_unit_roundoff_pos
  have hu := unit_roundoff_pos
  constructor
  · have : 0 < Real.log 2 * Real.log 2 * (1 - unit_roundoff) ^ 3 := by
      have : 0 < Real.log 2 * Real.log 2 := by linarith
      positivity
    linarith
  · have h1 : (1 + unit_roundoff) ^ 3 ≤ 2 := by rw [unit_roundoff_eq]; norm_num
    have h2 : Real.log 2 * Real.log 2 * (1 + unit_roundoff) ^ 3 ≤ 0.49 * 2 :=
      mul_le_mul hg_hi.le h1 (by positivity) (by norm_num)
    linarith

theorem closed_form_double_mono (n1 n2 : ℕ) (h : n1 ≤ n2) (hn : n2 ≤ 2 ^ 53) (p : ℝ)
    (hp0 : 0 < p) (hp1 : p ≤ 1 - unit_roundoff) :
    closed_form_double n1 p ≤ closed_form_double n2 p := by
  have hlp := libm_log_nonpos p hp0 hp1
  obtain ⟨hD0, _⟩ := divisor_pos
  have hlp0 : 0 ≤ -libm_log p := by
    have : (0 : ℝ) ≤ 1 / 2 ^ 54 := by positivity
    linarith
  have hcast : (n1 : ℝ) ≤ n2 := Nat.cast_le.mpr h
  have hn10 : (0 : ℝ) ≤ n1 := Nat.cast_nonneg n1
  unfold closed_form_double
  rw [round_double_neg_natCast n1 (le_trans h hn), round_double_neg_natCast n2 hn]
  have e1 : -(n1 : ℝ) * libm_log p = n1 * (-libm_log p) := by ring
  have e2 : -(n2 : ℝ) * libm_log p = n2 * (-libm_log p) := by ring
  rw [e1, e2]
  have hA : (n1 : ℝ) * (-libm_log p) ≤ n2 * (-libm_log p) :=
    mul_le_mul_of_nonneg_right hcast hlp0
  have hA0 : 0 ≤ (n1 : ℝ) * (-libm_log p) := mul_nonneg hn10 hlp0
  have ha := round_double_mono hA0 hA
  have ha0 := round_double_nonneg hA0
  apply round_double_mono (div_nonneg ha0 hD0.le)
  exact div_le_div_of_nonneg_right ha hD0.le

theorem closed_form_double_two_mul (n : ℕ) (hn : 2 * n ≤ 2 ^ 53) (p : ℝ)
    (hp0 : 0 < p) (hp1 : p ≤ 1 - unit_roundoff) :
    closed_form_double (2 * n) p = 2 * closed_form_double n p := by
  rcases Nat.eq_zero_or_pos n with h0 | hpos
  · subst h0
    simp [closed_form_double, round_double_zero]
  have hlp := libm_log_nonpos p hp0 hp1
  obtain ⟨hD0, hD1⟩ := divisor_pos
  have hn1 : (1 : ℝ) ≤ n := by exact_mod_cast hpos
  unfold closed_form_double
  rw [round_double_neg_natCast (2 * n) hn, round_double_neg_natCast n (by omega)]
  have hA : (1 : ℝ) / 2 ^ 54 ≤ -(n : ℝ) * libm_log p := by
    have h1 : (1 : ℝ) * (1 / 2 ^ 54) ≤ (n : ℝ) * (-libm_log p) :=
      mul_le_mul hn1 (by linarith) (by positivity) (by linarith)
    linarith
  have hApos : 0 < -(n : ℝ) * libm_log p := lt_of_lt_of_le (by positivity) hA
  have hAn : (2 : ℝ) ^ (-1022 : ℤ) ≤ |-(n : ℝ) * libm_log p| := by
    rw [abs_of_pos hApos]
    have : (1 : ℝ) / 2 ^ 55 ≤ 1 / 2 ^ 54 := by norm_num
    exact le_trans min_normal_le (by linarith)
  have e : -((2 * n : ℕ) : ℝ) * libm_log p = 2 * (-(n : ℝ) * libm_log p) := by
    push_cast; ring
  rw [e, round_double_two_mul hAn]
  obtain ⟨ha_lo, _⟩ := round_double_bounds_of_pos (x := -(n : ℝ) * libm_log p) (by
    have : (1 : ℝ) / 2 ^ 55 ≤ 1 / 2 ^ 54 := by norm_num
    linarith)
  have ha : (1 : ℝ) / 2 ^ 55 ≤ round_double (-(n : ℝ) * libm_log p) := by
    have h1 : (1 : ℝ) / 2 ^ 54 * (1 - unit_roundoff) ≤
        -(n : ℝ) * libm_log p * (1 - unit_roundoff) :=
      mul_le_mul_of_nonneg_right hA one_sub_unit_roundoff_pos.le
    have h2 : (1 : ℝ) / 2 ^ 55 ≤ 1 / 2 ^ 54 * (1 - unit_roundoff) := by
      rw [unit_roundoff_eq]; norm_num
    linarith
  have hQ : (1 : ℝ) / 2 ^ 55 ≤
      round_double (-(n : ℝ) * libm_log p) / round_double (libm_log 2 * libm_log 2) := by
    rw [le_div_iff₀ hD0]
    have h3 : (1 : ℝ) / 2 ^ 55 * round_double (libm_log 2 * libm_log 2) ≤ 1 / 2 ^ 55 * 1 :=
      mul_le_mul_of_nonneg_left hD1 (by positivity)
    linarith
  have hQpos : 0 < round_double (-(n : ℝ) * libm_log p) /
      round_double (libm_log 2 * libm_log 2) := lt_of_lt_of_le (by positivity) hQ
  have hQn : (2 : ℝ) ^ (-1022 : ℤ) ≤
      |round_double (-(n : ℝ) * libm_log p) / round_double (libm_log 2 * libm_log 2)| := by
    rw [abs_of_pos hQpos]
    exact le_trans min_normal_le hQ
  rw [mul_div_assoc, round_double_two_mul hQn]

theorem closed_form_double_lt (n : ℕ) (hn : n ≤ 344411615) :
    closed_form_double n MAX_FP_RATE < 2 ^ 31 := by
  obtain ⟨_, hhi⟩ := closed_form_double_rate_bounds n (le_trans hn (by norm_num))
  have hcast : (n : ℝ) ≤ 344411615 := by exact_mod_cast hn
  have : (6.235224233 : ℝ) * 344411615 < 2 ^ 31 := by norm_num
  linarith

theorem closed_form_double_ge (n : ℕ) (hn : 344411616 ≤ n) (hn2 : n ≤ 2 ^ 53) :
    2 ^ 31 ≤ closed_form_double n MAX_FP_RATE := by
  obtain ⟨hlo, _⟩ := closed_form_double_rate_bounds n hn2
  have hcast : (344411616 : ℝ) ≤ n := by exact_mod_cast hn
  have : (2 : ℝ) ^ 31 ≤ 6.235224215 * 344411616 := by norm_num
  linarith

/-- With enough fuel the sizing call at the target rate returns the double
value of the closed form, truncated, for every `n` up to 344411615. -/
theorem calc_eventually (n : ℕ) (hn : n ≤ 344411615) :
    ∃ fuel0, ∀ fuel, fuel0 ≤ fuel →
      calc_optimum_bitArraySize fuel n MAX_FP_RATE =
        some ⌊closed_form_double n MAX_FP_RATE⌋ := by
  have hn2 : n ≤ 536870911 := le_trans hn (by norm_num)
  obtain ⟨fuel0, h⟩ := refine_loop_terminates n MAX_FP_RATE max_fp_rate_ge max_fp_rate_lt_one
    (four_mul_le_int_max n hn2)
  refine ⟨fuel0, fun fuel hf => ?_⟩
  rw [calc_of_loop_isSome fuel n _ (le_int_max n hn2) (h fuel hf),
    double_to_int_of_nonneg
      (closed_form_double_nonneg n (le_trans hn (by norm_num)) _ max_fp_rate_pos max_fp_rate_le)
      (closed_form_double_lt n hn)]

theorem calc_overflow (n : ℕ) (hn : 344411616 ≤ n) (fuel : ℕ) :
    calc_optimum_bitArraySize fuel n MAX_FP_RATE = none := by
  by_cases hn2 : n ≤ INT_MAX
  · apply calc_of_cast_none
    apply double_to_int_of_ge
    apply closed_form_double_ge n hn
    unfold INT_MAX at hn2
    have : n ≤ 2147483647 := by omega
    exact le_trans this (by norm_num)
  · unfold calc_optimum_bitArraySize
    rw [if_neg hn2]

/-! ## The size estimate: a rate the loop cannot reach -/

theorem round_double_unit_roundoff : round_double unit_roundoff = unit_roundoff := by
  unfold unit_roundoff
  exact round_double_zpow (-53) (by norm_num)

theorem round_double_one_sub_unit_roundoff :
    round_double (1 - unit_roundoff) = 1 - unit_roundoff := by
  have e : 1 - unit_roundoff = ((2 ^ 53 - 1 : ℤ) : ℝ) * 2 ^ (-53 : ℤ) := by
    rw [unit_roundoff_eq, zpow_neg, show ((53 : ℤ)) = ((53 : ℕ) : ℤ) by norm_num, zpow_natCast]
    norm_num
  rw [e]
  apply round_double_dyadic
  have hne : ((2 ^ 53 - 1 : ℤ) : ℝ) * (2 : ℝ) ^ (-53 : ℤ) ≠ 0 := by
    rw [← e, unit_roundoff_eq]; norm_num
  have := double_exponent_le (e := -1) hne (by norm_num) (by
    rw [← e, abs_of_pos one_sub_unit_roundoff_pos]
    have := unit_roundoff_pos
    norm_num
    linarith)
  omega

theorem unit_roundoff_pow_four : unit_roundoff ^ 4 = 2 ^ (-212 : ℤ) := by
  unfold unit_roundoff
  rw [← zpow_natCast, ← zpow_mul]
  norm_num

/-- Below `m = 2 ^ 53` the rate computed in doubles never falls under
`2 ^ -212`, for any `n ≥ 1`. -/
theorem false_positive_rate_double_ge (n : ℕ) (hn : 1 ≤ n) (m : ℝ) (hm1 : 1 ≤ m)
    (hm2 : m ≤ 2 ^ 53) :
    (2 : ℝ) ^ (-212 : ℤ) ≤ false_positive_rate_double NUM_HASH_FUNCTIONS n m := by
  have hu := unit_roundoff_pos
  have hu1 := one_sub_unit_roundoff_pos
  have hm0 : 0 < m := by linarith
  have hinv0 : 0 ≤ 1 / m := by positivity
  have hinv1 : 1 / m ≤ 1 := by rw [div_le_one hm0]; exact hm1
  have hinvu : unit_roundoff ≤ 1 / m := by
    rw [unit_roundoff_eq]
    exact one_div_le_one_div_of_le hm0 hm2
  obtain ⟨_, h11, _⟩ := round_double_unit hinv0 hinv1
  have h1u : unit_roundoff ≤ round_double (1 / m) := by
    have := round_double_mono hu.le hinvu
    rwa [round_double_unit_roundoff] at this
  have hs20 : 0 ≤ 1 - round_double (1 / m) := by linarith
  have h2u : round_double (1 - round_double (1 / m)) ≤ 1 - unit_roundoff := by
    have := round_double_mono hs20 (by linarith : 1 - round_double (1 / m) ≤ 1 - unit_roundoff)
    rwa [round_double_one_sub_unit_roundoff] at this
  have h20 := round_double_nonneg hs20
  have hN : NUM_HASH_FUNCTIONS * n ≠ 0 := by
    unfold NUM_HASH_FUNCTIONS; omega
  have hs3u : round_double (1 - round_double (1 / m)) ^ (NUM_HASH_FUNCTIONS * n) ≤
      1 - unit_roundoff :=
    le_trans (pow_le_of_le_one h20 (by linarith) hN) h2u
  have hs30 : 0 ≤ round_double (1 - round_double (1 / m)) ^ (NUM_HASH_FUNCTIONS * n) :=
    pow_nonneg h20 _
  have h3u : round_double (round_double (1 - round_double (1 / m)) ^ (NUM_HASH_FUNCTIONS * n)) ≤
      1 - unit_roundoff := by
    have := round_double_mono hs30 hs3u
    rwa [round_double_one_sub_unit_roundoff] at this
  have h4u : unit_roundoff ≤ round_double (1 - round_double
      (round_double (1 - round_double (1 / m)) ^ (NUM_HASH_FUNCTIONS * n))) := by
    have := round_double_mono hu.le (by linarith : unit_roundoff ≤ 1 - round_double
      (round_double (1 - round_double (1 / m)) ^ (NUM_HASH_FUNCTIONS * n)))
    rwa [round_double_unit_roundoff] at this
  have hs5 : (2 : ℝ) ^ (-212 : ℤ) ≤ round_double (1 - round_double
      (round_double (1 - round_double (1 / m)) ^ (NUM_HASH_FUNCTIONS * n))) ^ NUM_HASH_FUNCTIONS := by
    rw [← unit_roundoff_pow_four]
    exact pow_le_pow_left₀ hu.le h4u 4
  have := round_double_mono (by positivity) hs5
  rw [round_double_zpow (-212) (by norm_num)] at this
  unfold false_positive_rate_double libm_pow
  exact this

/-- A target rate under `2 ^ -212` is never reached: the counter stops
growing at `2 ^ 53` and the loop does not end, whatever the fuel. -/
theorem refine_loop_never (n : ℕ) (hn : 1 ≤ n)
    (hn2 : NUM_HASH_FUNCTIONS * n ≤ INT_MAX) (p : ℝ)
    (hp : p < 2 ^ (-212 : ℤ)) :
    ∀ (fuel j : ℕ), 1 ≤ j → j ≤ 2 ^ 53 → ∀ r : ℝ, p < r →
      refine_loop n p fuel (j : ℝ) r = none := by
  intro fuel
  induction fuel with
  | zero => intro j _ _ r _; rfl
  | succ f ih =>
    intro j hj1 hj2 r hr
    unfold refine_loop
    rw [if_pos hr]
    obtain ⟨j1, hj1a, hj1b, hstep⟩ : ∃ j1 : ℕ, 1 ≤ j1 ∧ j1 ≤ 2 ^ 53 ∧
        round_double ((j : ℝ) + 1) = (j1 : ℝ) := by
      rcases Nat.lt_or_ge j (2 ^ 53) with hlt | hge
      · refine ⟨j + 1, by omega, by omega, ?_⟩
        have := round_double_natCast (j + 1) (by omega)
        push_cast at this ⊢
        exact this
      · have hj : j = 2 ^ 53 := by omega
        refine ⟨2 ^ 53, by norm_num, le_refl _, ?_⟩
        subst hj
        have e : (((2 ^ 53 : ℕ)) : ℝ) = 2 ^ 53 := by norm_num
        rw [e]
        exact round_double_tie
    rw [hstep, current_false_positive_rate_eq n _ hn2]
    simp only
    apply ih j1 hj1a hj1b
    have hge := false_positive_rate_double_ge n hn (j1 : ℝ) (by exact_mod_cast hj1a)
      (by exact_mod_cast hj1b)
    linarith

/-! ## The pipeline of one corpus -/

theorem filter_pipeline_eq (fuel : ℕ) (v : LoadVars) (m : ℕ) (bit_array : List ℕ)
    (is_present : Bool)
    (hcalc : calc_optimum_bitArraySize fuel v.num_strings MAX_FP_RATE = some (m : ℤ))
    (hbuild : build NUM_HASH_FUNCTIONS (v.strings_arr.take v.num_strings) m = some bit_array)
    (hquery : query NUM_HASH_FUNCTIONS geohash bit_array m = some is_present) :
    filter_pipeline fuel v = some
      { num_strings := v.num_strings, total_strings := v.total_strings, m := m,
        bit_array := bit_array, is_present := is_present } := by
  unfold filter_pipeline
  rw [hcalc]
  simp only [Int.toNat_ofNat]
  rw [if_neg (by omega), hbuild]
  simp only
  rw [hquery]

theorem closed_form_double_zero (p : ℝ) : closed_form_double 0 p = 0 := by
  simp [closed_form_double, round_double_zero]

theorem double_to_int_zero : double_to_int 0 = some 0 := by
  have h := double_to_int_of_nonneg (le_refl (0 : ℝ)) (by norm_num)
  simpa using h

theorem filter_pipeline_empty (fuel : ℕ) (total_strings : ℕ) :
    filter_pipeline fuel
      { strings_arr := [], num_strings := 0, total_strings := total_strings } = none := by
  unfold filter_pipeline
  cases hcalc : calc_optimum_bitArraySize fuel 0 MAX_FP_RATE with
  | none => rfl
  | some mz =>
    have hmz : mz = 0 := by
      unfold calc_optimum_bitArraySize at hcalc
      rw [if_pos (by unfold INT_MAX; norm_num)] at hcalc
      cases hr : refine_loop 0 MAX_FP_RATE fuel 1 1 with
      | none => rw [hr] at hcalc; cases hcalc
      | some r =>
        rw [hr] at hcalc
        simp only at hcalc
        rw [closed_form_double_zero, double_to_int_zero] at hcalc
        simp only [Option.some.injEq] at hcalc
        exact hcalc.symm
    subst hmz
    rfl

/-- The closed form at the target rate is `n` times a factor between
6.235224215 and 6.235224233, like its double value. -/
theorem closed_form_rate_bounds (n : ℕ) :
    6.235224215 * (n : ℝ) ≤ -(n : ℝ) * Real.log MAX_FP_RATE / (Real.log 2) ^ 2 ∧
    -(n : ℝ) * Real.log MAX_FP_RATE / (Real.log 2) ^ 2 ≤ 6.235224233 * (n : ℝ) := by
  obtain ⟨hLlo, hLhi⟩ := log_max_fp_rate_bounds
  obtain ⟨hKlo, hKhi⟩ := sizing_factor_bounds
  obtain ⟨hg_lo, hg_hi⟩ := log_two_sq_bounds_rough
  have hue := unit_roundoff_eq
  have hn0 : (0 : ℝ) ≤ n := Nat.cast_nonneg n
  rw [pow_two]
  generalize Real.log 2 * Real.log 2 = g at hKlo hKhi hg_lo hg_hi
  generalize Real.log MAX_FP_RATE = L at hLlo hLhi
  generalize Real.log 20 = T at hLlo hLhi hKlo hKhi
  have hg0 : 0 < g := by linarith
  rw [hue] at hLlo hLhi
  constructor
  · rw [le_div_iff₀ hg0]
    have h1 : 6.235224215 * g ≤ -L := by nlinarith
    have := mul_le_mul_of_nonneg_left h1 hn0
    nlinarith
  · rw [div_le_iff₀ hg0]
    have h1 : -L ≤ 6.235224233 * g := by nlinarith
    have := mul_le_mul_of_nonneg_left h1 hn0
    nlinarith

/-- C4, as stated, fails at its own witness n = 3, p = 0.05: the call returns
18, and the closed form rounded up is 19. -/
theorem calc_optimum_bitArraySize_not_ceil :
    calc_optimum_bitArraySize 20 3 MAX_FP_RATE = some 18 ∧
    ⌈-(3 : ℝ) * Real.log MAX_FP_RATE / (Real.log 2) ^ 2⌉ = 19 := by
  refine ⟨calc_three 20 (le_refl _), ?_⟩
  obtain ⟨hl, hu⟩ := closed_form_rate_bounds 3
  rw [Int.ceil_eq_iff]
  push_cast at hl hu ⊢
  constructor
  · linarith
  · linarith

/-- C4, as amended: for every n with 0 <= n <= 536870911 and every rate p, a
double with 2^-18 <= p < 1, at which the expression
-n * log(p) / (log(2) * log(2)) evaluated in doubles is below 2^31, the sizing
call returns, for all sufficient fuel, that double value truncated toward
zero (its floor, the value being non-negative), not the ceiling of the closed
form. The double value is within the relative error 8 * 2^-53 of the closed
form -n * ln(p) / (ln 2)^2, so the result lies between the floors of the
closed form scaled by 1 - 2^-50 and by 1 + 2^-50. The refinement loop ends and
has no effect on the value returned. -/
theorem calc_optimum_bitArraySize_truncates (n : ℕ) (p : ℝ) (hn : n ≤ 536870911)
    (hp0 : 2 ^ (-18 : ℤ) ≤ p) (hp1 : p ≤ 1 - unit_roundoff)
    (hfit : closed_form_double n p < 2 ^ 31) :
    (∃ fuel0, ∀ fuel, fuel0 ≤ fuel →
      calc_optimum_bitArraySize fuel n p = some ⌊closed_form_double n p⌋) ∧
    -(n : ℝ) * Real.log p / (Real.log 2) ^ 2 * (1 - 8 * unit_roundoff) ≤
      closed_form_double n p ∧
    closed_form_double n p ≤
      -(n : ℝ) * Real.log p / (Real.log 2) ^ 2 * (1 + 8 * unit_roundoff) ∧
    ⌊-(n : ℝ) * Real.log p / (Real.log 2) ^ 2 * (1 - 8 * unit_roundoff)⌋ ≤
      ⌊closed_form_double n p⌋ ∧
    ⌊closed_form_double n p⌋ ≤
      ⌊-(n : ℝ) * Real.log p / (Real.log 2) ^ 2 * (1 + 8 * unit_roundoff)⌋ := by
  have hp_pos : 0 < p := lt_of_lt_of_le (by positivity) hp0
  have hp_lt : p < 1 := by linarith [unit_roundoff_pos]
  have hn53 : n ≤ 2 ^ 53 := le_trans hn (by norm_num)
  obtain ⟨hlo, hhi⟩ := closed_form_double_bounds n hn53 p hp_pos hp1
  rw [← pow_two] at hlo hhi
  refine ⟨?_, hlo, hhi, Int.floor_le_floor hlo, Int.floor_le_floor hhi⟩
  obtain ⟨fuel0, h⟩ := refine_loop_terminates n p hp0 hp_lt (four_mul_le_int_max n hn)
  refine ⟨fuel0, fun fuel hf => ?_⟩
  rw [calc_of_loop_isSome fuel n p (le_int_max n hn) (h fuel hf),
    double_to_int_of_nonneg (closed_form_double_nonneg n hn53 p hp_pos hp1) hfit]

/-- Witness of C4 as amended: n = 3 and the rate 0.05, where the value
returned is 18. -/
theorem calc_optimum_bitArraySize_truncates_witness :
    (2 : ℝ) ^ (-18 : ℤ) ≤ MAX_FP_RATE ∧ MAX_FP_RATE ≤ 1 - unit_roundoff ∧
    closed_form_double 3 MAX_FP_RATE < 2 ^ 31 ∧
    (∃ fuel0, ∀ fuel, fuel0 ≤ fuel →
      calc_optimum_bitArraySize fuel 3 MAX_FP_RATE =
        some ⌊closed_form_double 3 MAX_FP_RATE⌋) ∧
    ⌊closed_form_double 3 MAX_FP_RATE⌋ = 18 := by
  have h := calc_optimum_bitArraySize_truncates 3 MAX_FP_RATE (by norm_num) max_fp_rate_ge
    max_fp_rate_le (closed_form_double_lt 3 (by norm_num))
  refine ⟨max_fp_rate_ge, max_fp_rate_le, closed_form_double_lt 3 (by norm_num), h.1, ?_⟩
  obtain ⟨hl, hu⟩ := closed_form_double_rate_bounds 3 (by norm_num)
  rw [Int.floor_eq_iff]
  push_cast at hl hu ⊢
  constructor <;> linarith

/-- An iteration of the parallel loop that no write of another thread reaches
runs the pipeline of the serial program on fresh variables. -/
theorem parallel_iteration_undisturbed (fuel : ℕ) (file : Option (List Token)) :
    parallel_iteration fuel file undisturbed =
      match read_strings_from_file file
          { strings_arr := [], num_strings := 0, total_strings := 0 } with
      | none => none
      | some (false, _) => some none
      | some (true, v) =>
        match filter_pipeline fuel v with
        | none => none
        | some r => some (some r) := by
  unfold parallel_iteration
  cases hr : read_strings_from_file file
      { strings_arr := [], num_strings := 0, total_strings := 0 } with
  | none => rfl
  | some bv =>
    obtain ⟨b, v⟩ := bv
    cases b with
    | false => rfl
    | true =>
      simp only [undisturbed, Option.getD_none]
      unfold filter_pipeline build
      cases calc_optimum_bitArraySize fuel v.num_strings MAX_FP_RATE with
      | none => rfl
      | some mz =>
        simp only
        by_cases hneg : mz < 0
        · rw [if_pos hneg, if_pos hneg]
        · rw [if_neg hneg, if_neg hneg]
          cases build_loop NUM_HASH_FUNCTIONS mz.toNat (v.strings_arr.take v.num_strings)
              (List.replicate mz.toNat 0) with
          | none => rfl
          | some arr =>
            simp only
            cases query NUM_HASH_FUNCTIONS geohash arr mz.toNat with
            | none => rfl
            | some b => rfl

/-- C6, at the failing input: the serial program loads the one-token corpus
"a" and then the one-token corpus "b". The second load reports
`total_strings = 2`, the tokens of both corpora, where the corpus holds one
token; the parallel program reports 1 for the same corpus. -/
theorem serial_total_strings_accumulates :
    (∃ s, serial_main 7 [some [[97]], some [[98]]] = some (s,
      [some { num_strings := 1, total_strings := 1, m := 6,
              bit_array := [0, 1, 0, 0, 0, 0], is_present := false },
       some { num_strings := 1, total_strings := 2, m := 6,
              bit_array := [0, 0, 1, 0, 0, 0], is_present := false }])) ∧
    parallel_iteration 7 (some [[98]]) undisturbed = some (some
      { num_strings := 1, total_strings := 1, m := 6,
        bit_array := [0, 0, 1, 0, 0, 0], is_present := false }) := by
  have h1 : ∀ total : ℕ, filter_pipeline 7
      { strings_arr := [[97]], num_strings := 1, total_strings := total } = some
      { num_strings := 1, total_strings := total, m := 6,
        bit_array := [0, 1, 0, 0, 0, 0], is_present := false } :=
    fun total => filter_pipeline_eq 7 _ 6 _ _ (calc_one 7 (le_refl _))
      (by show build NUM_HASH_FUNCTIONS _ 6 = _; rfl) (by decide)
  have h2 : ∀ total : ℕ, filter_pipeline 7
      { strings_arr := [[98]], num_strings := 1, total_strings := total } = some
      { num_strings := 1, total_strings := total, m := 6,
        bit_array := [0, 0, 1, 0, 0, 0], is_present := false } :=
    fun total => filter_pipeline_eq 7 _ 6 _ _ (calc_one 7 (le_refl _))
      (by show build NUM_HASH_FUNCTIONS _ 6 = _; rfl) (by decide)
  have r1 : ∀ total : ℕ, read_strings_from_file (some [[97]])
      { strings_arr := [], num_strings := 0, total_strings := total } = some (true,
      { strings_arr := [[97]], num_strings := 1, total_strings := total + 1 }) :=
    fun total => rfl
  have r2 : ∀ (arr : List Token) (num total : ℕ), read_strings_from_file (some [[98]])
      { strings_arr := arr, num_strings := num, total_strings := total } = some (true,
      { strings_arr := [[98]], num_strings := 1, total_strings := total + 1 }) :=
    fun arr num total => rfl
  constructor
  · refine ⟨{ vars := { strings_arr := [[98]], num_strings := 1, total_strings := 2 },
              m := 6, total_unique_words := 2 }, ?_⟩
    simp only [serial_main, serial_loop, serial_iteration, r1, r2, h1, h2]
  · simp only [parallel_iteration_undisturbed, r2, h2]

/-- C9, at the failing input: for an empty unique-token set the sizing call
returns m = 0, the build yields the empty array, and the query of every word,
"geohash" included, divides by zero in `hash % m`: it has no defined result,
in the parallel and in the serial program. -/
theorem empty_corpus_query_undefined :
    calc_optimum_bitArraySize 2 0 MAX_FP_RATE = some 0 ∧
    build NUM_HASH_FUNCTIONS [] 0 = some [] ∧
    query NUM_HASH_FUNCTIONS geohash [] 0 = none ∧
    (∀ word : Token, query NUM_HASH_FUNCTIONS word [] 0 = none) ∧
    (∀ fuel, parallel_iteration fuel (some []) undisturbed = none) ∧
    (∀ fuel, serial_main fuel [some []] = none) := by
  refine ⟨calc_zero 2 (le_refl _), rfl, rfl, fun _ => rfl, ?_, ?_⟩
  · intro fuel
    have hr : read_strings_from_file (some [])
        { strings_arr := [], num_strings := 0, total_strings := 0 } = some (true,
        { strings_arr := [], num_strings := 0, total_strings := 0 }) := rfl
    simp only [parallel_iteration_undisturbed, hr, filter_pipeline_empty]
  · intro fuel
    have hr : read_strings_from_file (some [])
        { strings_arr := [], num_strings := 0, total_strings := 0 } = some (true,
        { strings_arr := [], num_strings := 0, total_strings := 0 }) := rfl
    simp only [serial_main, serial_loop, serial_iteration, hr, filter_pipeline_empty]

/-- C10, at the failing input n = 1: the sizing call returns m = 6, and the
false-positive rate for k = 4 at that size, (1 - (1 - 1/6)^4)^4, is above
0.05; the candidate 7 that the refinement loop reaches is dropped. -/
theorem calc_optimum_bitArraySize_rate_above_target :
    calc_optimum_bitArraySize 7 1 MAX_FP_RATE = some 6 ∧
    MAX_FP_RATE < false_positive_rate NUM_HASH_FUNCTIONS 1 6 ∧
    false_positive_rate NUM_HASH_FUNCTIONS 1 7 ≤ MAX_FP_RATE := by
  obtain ⟨hlo, hhi⟩ := max_fp_rate_bounds
  rw [unit_roundoff_eq] at hlo hhi
  refine ⟨calc_one 7 (le_refl _), ?_, ?_⟩
  · unfold false_positive_rate NUM_HASH_FUNCTIONS
    norm_num at hhi ⊢
    linarith
  · unfold false_positive_rate NUM_HASH_FUNCTIONS
    norm_num at hlo ⊢
    linarith

/-! ## Repeated hash calls, permuted characters, and the set of tokens -/

theorem insert_word_eq_one (word : Token) (m k : ℕ) (hm : 0 < m) (hk : 1 ≤ k)
    (bit_array : List ℕ) :
    insert_word word m k bit_array = insert_word word m 1 bit_array := by
  have hh := division_method_hash_pos word hm
  by_cases hlt : hash_loop word 0 % m < bit_array.length
  · rw [insert_word_eq word m _ hh k bit_array hlt, insert_word_eq word m _ hh 1 bit_array hlt,
      if_neg (by omega), if_neg (by omega)]
  · obtain ⟨j, rfl⟩ : ∃ j, k = j + 1 := ⟨k - 1, by omega⟩
    simp only [insert_word, hh, if_neg hlt]

theorem query_eq_one (word : Token) (m k : ℕ) (hm : 0 < m) (hk : 1 ≤ k)
    (bit_array : List ℕ) :
    query k word bit_array m = query 1 word bit_array m := by
  have hh := division_method_hash_pos word hm
  unfold query
  cases hb : bit_array[hash_loop word 0 % m]? with
  | none =>
    obtain ⟨j, rfl⟩ : ∃ j, k = j + 1 := ⟨k - 1, by omega⟩
    simp only [query_loop, hh, hb]
  | some b =>
    rw [query_loop_eq word m _ b bit_array hh hb k, query_loop_eq word m _ b bit_array hh hb 1]
    have hk0 : k ≠ 0 := by omega
    simp [hk0]

/-- C11: for every token, every m > 0 and every k >= 1, the k hash calls of
one insert or one query all return one index: inserting a word with k calls
sets that single position, as one call does, so the build with k calls (with
k = 4 in particular) gives exactly the bit array of the build with one call,
and the query with k calls (k = 4 in particular) answers as the query with
one call. -/
theorem repeated_hash_calls_collapse (word : Token) (m k : ℕ) (hm : 0 < m) (hk : 1 ≤ k)
    (tokens : List Token) (bit_array : List ℕ) :
    (∃ hash, division_method_hash word m = some hash ∧
      (hash < bit_array.length →
        insert_word word m k bit_array = some (bit_array.set hash 1))) ∧
    insert_word word m k bit_array = insert_word word m 1 bit_array ∧
    build k tokens m = build 1 tokens m ∧
    build NUM_HASH_FUNCTIONS tokens m = build 1 tokens m ∧
    query k word bit_array m = query 1 word bit_array m ∧
    query NUM_HASH_FUNCTIONS word bit_array m = query 1 word bit_array m := by
  refine ⟨⟨_, division_method_hash_pos word hm, fun hlt => ?_⟩,
    insert_word_eq_one word m k hm hk bit_array, ?_, ?_,
    query_eq_one word m k hm hk bit_array,
    query_eq_one word m NUM_HASH_FUNCTIONS hm (by decide) bit_array⟩
  · rw [insert_word_eq word m _ (division_method_hash_pos word hm) k bit_array hlt,
      if_neg (by omega)]
  · rw [build_eq k m (by omega) hm, build_eq 1 m (by omega) hm]
  · rw [build_eq NUM_HASH_FUNCTIONS m (by decide) hm, build_eq 1 m (by omega) hm]

/-- Witness of C11: the token "a", m = 5, k = 3, corpus a, b and a zeroed
array of length 5. -/
theorem repeated_hash_calls_collapse_witness :
    (∃ hash, division_method_hash [97] 5 = some hash ∧
      (hash < [0, 0, 0, 0, 0].length →
        insert_word [97] 5 3 [0, 0, 0, 0, 0] = some ([0, 0, 0, 0, 0].set hash 1))) ∧
    insert_word [97] 5 3 [0, 0, 0, 0, 0] = insert_word [97] 5 1 [0, 0, 0, 0, 0] ∧
    build 3 [[97], [98]] 5 = build 1 [[97], [98]] 5 ∧
    build NUM_HASH_FUNCTIONS [[97], [98]] 5 = build 1 [[97], [98]] 5 ∧
    query 3 [97] [0, 0, 0, 0, 0] 5 = query 1 [97] [0, 0, 0, 0, 0] 5 ∧
    query NUM_HASH_FUNCTIONS [97] [0, 0, 0, 0, 0] 5 = query 1 [97] [0, 0, 0, 0, 0] 5 :=
  repeated_hash_calls_collapse [97] 5 3 (by decide) (by decide) [[97], [98]] [0, 0, 0, 0, 0]

theorem hash_loop_eq_sum (word : Token) :
    hash_loop word 0 = (word.map char_to_ulong).sum % ULONG_MOD := by
  have h := hash_loop_mod word 0
  rw [Nat.mod_eq_of_lt (hash_loop_lt word 0 (by decide)), Nat.zero_add] at h
  exact h

theorem hash_loop_perm (t w : Token) (hperm : w.Perm t) : hash_loop w 0 = hash_loop t 0 := by
  rw [hash_loop_eq_sum, hash_loop_eq_sum, (hperm.map char_to_ulong).sum_eq]

/-- C17: for every m > 0 and all tokens t, w where w is a permutation of the
characters of t, the two hash indices are equal; hence once t is among the
inserted tokens, the query of w on the built array returns true, whether or
not w was inserted. -/
theorem hash_permutation_invariant (m : ℕ) (hm : 0 < m) (t w : Token) (hperm : w.Perm t)
    (tokens : List Token) :
    division_method_hash w m = division_method_hash t m ∧
    (t ∈ tokens → ∃ bit_array, build NUM_HASH_FUNCTIONS tokens m = some bit_array ∧
      query NUM_HASH_FUNCTIONS w bit_array m = some true) := by
  have hw : hash_loop w 0 = hash_loop t 0 := hash_loop_perm t w hperm
  refine ⟨?_, fun ht => ⟨_, build_eq NUM_HASH_FUNCTIONS m (by decide) hm tokens, ?_⟩⟩
  · rw [division_method_hash_pos w hm, division_method_hash_pos t hm, hw]
  · have hb := build_getElem? m tokens (hash_loop w 0 % m) (Nat.mod_lt _ hm)
    rw [if_pos ⟨t, ht, by rw [hw]⟩] at hb
    unfold query
    rw [query_loop_eq w m _ 1 _ (division_method_hash_pos w hm) hb]
    simp

/-- Witness of C17: "ab" is inserted, "ba" is queried, m = 7. -/
theorem hash_permutation_invariant_witness :
    division_method_hash [98, 97] 7 = division_method_hash [97, 98] 7 ∧
    ∃ bit_array, build NUM_HASH_FUNCTIONS [[97, 98]] 7 = some bit_array ∧
      query NUM_HASH_FUNCTIONS [98, 97] bit_array 7 = some true :=
  have h := hash_permutation_invariant 7 (by decide) [97, 98] [98, 97]
    (List.Perm.swap 97 98 []) [[97, 98]]
  ⟨h.1, h.2 (by decide)⟩

/-- C19: for every m > 0 and all token lists xs, ys with the same set of
elements, in any order and with any multiplicities, the two builds give the
same bit array; in particular the raw token stream and its unique set (the
stream with later occurrences removed, which is what the loader stores) build
the same array. -/
theorem build_depends_on_token_set (m : ℕ) (hm : 0 < m) (xs ys : List Token)
    (hset : ∀ t, t ∈ xs ↔ t ∈ ys) :
    (∃ bit_array, build NUM_HASH_FUNCTIONS xs m = some bit_array ∧
      build NUM_HASH_FUNCTIONS ys m = some bit_array) ∧
    build NUM_HASH_FUNCTIONS xs m = build NUM_HASH_FUNCTIONS (first_occurrences xs) m := by
  have key : ∀ as bs : List Token, (∀ t, t ∈ as ↔ t ∈ bs) →
      set_positions m as (List.replicate m 0) = set_positions m bs (List.replicate m 0) := by
    intro as bs h
    rw [build_eq_map_range, build_eq_map_range]
    apply List.map_congr_left
    intro i _
    have hi : i ∈ as.map (fun t => hash_loop t 0 % m) ↔
        i ∈ bs.map (fun t => hash_loop t 0 % m) := by
      simp only [List.mem_map]
      constructor
      · rintro ⟨t, ht, e⟩; exact ⟨t, (h t).mp ht, e⟩
      · rintro ⟨t, ht, e⟩; exact ⟨t, (h t).mpr ht, e⟩
    by_cases hmem : i ∈ as.map (fun t => hash_loop t 0 % m)
    · rw [if_pos hmem, if_pos (hi.mp hmem)]
    · rw [if_neg hmem, if_neg (fun h' => hmem (hi.mpr h'))]
  refine ⟨⟨_, build_eq NUM_HASH_FUNCTIONS m (by decide) hm xs, ?_⟩, ?_⟩
  · rw [build_eq NUM_HASH_FUNCTIONS m (by decide) hm ys, key xs ys hset]
  · rw [build_eq NUM_HASH_FUNCTIONS m (by decide) hm xs,
      build_eq NUM_HASH_FUNCTIONS m (by decide) hm (first_occurrences xs),
      key xs (first_occurrences xs) (fun t => (mem_first_occurrences xs t).symm)]

/-- Witness of C19: the stream a, b, a, c against c, b, a with m = 18. -/
theorem build_depends_on_token_set_witness :
    (∃ bit_array, build NUM_HASH_FUNCTIONS [[97], [98], [97], [99]] 18 = some bit_array ∧
      build NUM_HASH_FUNCTIONS [[99], [98], [97]] 18 = some bit_array) ∧
    build NUM_HASH_FUNCTIONS [[97], [98], [97], [99]] 18 =
      build NUM_HASH_FUNCTIONS (first_occurrences [[97], [98], [97], [99]]) 18 :=
  build_depends_on_token_set 18 (by decide) [[97], [98], [97], [99]] [[99], [98], [97]]
    (by intro t; simp only [List.mem_cons, List.mem_singleton, List.not_mem_nil]; tauto)

theorem char_code_sum_le (t : Token) (hascii : ∀ c ∈ t, c.val < 128) :
    char_code_sum t ≤ 127 * t.length := by
  induction t with
  | nil => simp [char_code_sum]
  | cons c rest ih =>
    have hc : c.val < 128 := hascii c (List.mem_cons_self _ _)
    have hrest := ih (fun d hd => hascii d (List.mem_cons_of_mem _ hd))
    simp only [char_code_sum, List.map_cons, List.sum_cons, List.length_cons] at hrest ⊢
    omega

theorem nodup_length_le_of_lt (L : List ℕ) (n : ℕ) (hnodup : L.Nodup) (hlt : ∀ x ∈ L, x < n) :
    L.length ≤ n := by
  have hsub : L ⊆ List.range n := fun x hx => List.mem_range.mpr (hlt x hx)
  have h := (List.subperm_of_subset hnodup hsub).length_le
  rw [List.length_range] at h
  exact h

/-- C18: for every token of at most 99 characters whose codes all lie in
0..127 the character sum is at most 12573; hence for every m > 12573 the hash
of such a token is the raw sum and the build of any corpus of such tokens
leaves every position from 12574 on at 0; and for every m > 0, however large
the corpus, the built array holds at most 12574 ones. -/
theorem ascii_hash_positions_bounded (tokens : List Token) (m : ℕ)
    (hshort : ∀ t ∈ tokens, t.length ≤ 99)
    (hascii : ∀ t ∈ tokens, ∀ c ∈ t, c.val < 128) :
    (∀ t ∈ tokens, char_code_sum t ≤ 12573) ∧
    (12573 < m →
      (∀ t ∈ tokens, division_method_hash t m = some (char_code_sum t)) ∧
      ∃ bit_array, build NUM_HASH_FUNCTIONS tokens m = some bit_array ∧
        ∀ i, 12574 ≤ i → i < m → bit_array[i]? = some 0) ∧
    (0 < m → ∃ bit_array, build NUM_HASH_FUNCTIONS tokens m = some bit_array ∧
      bit_array.count 1 ≤ 12574) := by
  have hsum : ∀ t ∈ tokens, char_code_sum t ≤ 12573 := by
    intro t ht
    have h1 := char_code_sum_le t (hascii t ht)
    have h2 := hshort t ht
    omega
  have hraw : ∀ t ∈ tokens, 0 < m → hash_loop t 0 % m = char_code_sum t % m := by
    intro t ht hm
    have h := division_method_hash_ascii t m hm (hascii t ht)
      (lt_of_le_of_lt (hsum t ht) (by decide))
    rw [division_method_hash_pos t hm] at h
    exact Option.some.inj h
  refine ⟨hsum, fun hbig => ⟨fun t ht => ?_, _,
    build_eq NUM_HASH_FUNCTIONS m (by decide) (by omega) tokens, fun i hi him => ?_⟩,
    fun hm => ⟨_, build_eq NUM_HASH_FUNCTIONS m (by decide) hm tokens, ?_⟩⟩
  · rw [division_method_hash_pos t (by omega), hraw t ht (by omega),
      Nat.mod_eq_of_lt (lt_of_le_of_lt (hsum t ht) hbig)]
  · rw [build_getElem? m tokens i him, if_neg]
    rintro ⟨t, ht, e⟩
    rw [hraw t ht (by omega), Nat.mod_eq_of_lt (lt_of_le_of_lt (hsum t ht) hbig)] at e
    have := hsum t ht
    omega
  · by_cases hbig : 12573 < m
    · rw [build_eq_map_range, count_indicator_range m _ (by
        intro x hx
        obtain ⟨t, _, rfl⟩ := List.mem_map.mp hx
        exact Nat.mod_lt _ hm)]
      apply nodup_length_le_of_lt _ _ (List.nodup_dedup _)
      intro x hx
      obtain ⟨t, ht, rfl⟩ := List.mem_map.mp (List.mem_dedup.mp hx)
      rw [hraw t ht hm, Nat.mod_eq_of_lt (lt_of_le_of_lt (hsum t ht) hbig)]
      have := hsum t ht
      omega
    · have hlen : (set_positions m tokens (List.replicate m 0)).length = m := by
        rw [set_positions_length, List.length_replicate]
      have hcount := List.count_le_length 1 (set_positions m tokens (List.replicate m 0))
      omega

/-- Witness of C18: the corpus "a", "zz" with m = 20000. -/
theorem ascii_hash_positions_bounded_witness :
    (∀ t ∈ ([[97], [122, 122]] : List Token), char_code_sum t ≤ 12573) ∧
    (12573 < 20000 →
      (∀ t ∈ ([[97], [122, 122]] : List Token),
        division_method_hash t 20000 = some (char_code_sum t)) ∧
      ∃ bit_array, build NUM_HASH_FUNCTIONS [[97], [122, 122]] 20000 = some bit_array ∧
        ∀ i, 12574 ≤ i → i < 20000 → bit_array[i]? = some 0) ∧
    (0 < 20000 → ∃ bit_array,
      build NUM_HASH_FUNCTIONS [[97], [122, 122]] 20000 = some bit_array ∧
      bit_array.count 1 ≤ 12574) :=
  ascii_hash_positions_bounded [[97], [122, 122]] 20000 (by decide)
    (by simp only [List.forall_mem_cons, List.not_mem_nil, false_imp_iff, implies_true,
          and_true]; decide)

/-! ## Properties of the size estimate at the target rate -/

/-- C12, as stated, fails at n1 = 1, n2 = 344411616: the size for 1 is 6, and
for 344411616 the expression evaluated in doubles is 2^31 or more, so the
conversion `(int)` is undefined and the call has no value to compare with,
whatever the fuel. -/
theorem calc_optimum_bitArraySize_monotone_fails :
    calc_optimum_bitArraySize 7 1 MAX_FP_RATE = some 6 ∧
    (2 : ℝ) ^ 31 ≤ closed_form_double 344411616 MAX_FP_RATE ∧
    double_to_int (closed_form_double 344411616 MAX_FP_RATE) = none ∧
    ¬ ∃ (fuel : ℕ) (m2 : ℤ),
      calc_optimum_bitArraySize fuel 344411616 MAX_FP_RATE = some m2 := by
  have hge := closed_form_double_ge 344411616 (le_refl _) (by norm_num)
  refine ⟨calc_one 7 (le_refl _), hge, double_to_int_of_ge hge, ?_⟩
  rintro ⟨fuel, m2, h⟩
  rw [calc_overflow 344411616 (le_refl _) fuel] at h
  cases h

/-- C12, as amended: with the rate fixed at 0.05 the sizing call is
monotonically non-decreasing in n as long as the size is an `int`: for all
0 <= n1 <= n2 <= 344411615 both calls return (for all sufficient fuel) and the
size for n1 is at most the size for n2. -/
theorem calc_optimum_bitArraySize_monotone (n1 n2 : ℕ) (h : n1 ≤ n2)
    (h2 : n2 ≤ 344411615) :
    ∃ fuel0, ∀ fuel, fuel0 ≤ fuel → ∃ m1 m2 : ℤ,
      calc_optimum_bitArraySize fuel n1 MAX_FP_RATE = some m1 ∧
      calc_optimum_bitArraySize fuel n2 MAX_FP_RATE = some m2 ∧ m1 ≤ m2 := by
  obtain ⟨f1, h1⟩ := calc_eventually n1 (le_trans h h2)
  obtain ⟨f2, h2'⟩ := calc_eventually n2 h2
  refine ⟨max f1 f2, fun fuel hf => ⟨_, _, h1 fuel (le_trans (le_max_left _ _) hf),
    h2' fuel (le_trans (le_max_right _ _) hf), ?_⟩⟩
  exact Int.floor_le_floor
    (closed_form_double_mono n1 n2 h (le_trans h2 (by norm_num)) MAX_FP_RATE max_fp_rate_pos
      max_fp_rate_le)

/-- Witness of C12 as amended: n1 = 1 and n2 = 3. -/
theorem calc_optimum_bitArraySize_monotone_witness :
    ∃ fuel0, ∀ fuel, fuel0 ≤ fuel → ∃ m1 m2 : ℤ,
      calc_optimum_bitArraySize fuel 1 MAX_FP_RATE = some m1 ∧
      calc_optimum_bitArraySize fuel 3 MAX_FP_RATE = some m2 ∧ m1 ≤ m2 :=
  calc_optimum_bitArraySize_monotone 1 3 (by decide) (by decide)

theorem floor_two_mul (x : ℝ) : |⌊2 * x⌋ - 2 * ⌊x⌋| ≤ 1 := by
  have h1 : (⌊x⌋ : ℝ) ≤ x := Int.floor_le x
  have h2 : x < ⌊x⌋ + 1 := Int.lt_floor_add_one x
  have hlo : 2 * ⌊x⌋ ≤ ⌊2 * x⌋ := by
    apply Int.le_floor.mpr
    push_cast
    linarith
  have hhi : ⌊2 * x⌋ < 2 * ⌊x⌋ + 2 := by
    apply Int.floor_lt.mpr
    push_cast
    linarith
  rw [abs_le]
  constructor <;> omega

/-- C13, as stated, fails at n = 172205808: the size for n is an `int`, and
for 2n = 344411616 the expression evaluated in doubles is 2^31 or more, so the
conversion `(int)` is undefined and the call has no value, whatever the
fuel. -/
theorem calc_optimum_bitArraySize_doubling_fails :
    (∃ (fuel : ℕ) (m1 : ℤ),
      calc_optimum_bitArraySize fuel 172205808 MAX_FP_RATE = some m1) ∧
    ¬ ∃ (fuel : ℕ) (m2 : ℤ),
      calc_optimum_bitArraySize fuel (2 * 172205808) MAX_FP_RATE = some m2 := by
  constructor
  · obtain ⟨fuel0, h⟩ := calc_eventually 172205808 (by norm_num)
    exact ⟨fuel0, _, h fuel0 (le_refl _)⟩
  · rintro ⟨fuel, m2, h⟩
    rw [calc_overflow (2 * 172205808) (by norm_num) fuel] at h
    cases h

/-- C13, as amended: with the rate fixed at 0.05, for every n >= 0 with
2n <= 344411615 (the size for 2n is an `int`) both calls return (for all
sufficient fuel) and the size for 2n differs from twice the size for n by at
most 1. -/
theorem calc_optimum_bitArraySize_doubling (n : ℕ) (h : 2 * n ≤ 344411615) :
    ∃ fuel0, ∀ fuel, fuel0 ≤ fuel → ∃ m1 m2 : ℤ,
      calc_optimum_bitArraySize fuel n MAX_FP_RATE = some m1 ∧
      calc_optimum_bitArraySize fuel (2 * n) MAX_FP_RATE = some m2 ∧
      |m2 - 2 * m1| ≤ 1 := by
  obtain ⟨f1, h1⟩ := calc_eventually n (by omega)
  obtain ⟨f2, h2⟩ := calc_eventually (2 * n) h
  refine ⟨max f1 f2, fun fuel hf => ⟨_, _, h1 fuel (le_trans (le_max_left _ _) hf),
    h2 fuel (le_trans (le_max_right _ _) hf), ?_⟩⟩
  rw [closed_form_double_two_mul n (le_trans h (by norm_num)) MAX_FP_RATE max_fp_rate_pos
    max_fp_rate_le]
  exact floor_two_mul _

/-- Witness of C13 as amended: n = 3, where the sizes are 18 and 37. -/
theorem calc_optimum_bitArraySize_doubling_witness :
    ∃ fuel0, ∀ fuel, fuel0 ≤ fuel → ∃ m1 m2 : ℤ,
      calc_optimum_bitArraySize fuel 3 MAX_FP_RATE = some m1 ∧
      calc_optimum_bitArraySize fuel (2 * 3) MAX_FP_RATE = some m2 ∧
      |m2 - 2 * m1| ≤ 1 :=
  calc_optimum_bitArraySize_doubling 3 (by decide)

/-- C20, as stated, fails at n = 1 and the rate 2^-300, a `double` between 0
and 1: the counter `m` is a `double` and `m++` leaves it at 2^53, and at no
candidate up to 2^53 the rate computed in doubles is below 2^-212. The loop
does not end and the call does not return, whatever the fuel. -/
theorem refinement_loop_never_ends :
    (0 : ℝ) < 2 ^ (-300 : ℤ) ∧ (2 : ℝ) ^ (-300 : ℤ) < 1 ∧
    round_double (2 ^ (-300 : ℤ)) = 2 ^ (-300 : ℤ) ∧
    round_double (2 ^ 53 + 1) = 2 ^ 53 ∧
    (¬ ∃ fuel : ℕ, (refine_loop 1 (2 ^ (-300 : ℤ)) fuel 1 1).isSome = true) ∧
    ¬ ∃ (fuel : ℕ) (result : ℤ),
      calc_optimum_bitArraySize fuel 1 (2 ^ (-300 : ℤ)) = some result := by
  have hp : (2 : ℝ) ^ (-300 : ℤ) < 2 ^ (-212 : ℤ) :=
    zpow_lt_zpow_right₀ (by norm_num) (by norm_num)
  have hp1 : (2 : ℝ) ^ (-300 : ℤ) < 1 := by
    have : (2 : ℝ) ^ (-300 : ℤ) < 2 ^ (0 : ℤ) := zpow_lt_zpow_right₀ (by norm_num) (by norm_num)
    simpa using this
  have hnever : ∀ fuel, refine_loop 1 (2 ^ (-300 : ℤ)) fuel 1 1 = none := by
    intro fuel
    have h := refine_loop_never 1 (le_refl _) (by unfold NUM_HASH_FUNCTIONS INT_MAX; norm_num)
      (2 ^ (-300 : ℤ)) hp fuel 1 (le_refl _) (by norm_num) 1 hp1
    simpa using h
  refine ⟨by positivity, hp1, round_double_zpow (-300) (by norm_num), round_double_tie, ?_, ?_⟩
  · rintro ⟨fuel, h⟩
    rw [hnever fuel] at h
    cases h
  · rintro ⟨fuel, result, h⟩
    unfold calc_optimum_bitArraySize at h
    rw [hnever fuel] at h
    split_ifs at h

/-- C20, as amended: for every n with 0 <= n <= 536870911 (the product 4n is
an `int`) and every rate p with 2^-18 <= p < 1 there is a candidate m with
2 <= m <= 2^53 at which the rate computed in doubles is at most p, so with
enough fuel the refinement loop stops and the sizing call reaches its return
statement. -/
theorem refinement_loop_always_ends (n : ℕ) (p : ℝ) (hn : n ≤ 536870911)
    (hp0 : 2 ^ (-18 : ℤ) ≤ p) (hp1 : p < 1) :
    (∃ m : ℕ, 2 ≤ m ∧ m ≤ 2 ^ 53 ∧
      false_positive_rate_double NUM_HASH_FUNCTIONS n (m : ℝ) ≤ p) ∧
    ∃ fuel0, ∀ fuel, fuel0 ≤ fuel →
      (∃ m_final, refine_loop n p fuel 1 1 = some m_final) ∧
      calc_optimum_bitArraySize fuel n p = double_to_int (closed_form_double n p) := by
  have h4n := four_mul_le_int_max n hn
  constructor
  · refine ⟨2 + (2 ^ 53 - 2), by omega, by norm_num, ?_⟩
    have hmargin := rate_margin_at_last_candidate n h4n
    have herr := false_positive_rate_double_sub_le n ((2 + (2 ^ 53 - 2) : ℕ) : ℝ)
      (by norm_num)
    have := (abs_le.mp herr).2
    linarith
  · obtain ⟨fuel0, h⟩ := refine_loop_terminates n p hp0 hp1 h4n
    exact ⟨fuel0, fun fuel hf => ⟨Option.isSome_iff_exists.mp (h fuel hf),
      calc_of_loop_isSome fuel n p (le_int_max n hn) (h fuel hf)⟩⟩

/-- Witness of C20 as amended: n = 3 and the rate 0.05. -/
theorem refinement_loop_always_ends_witness :
    (2 : ℝ) ^ (-18 : ℤ) ≤ MAX_FP_RATE ∧ MAX_FP_RATE < 1 ∧
    (∃ m : ℕ, 2 ≤ m ∧ m ≤ 2 ^ 53 ∧
      false_positive_rate_double NUM_HASH_FUNCTIONS 3 (m : ℝ) ≤ MAX_FP_RATE) ∧
    ∃ fuel0, ∀ fuel, fuel0 ≤ fuel →
      (∃ m_final, refine_loop 3 MAX_FP_RATE fuel 1 1 = some m_final) ∧
      calc_optimum_bitArraySize fuel 3 MAX_FP_RATE =
        double_to_int (closed_form_double 3 MAX_FP_RATE) :=
  ⟨max_fp_rate_ge, max_fp_rate_lt_one,
    refinement_loop_always_ends 3 MAX_FP_RATE (by norm_num) max_fp_rate_ge max_fp_rate_lt_one⟩

/-! ## Runs that do not fit the read buffer -/

/-- A run of 99 characters fits the buffer with its terminator. -/
theorem fscanf_s_fits : fscanf_s (List.replicate 99 97) = some (List.replicate 99 97) := by
  simp [fscanf_s, MAX_STRING_LEN, List.length_replicate]

/-- C16, at the failing input: a file whose only run has 150 characters, or
exactly `MAX_STRING_LEN = 100` characters. The call `fscanf(file, "%s", buffer)`
carries no field width, so the run and its terminator are written past the
end of `char buffer[100]`: the read has no defined result, and neither has
the load, whatever the caller's variables hold. -/
theorem overlong_run_overflows_buffer :
    fscanf_s (List.replicate 150 97) = none ∧
    fscanf_s (List.replicate 100 97) = none ∧
    (∀ v0 : LoadVars, read_strings_from_file (some [List.replicate 150 97]) v0 = none) ∧
    (∀ v0 : LoadVars, read_strings_from_file (some [List.replicate 100 97]) v0 = none) := by
  have h150 : fscanf_s (List.replicate 150 97) = none := by
    simp [fscanf_s, MAX_STRING_LEN, List.length_replicate]
  have h100 : fscanf_s (List.replicate 100 97) = none := by
    simp [fscanf_s, MAX_STRING_LEN, List.length_replicate]
  refine ⟨h150, h100, fun v0 => ?_, fun v0 => ?_⟩
  · simp only [read_strings_from_file, read_loop, h150]
  · simp only [read_strings_from_file, read_loop, h100]

/-! ## The reduction of `total_unique_words` -/

theorem sum_unique_counts_cons (r : Option CorpusResult) (rs : List (Option CorpusResult)) :
    sum_unique_counts (r :: rs) =
      (match r with
        | none => 0
        | some x => x.num_strings) + sum_unique_counts rs := by
  cases r with
  | none => simp [sum_unique_counts]
  | some x => simp [sum_unique_counts]

theorem reduce_foldl_total (results : List (Option CorpusResult)) :
    ∀ t : ParallelTotals,
      (results.foldl reduce_iteration t).total_unique_words =
        t.total_unique_words + sum_unique_counts results := by
  induction results with
  | nil => intro t; simp [sum_unique_counts]
  | cons r rest ih =>
    intro t
    rw [List.foldl_cons, ih, sum_unique_counts_cons]
    cases r with
    | none => simp [reduce_iteration]
    | some x => simp only [reduce_iteration]; omega

theorem parallel_reduce_total (results : List (Option CorpusResult)) :
    (parallel_reduce results).total_unique_words = sum_unique_counts results := by
  unfold parallel_reduce
  rw [reduce_foldl_total]
  simp

theorem sum_unique_counts_perm (results order : List (Option CorpusResult))
    (hperm : order.Perm results) : sum_unique_counts order = sum_unique_counts results := by
  unfold sum_unique_counts
  exact ((hperm.filterMap id).map _).sum_eq

theorem filter_pipeline_num_strings (fuel : ℕ) (v : LoadVars) (r : CorpusResult)
    (h : filter_pipeline fuel v = some r) : r.num_strings = v.num_strings := by
  unfold filter_pipeline at h
  cases hc : calc_optimum_bitArraySize fuel v.num_strings MAX_FP_RATE with
  | none => rw [hc] at h; cases h
  | some mz =>
    rw [hc] at h
    simp only at h
    by_cases hneg : mz < 0
    · rw [if_pos hneg] at h; cases h
    · rw [if_neg hneg] at h
      cases hb : build NUM_HASH_FUNCTIONS (v.strings_arr.take v.num_strings) mz.toNat with
      | none => rw [hb] at h; cases h
      | some arr =>
        rw [hb] at h
        simp only at h
        cases hq : query NUM_HASH_FUNCTIONS geohash arr mz.toNat with
        | none => rw [hq] at h; cases h
        | some b =>
          rw [hq] at h
          simp only [Option.some.injEq] at h
          rw [← h]

theorem serial_iteration_total (fuel : ℕ) (s s1 : SerialState) (file : Option (List Token))
    (r : Option CorpusResult) (h : serial_iteration fuel s file = some (s1, r)) :
    s1.total_unique_words = s.total_unique_words + sum_unique_counts [r] := by
  unfold serial_iteration at h
  cases hr : read_strings_from_file file s.vars with
  | none => rw [hr] at h; cases h
  | some bv =>
    obtain ⟨b, v⟩ := bv
    rw [hr] at h
    cases b with
    | false =>
      simp only [Option.some.injEq, Prod.mk.injEq] at h
      obtain ⟨hs, hrr⟩ := h
      rw [← hs, ← hrr]
      simp [sum_unique_counts]
    | true =>
      simp only at h
      cases hp : filter_pipeline fuel v with
      | none => rw [hp] at h; cases h
      | some x =>
        rw [hp] at h
        simp only [Option.some.injEq, Prod.mk.injEq] at h
        obtain ⟨hs, hrr⟩ := h
        rw [← hs, ← hrr]
        simp [sum_unique_counts, filter_pipeline_num_strings fuel v x hp]

theorem serial_loop_total (fuel : ℕ) (files : List (Option (List Token))) :
    ∀ (s s1 : SerialState) (rs : List (Option CorpusResult)),
      serial_loop fuel files s = some (s1, rs) →
      s1.total_unique_words = s.total_unique_words + sum_unique_counts rs := by
  induction files with
  | nil =>
    intro s s1 rs h
    simp only [serial_loop, Option.some.injEq, Prod.mk.injEq] at h
    obtain ⟨hs, hrs⟩ := h
    rw [← hs, ← hrs]
    simp [sum_unique_counts]
  | cons file rest ih =>
    intro s s1 rs h
    unfold serial_loop at h
    cases hi : serial_iteration fuel s file with
    | none => rw [hi] at h; cases h
    | some sr =>
      obtain ⟨s2, r⟩ := sr
      rw [hi] at h
      simp only at h
      cases hl : serial_loop fuel rest s2 with
      | none => rw [hl] at h; cases h
      | some srs =>
        obtain ⟨s3, rs3⟩ := srs
        rw [hl] at h
        simp only [Option.some.injEq, Prod.mk.injEq] at h
        obtain ⟨hs, hrs⟩ := h
        rw [← hs, ← hrs, ih s2 s3 rs3 hl, serial_iteration_total fuel s s2 file r hi,
          sum_unique_counts_cons r rs3, sum_unique_counts_cons r []]
        simp [sum_unique_counts]
        omega

theorem parallel_iterations_iff (fuel : ℕ) (jobs : List (Option (List Token) × Readings)) :
    ∀ outs : List (Option CorpusResult × ℝ),
      parallel_iterations fuel jobs = some outs ↔
        List.Forall₂ (fun job out => parallel_iteration_timed fuel job.1 job.2 = some out)
          jobs outs := by
  induction jobs with
  | nil =>
    intro outs
    simp only [parallel_iterations, Option.some.injEq, List.forall₂_nil_left_iff]
    exact eq_comm
  | cons job rest ih =>
    intro outs
    unfold parallel_iterations
    constructor
    · intro h
      cases hi : parallel_iteration_timed fuel job.1 job.2 with
      | none => rw [hi] at h; cases h
      | some out =>
        rw [hi] at h
        simp only at h
        cases hr : parallel_iterations fuel rest with
        | none => rw [hr] at h; cases h
        | some outs1 =>
          rw [hr] at h
          simp only [Option.some.injEq] at h
          rw [← h]
          exact List.Forall₂.cons hi ((ih outs1).mp hr)
    · intro h
      cases h with
      | cons hhead htail =>
        rw [hhead]
        simp only
        rw [(ih _).mpr htail]

theorem parallel_main_of_iterations (fuel : ℕ) (ts te : ℝ)
    (jobs : List (Option (List Token) × Readings)) (outs : List (Option CorpusResult × ℝ))
    (h : parallel_iterations fuel jobs = some outs) :
    ∃ agg, parallel_main fuel ts te jobs = some (agg, outs.map Prod.fst) ∧
      agg.total_unique_words = sum_unique_counts (outs.map Prod.fst) ∧
      agg.m = (parallel_reduce (outs.map Prod.fst)).m ∧
      agg.total_optimization_time = (outs.map Prod.snd).sum ∧
      agg.total_process_time = te - ts ∧
      agg.total_read_time = (te - ts) - (outs.map Prod.snd).sum := by
  unfold parallel_main
  rw [h]
  exact ⟨_, rfl, parallel_reduce_total _, rfl, rfl, rfl, rfl⟩

theorem parallel_main_some (fuel : ℕ) (ts te : ℝ)
    (jobs : List (Option (List Token) × Readings)) (agg : Aggregate)
    (rs : List (Option CorpusResult)) (h : parallel_main fuel ts te jobs = some (agg, rs)) :
    ∃ outs, parallel_iterations fuel jobs = some outs ∧ rs = outs.map Prod.fst ∧
      agg.total_unique_words = sum_unique_counts rs := by
  cases hi : parallel_iterations fuel jobs with
  | none =>
    unfold parallel_main at h
    rw [hi] at h
    cases h
  | some outs =>
    obtain ⟨agg1, hrun, htotal, _⟩ := parallel_main_of_iterations fuel ts te jobs outs hi
    rw [hrun] at h
    simp only [Option.some.injEq, Prod.mk.injEq] at h
    obtain ⟨hagg, hrs⟩ := h
    exact ⟨outs, rfl, hrs.symm, by rw [← hagg, ← hrs]; exact htotal⟩

/-- C14: for every list of per-corpus results and every order in which the
pipelines take effect (every permutation of that list), the reduced
`total_unique_words` is the sum of the `num_strings` of the corpora that
loaded. The same holds of whole runs: when the parallel program returns on a
list of corpora, it returns on every reordering of them with the same total,
that sum; and the total of the serial program is that sum as well. -/
theorem total_unique_words_order_independent
    (results order : List (Option CorpusResult)) (hperm : order.Perm results) :
    (parallel_reduce order).total_unique_words = sum_unique_counts results ∧
    (∀ (fuel : ℕ) (ts te : ℝ) (jobs schedule : List (Option (List Token) × Readings))
        (agg : Aggregate) (rs : List (Option CorpusResult)),
      schedule.Perm jobs → parallel_main fuel ts te jobs = some (agg, rs) →
      agg.total_unique_words = sum_unique_counts rs ∧
      ∃ agg1 rs1, parallel_main fuel ts te schedule = some (agg1, rs1) ∧ rs1.Perm rs ∧
        agg1.total_unique_words = agg.total_unique_words) ∧
    (∀ (fuel : ℕ) (files : List (Option (List Token))) (s : SerialState)
        (rs : List (Option CorpusResult)),
      serial_main fuel files = some (s, rs) →
      s.total_unique_words = sum_unique_counts rs) := by
  refine ⟨?_, ?_, ?_⟩
  · rw [parallel_reduce_total, sum_unique_counts_perm results order hperm]
  · intro fuel ts te jobs schedule agg rs hsched hrun
    obtain ⟨outs, houts, hrs, htotal⟩ := parallel_main_some fuel ts te jobs agg rs hrun
    refine ⟨htotal, ?_⟩
    have hall := (parallel_iterations_iff fuel jobs outs).mp houts
    obtain ⟨outs1, hall1, hperm1⟩ := List.perm_comp_forall₂ hsched hall
    have houts1 := (parallel_iterations_iff fuel schedule outs1).mpr hall1
    obtain ⟨agg1, hrun1, htotal1, _⟩ :=
      parallel_main_of_iterations fuel ts te schedule outs1 houts1
    have hpermrs : (outs1.map Prod.fst).Perm rs := by
      rw [hrs]
      exact hperm1.map _
    refine ⟨agg1, _, hrun1, hpermrs, ?_⟩
    rw [htotal1, htotal, sum_unique_counts_perm rs _ hpermrs]
  · intro fuel files s rs h
    have := serial_loop_total fuel files _ s rs h
    simpa using this

/-! ## A corpus that cannot be opened -/

theorem serial_iteration_timed_unopened (fuel : ℕ) (s : SerialState) (t : SerialTimes)
    (c : Readings) : serial_iteration_timed fuel s t none c = some (s, t, none) := rfl

theorem parallel_iteration_timed_unopened (fuel : ℕ) (c : Readings) :
    parallel_iteration_timed fuel none c = some (none, 0) := rfl

theorem serial_loop_timed_insert (fuel : ℕ) (post : List (Option (List Token) × Readings))
    (c : Readings) (pre : List (Option (List Token) × Readings)) :
    ∀ (s s1 : SerialState) (t t1 : SerialTimes) (rs : List (Option CorpusResult)),
      serial_loop_timed fuel (pre ++ post) s t = some (s1, t1, rs) →
      serial_loop_timed fuel (pre ++ (none, c) :: post) s t =
        some (s1, t1, rs.take pre.length ++ none :: rs.drop pre.length) := by
  induction pre with
  | nil =>
    intro s s1 t t1 rs h
    simp only [List.nil_append] at h
    simp only [List.nil_append, List.length_nil, List.take_zero, List.drop_zero]
    unfold serial_loop_timed
    simp only [serial_iteration_timed_unopened, h]
  | cons job rest ih =>
    intro s s1 t t1 rs h
    simp only [List.cons_append] at h ⊢
    unfold serial_loop_timed at h ⊢
    cases hi : serial_iteration_timed fuel s t job.1 job.2 with
    | none => rw [hi] at h; cases h
    | some str =>
      obtain ⟨s2, t2, r⟩ := str
      rw [hi] at h
      simp only at h ⊢
      cases hl : serial_loop_timed fuel (rest ++ post) s2 t2 with
      | none => rw [hl] at h; cases h
      | some strs =>
        obtain ⟨s3, t3, rs3⟩ := strs
        rw [hl] at h
        simp only [Option.some.injEq, Prod.mk.injEq] at h
        obtain ⟨hs, ht, hrs⟩ := h
        rw [ih s2 s3 t2 t3 rs3 hl, ← hs, ← ht, ← hrs]
        simp only [List.length_cons, List.take_succ_cons, List.drop_succ_cons,
          List.cons_append]

theorem parallel_iterations_insert (fuel : ℕ) (post : List (Option (List Token) × Readings))
    (c : Readings) (pre : List (Option (List Token) × Readings)) :
    ∀ outs : List (Option CorpusResult × ℝ),
      parallel_iterations fuel (pre ++ post) = some outs →
      parallel_iterations fuel (pre ++ (none, c) :: post) =
        some (outs.take pre.length ++ (none, 0) :: outs.drop pre.length) := by
  induction pre with
  | nil =>
    intro outs h
    simp only [List.nil_append] at h
    simp only [List.nil_append, List.length_nil, List.take_zero, List.drop_zero]
    unfold parallel_iterations
    simp only [parallel_iteration_timed_unopened, h]
  | cons job rest ih =>
    intro outs h
    simp only [List.cons_append] at h ⊢
    unfold parallel_iterations at h ⊢
    cases hi : parallel_iteration_timed fuel job.1 job.2 with
    | none => rw [hi] at h; cases h
    | some out =>
      rw [hi] at h
      simp only at h ⊢
      cases hl : parallel_iterations fuel (rest ++ post) with
      | none => rw [hl] at h; cases h
      | some outs1 =>
        rw [hl] at h
        simp only [Option.some.injEq] at h
        rw [ih outs1 hl, ← h]
        simp only [List.length_cons, List.take_succ_cons, List.drop_succ_cons,
          List.cons_append]

theorem parallel_reduce_insert (rs : List (Option CorpusResult)) (n : ℕ) :
    parallel_reduce (rs.take n ++ none :: rs.drop n) = parallel_reduce rs := by
  unfold parallel_reduce
  rw [List.foldl_append, List.foldl_cons]
  have hstep : ∀ t : ParallelTotals, reduce_iteration t none = t := fun _ => rfl
  rw [hstep, ← List.foldl_append, List.take_append_drop]

theorem sum_insert_zero (xs : List ℝ) (n : ℕ) :
    (xs.take n ++ 0 :: xs.drop n).sum = xs.sum := by
  rw [List.sum_append, List.sum_cons, zero_add, ← List.sum_append, List.take_append_drop]

/-- C15: a corpus whose source cannot be opened makes the loader return 0 with
the caller's variables untouched, takes no clock reading and leaves
`local_optimization_time` at 0. For every list of corpora on which the run
returns, the run with an unopenable corpus added at any place returns the
same aggregate (total unique words, `m`, read time, optimization time,
process time, from the same clock readings), in the serial and in the
parallel program, and the results of the other corpora are the same, with
the entry of the unopenable corpus holding no result. -/
theorem unopenable_corpus_contributes_nothing (fuel : ℕ) (ts te : ℝ)
    (pre post : List (Option (List Token) × Readings)) (c : Readings)
    (agg_s agg_p : Aggregate) (rs_s rs_p : List (Option CorpusResult))
    (hserial : serial_main_timed fuel ts te (pre ++ post) = some (agg_s, rs_s))
    (hparallel : parallel_main fuel ts te (pre ++ post) = some (agg_p, rs_p)) :
    (∀ v : LoadVars, read_strings_from_file none v = some (false, v)) ∧
    parallel_iteration_timed fuel none c = some (none, 0) ∧
    serial_main_timed fuel ts te (pre ++ (none, c) :: post) =
      some (agg_s, rs_s.take pre.length ++ none :: rs_s.drop pre.length) ∧
    parallel_main fuel ts te (pre ++ (none, c) :: post) =
      some (agg_p, rs_p.take pre.length ++ none :: rs_p.drop pre.length) := by
  refine ⟨fun _ => rfl, rfl, ?_, ?_⟩
  · unfold serial_main_timed at hserial ⊢
    cases hl : serial_loop_timed fuel (pre ++ post)
        { vars := { strings_arr := [], num_strings := 0, total_strings := 0 },
          m := 0, total_unique_words := 0 }
        { total_read_time := 0, total_optimization_time := 0 } with
    | none => rw [hl] at hserial; cases hserial
    | some strs =>
      obtain ⟨s1, t1, rs1⟩ := strs
      rw [hl] at hserial
      simp only [Option.some.injEq, Prod.mk.injEq] at hserial
      obtain ⟨hagg, hrs⟩ := hserial
      rw [serial_loop_timed_insert fuel post c pre _ s1 _ t1 rs1 hl]
      simp only
      rw [hagg, hrs]
  · unfold parallel_main at hparallel ⊢
    cases hi : parallel_iterations fuel (pre ++ post) with
    | none => rw [hi] at hparallel; cases hparallel
    | some outs =>
      rw [hi] at hparallel
      simp only [Option.some.injEq, Prod.mk.injEq] at hparallel
      obtain ⟨hagg, hrs⟩ := hparallel
      rw [parallel_iterations_insert fuel post c pre outs hi]
      simp only [List.map_append, List.map_cons, List.map_take, List.map_drop,
        parallel_reduce_insert, sum_insert_zero]
      rw [hagg, hrs]

/-! ## Two one-token corpora, evaluated -/

theorem filter_pipeline_a (total : ℕ) :
    filter_pipeline 7 { strings_arr := [[97]], num_strings := 1, total_strings := total } =
      some { num_strings := 1, total_strings := total, m := 6,
             bit_array := [0, 1, 0, 0, 0, 0], is_present := false } :=
  filter_pipeline_eq 7 _ 6 _ _ (calc_one 7 (le_refl _))
    (by show build NUM_HASH_FUNCTIONS _ 6 = _; rfl) (by decide)

theorem filter_pipeline_b (total : ℕ) :
    filter_pipeline 7 { strings_arr := [[98]], num_strings := 1, total_strings := total } =
      some { num_strings := 1, total_strings := total, m := 6,
             bit_array := [0, 0, 1, 0, 0, 0], is_present := false } :=
  filter_pipeline_eq 7 _ 6 _ _ (calc_one 7 (le_refl _))
    (by show build NUM_HASH_FUNCTIONS _ 6 = _; rfl) (by decide)

theorem read_a (arr : List Token) (num total : ℕ) :
    read_strings_from_file (some [[97]])
      { strings_arr := arr, num_strings := num, total_strings := total } =
      some (true, { strings_arr := [[97]], num_strings := 1, total_strings := total + 1 }) :=
  rfl

theorem read_b (arr : List Token) (num total : ℕ) :
    read_strings_from_file (some [[98]])
      { strings_arr := arr, num_strings := num, total_strings := total } =
      some (true, { strings_arr := [[98]], num_strings := 1, total_strings := total + 1 }) :=
  rfl

theorem parallel_main_a_b (ts te : ℝ) (c1 c2 : Readings)
    (h1 : c1.shared_m = undisturbed) (h2 : c2.shared_m = undisturbed) :
    ∃ agg, parallel_main 7 ts te [(some [[97]], c1), (some [[98]], c2)] = some (agg,
      [some { num_strings := 1, total_strings := 1, m := 6,
              bit_array := [0, 1, 0, 0, 0, 0], is_present := false },
       some { num_strings := 1, total_strings := 1, m := 6,
              bit_array := [0, 0, 1, 0, 0, 0], is_present := false }]) ∧
      agg.total_unique_words = 2 := by
  have hi : parallel_iterations 7 [(some [[97]], c1), (some [[98]], c2)] = some
      [(some { num_strings := 1, total_strings := 1, m := 6,
               bit_array := [0, 1, 0, 0, 0, 0], is_present := false },
         c1.optimization_end - c1.optimization_start),
       (some { num_strings := 1, total_strings := 1, m := 6,
               bit_array := [0, 0, 1, 0, 0, 0], is_present := false },
         c2.optimization_end - c2.optimization_start)] := by
    simp only [parallel_iterations, parallel_iteration_timed, h1, h2,
      parallel_iteration_undisturbed, read_a, read_b, filter_pipeline_a, filter_pipeline_b]
  obtain ⟨agg, hrun, htotal, _⟩ := parallel_main_of_iterations 7 ts te _ _ hi
  exact ⟨agg, hrun, by rw [htotal]; rfl⟩

theorem serial_main_timed_a_b (ts te : ℝ) (c1 c2 : Readings) :
    ∃ agg, serial_main_timed 7 ts te [(some [[97]], c1), (some [[98]], c2)] = some (agg,
      [some { num_strings := 1, total_strings := 1, m := 6,
              bit_array := [0, 1, 0, 0, 0, 0], is_present := false },
       some { num_strings := 1, total_strings := 2, m := 6,
              bit_array := [0, 0, 1, 0, 0, 0], is_present := false }]) ∧
      agg.total_unique_words = 2 := by
  simp only [serial_main_timed, serial_loop_timed, serial_iteration_timed, serial_iteration,
    read_a, read_b, filter_pipeline_a, filter_pipeline_b]
  exact ⟨_, rfl, rfl⟩

/-- Witness of C14: the results of the corpora "a", an unopenable one and "b",
reduced in another order, and the parallel run on two orders of them. -/
theorem total_unique_words_order_independent_witness :
    (parallel_reduce
      [some { num_strings := 1, total_strings := 1, m := 6,
              bit_array := [0, 0, 1, 0, 0, 0], is_present := false },
       some { num_strings := 1, total_strings := 1, m := 6,
              bit_array := [0, 1, 0, 0, 0, 0], is_present := false },
       none]).total_unique_words = 2 ∧
    ∃ agg rs agg1 rs1,
      parallel_main 7 0 9 [(some [[97]], ⟨0, 1, 1, 2, undisturbed⟩), (some [[98]], ⟨2, 3, 3, 4, undisturbed⟩)] =
        some (agg, rs) ∧
      parallel_main 7 0 9 [(some [[98]], ⟨2, 3, 3, 4, undisturbed⟩), (some [[97]], ⟨0, 1, 1, 2, undisturbed⟩)] =
        some (agg1, rs1) ∧
      rs1.Perm rs ∧ agg1.total_unique_words = agg.total_unique_words ∧
      agg.total_unique_words = 2 := by
  have h := total_unique_words_order_independent
    [some { num_strings := 1, total_strings := 1, m := 6,
            bit_array := [0, 1, 0, 0, 0, 0], is_present := false },
     none,
     some { num_strings := 1, total_strings := 1, m := 6,
            bit_array := [0, 0, 1, 0, 0, 0], is_present := false }]
    [some { num_strings := 1, total_strings := 1, m := 6,
            bit_array := [0, 0, 1, 0, 0, 0], is_present := false },
     some { num_strings := 1, total_strings := 1, m := 6,
            bit_array := [0, 1, 0, 0, 0, 0], is_present := false },
     none]
    (by decide)
  obtain ⟨agg, hrun, htotal⟩ := parallel_main_a_b 0 9 ⟨0, 1, 1, 2, undisturbed⟩ ⟨2, 3, 3, 4, undisturbed⟩
    rfl rfl
  obtain ⟨_, agg1, rs1, hrun1, hperm1, htotal1⟩ :=
    h.2.1 7 0 9 _ [(some [[98]], ⟨2, 3, 3, 4, undisturbed⟩), (some [[97]], ⟨0, 1, 1, 2, undisturbed⟩)] agg _
      (List.Perm.swap _ _ []) hrun
  exact ⟨by rw [h.1]; rfl, agg, _, agg1, rs1, hrun, hrun1, hperm1, htotal1, htotal⟩

/-- Witness of C15: the corpora "a" and "b", and an unopenable corpus put
between them. -/
theorem unopenable_corpus_contributes_nothing_witness :
    ∃ agg_s rs_s agg_p rs_p,
      serial_main_timed 7 0 9 [(some [[97]], ⟨0, 1, 1, 2, undisturbed⟩), (some [[98]], ⟨2, 3, 3, 4, undisturbed⟩)] =
        some (agg_s, rs_s) ∧
      parallel_main 7 0 9 [(some [[97]], ⟨0, 1, 1, 2, undisturbed⟩), (some [[98]], ⟨2, 3, 3, 4, undisturbed⟩)] =
        some (agg_p, rs_p) ∧
      serial_main_timed 7 0 9
        [(some [[97]], ⟨0, 1, 1, 2, undisturbed⟩), (none, ⟨5, 6, 6, 7, undisturbed⟩), (some [[98]], ⟨2, 3, 3, 4, undisturbed⟩)] =
        some (agg_s, rs_s.take 1 ++ none :: rs_s.drop 1) ∧
      parallel_main 7 0 9
        [(some [[97]], ⟨0, 1, 1, 2, undisturbed⟩), (none, ⟨5, 6, 6, 7, undisturbed⟩), (some [[98]], ⟨2, 3, 3, 4, undisturbed⟩)] =
        some (agg_p, rs_p.take 1 ++ none :: rs_p.drop 1) ∧
      agg_s.total_unique_words = 2 ∧ agg_p.total_unique_words = 2 := by
  obtain ⟨agg_s, hs, hts⟩ := serial_main_timed_a_b 0 9 ⟨0, 1, 1, 2, undisturbed⟩ ⟨2, 3, 3, 4, undisturbed⟩
  obtain ⟨agg_p, hp, htp⟩ := parallel_main_a_b 0 9 ⟨0, 1, 1, 2, undisturbed⟩ ⟨2, 3, 3, 4, undisturbed⟩
    rfl rfl
  have h := unopenable_corpus_contributes_nothing 7 0 9 [(some [[97]], ⟨0, 1, 1, 2, undisturbed⟩)]
    [(some [[98]], ⟨2, 3, 3, 4, undisturbed⟩)] ⟨5, 6, 6, 7, undisturbed⟩ agg_s agg_p _ _ hs hp
  exact ⟨agg_s, _, agg_p, _, hs, hp, h.2.2.1, h.2.2.2, hts, htp⟩

/-! ## The serial and the parallel program, corpus by corpus -/

theorem read_abc (arr : List Token) (num total : ℕ) :
    read_strings_from_file (some [[97], [98], [99]])
      { strings_arr := arr, num_strings := num, total_strings := total } =
      some (true, { strings_arr := [[97], [98], [99]], num_strings := 3,
                    total_strings := total + 3 }) :=
  rfl

theorem filter_pipeline_abc (total : ℕ) :
    filter_pipeline 20
      { strings_arr := [[97], [98], [99]], num_strings := 3, total_strings := total } =
      some { num_strings := 3, total_strings := total, m := 18,
             bit_array := [0, 0, 0, 0, 0, 0, 0, 1, 1, 1, 0, 0, 0, 0, 0, 0, 0, 0],
             is_present := false } :=
  filter_pipeline_eq 20 _ 18 _ _ (calc_three 20 (le_refl _))
    (by show build NUM_HASH_FUNCTIONS _ 18 = _; rfl) (by decide)

theorem filter_pipeline_a_twenty (total : ℕ) :
    filter_pipeline 20 { strings_arr := [[97]], num_strings := 1, total_strings := total } =
      some { num_strings := 1, total_strings := total, m := 6,
             bit_array := [0, 1, 0, 0, 0, 0], is_present := false } :=
  filter_pipeline_eq 20 _ 6 _ _ (calc_one 20 (by decide))
    (by show build NUM_HASH_FUNCTIONS _ 6 = _; rfl) (by decide)

/-- The iteration of the one-token corpus "a" with the reads of the shared `m`
left open: the sizing call returns 6, and the allocation, the insertion loops
and the query loop use what they find in `m`. -/
theorem parallel_iteration_a (shared : SharedReads) :
    parallel_iteration 20 (some [[97]]) shared =
      match build_loop NUM_HASH_FUNCTIONS (shared.at_insert.getD (shared.at_calloc.getD 6))
          [[97]] (List.replicate (shared.at_calloc.getD 6) 0) with
      | none => none
      | some bit_array =>
        match query NUM_HASH_FUNCTIONS geohash bit_array
            (shared.at_query.getD (shared.at_insert.getD (shared.at_calloc.getD 6))) with
        | none => none
        | some is_present =>
          some (some { num_strings := 1, total_strings := 1, m := 6,
                       bit_array := bit_array, is_present := is_present }) := by
  unfold parallel_iteration
  rw [read_a]
  simp only
  rw [calc_one 20 (by decide)]
  rfl

/-- C21, at the failing input: the corpora "a" and "a b c". The serial program
builds for "a" the bit array of size 6 with bit 1 set, and for "a b c" the one
of size 18. In the parallel program `m` is shared: when the thread of "a b c"
writes its 18 between the write `m = calc_optimum_bitArraySize(n, MAX_FP_RATE)`
of the thread of "a" and its `calloc(m, ...)`, the corpus "a" gets an array of
18 entries with bit 7 set, which is not the filter of the serial program; when
the write lands after the `calloc`, the insertion writes entry 7 of an array
of 6 entries. The totals of unique words agree all the same. -/
theorem parallel_shared_m_diverges :
    (∃ s, serial_main 20 [some [[97]], some [[97], [98], [99]]] = some (s,
      [some { num_strings := 1, total_strings := 1, m := 6,
              bit_array := [0, 1, 0, 0, 0, 0], is_present := false },
       some { num_strings := 3, total_strings := 4, m := 18,
              bit_array := [0, 0, 0, 0, 0, 0, 0, 1, 1, 1, 0, 0, 0, 0, 0, 0, 0, 0],
              is_present := false }]) ∧ s.total_unique_words = 4) ∧
    (∃ agg, parallel_main 20 0 9
        [(some [[97]], ⟨0, 1, 1, 2, { at_calloc := some 18, at_insert := none,
                                       at_query := none }⟩),
         (some [[97], [98], [99]], ⟨0, 1, 1, 2, undisturbed⟩)] = some (agg,
      [some { num_strings := 1, total_strings := 1, m := 6,
              bit_array := [0, 0, 0, 0, 0, 0, 0, 1, 0, 0, 0, 0, 0, 0, 0, 0, 0, 0],
              is_present := false },
       some { num_strings := 3, total_strings := 3, m := 18,
              bit_array := [0, 0, 0, 0, 0, 0, 0, 1, 1, 1, 0, 0, 0, 0, 0, 0, 0, 0],
              is_present := false }]) ∧ agg.total_unique_words = 4) ∧
    ¬ same_filter
      (some { num_strings := 1, total_strings := 1, m := 6,
              bit_array := [0, 1, 0, 0, 0, 0], is_present := false })
      (some { num_strings := 1, total_strings := 1, m := 6,
              bit_array := [0, 0, 0, 0, 0, 0, 0, 1, 0, 0, 0, 0, 0, 0, 0, 0, 0, 0],
              is_present := false }) ∧
    parallel_iteration 20 (some [[97]])
      { at_calloc := none, at_insert := some 18, at_query := none } = none ∧
    parallel_iteration 20 (some [[97]]) undisturbed =
      some (some { num_strings := 1, total_strings := 1, m := 6,
                   bit_array := [0, 1, 0, 0, 0, 0], is_present := false }) := by
  refine ⟨?_, ?_, ?_, ?_, ?_⟩
  · simp only [serial_main, serial_loop, serial_iteration, read_a, read_abc,
      filter_pipeline_a_twenty, filter_pipeline_abc]
    exact ⟨_, rfl, rfl⟩
  · have hi : parallel_iterations 20
        [(some [[97]], ⟨0, 1, 1, 2, { at_calloc := some 18, at_insert := none,
                                       at_query := none }⟩),
         (some [[97], [98], [99]], ⟨0, 1, 1, 2, undisturbed⟩)] = some
        [(some { num_strings := 1, total_strings := 1, m := 6,
                 bit_array := [0, 0, 0, 0, 0, 0, 0, 1, 0, 0, 0, 0, 0, 0, 0, 0, 0, 0],
                 is_present := false }, 2 - 1),
         (some { num_strings := 3, total_strings := 3, m := 18,
                 bit_array := [0, 0, 0, 0, 0, 0, 0, 1, 1, 1, 0, 0, 0, 0, 0, 0, 0, 0],
                 is_present := false }, 2 - 1)] := by
      have ha : parallel_iteration 20 (some [[97]])
          { at_calloc := some 18, at_insert := none, at_query := none } =
          some (some { num_strings := 1, total_strings := 1, m := 6,
                       bit_array := [0, 0, 0, 0, 0, 0, 0, 1, 0, 0, 0, 0, 0, 0, 0, 0, 0, 0],
                       is_present := false }) := by
        rw [parallel_iteration_a]
        rfl
      simp only [parallel_iterations, parallel_iteration_timed, ha,
        parallel_iteration_undisturbed, read_abc, filter_pipeline_abc]
    obtain ⟨agg, hrun, htotal, _⟩ := parallel_main_of_iterations 20 0 9 _ _ hi
    exact ⟨agg, hrun, by rw [htotal]; rfl⟩
  · unfold same_filter
    decide
  · rw [parallel_iteration_a]
    rfl
  · rw [parallel_iteration_a]
    rfl

end BloomFilter
